import Mathlib

/-! # The connection hub of the API-gateway WebSocket emulator

A shallow embedding of `websocket/hub.go`, `websocket/connections.go` and
`websocket/subscriptions.go`.

Conventions of the embedding.

* A Go pointer is modelled by the value it points to.  A nil pointer is
  modelled only where the source tests for it (`message == nil` on the inbound
  path), there as `Option`.
* A Go channel of byte slices is a handle (a natural number) into a heap of
  channel states.  A channel state is its capacity, its buffered items (oldest
  first) and its closed flag.  Closing a closed channel and sending on a closed
  channel panic, as in Go.
* A `func` field of a listener is `Option` of a handle: `none` is Go's `nil`.
  The hub only calls these functions, so what a step of the hub does with them
  is recorded as the list of calls it makes, in the order it makes them.  The
  fields of the hub and the `send` field of a connection are unexported, so a
  callback cannot change them.
* `Hub.Run` is modelled on the finite list of values it has received from its
  channels before its context was cancelled.
-/

namespace Websocket

/-- One byte of a payload. -/
abbrev Byte := UInt8

/-- A payload, Go's `[]byte`. -/
abbrev Bytes := List Byte

/-! ## Go channels -/

/-- The ways in which a channel operation panics. -/
inductive Panic where
  | closeOfClosedChannel
  | sendOnClosedChannel
deriving DecidableEq, Repr

/-- The state of a buffered `chan []byte`. -/
structure Chan where
  cap : Nat
  buf : List Bytes
  closed : Bool
deriving DecidableEq, Repr

/-- Go's `make(chan []byte, n)`. -/
def Chan.make (n : Nat) : Chan := ⟨n, [], false⟩

/-- Go's `len(ch)`. -/
def Chan.len (ch : Chan) : Nat := ch.buf.length

/-- Go's `close(ch)`. -/
def Chan.close (ch : Chan) : Except Panic Chan :=
  if ch.closed then .error .closeOfClosedChannel
  else .ok { ch with closed := true }

/-- Go's `select { case ch <- v: ... default: ... }` on a buffered channel: `some` of the
new channel state when the send went through, `none` when the default branch was taken. -/
def Chan.trySend (ch : Chan) (v : Bytes) : Except Panic (Option Chan) :=
  if ch.closed then .error .sendOnClosedChannel
  else if ch.buf.length < ch.cap then .ok (some { ch with buf := ch.buf ++ [v] })
  else .ok none

/-- Go's `v, ok := <-ch` when it does not block: the received value, the `ok` flag and the
new channel state.  `none` when the receive would block (open and empty). -/
def Chan.recv (ch : Chan) : Option (Bytes × Bool × Chan) :=
  match ch.buf with
  | v :: rest => some (v, true, { ch with buf := rest })
  | [] => if ch.closed then some ([], false, ch) else none

/-! ## Data model (`hub.go`, `connections.go`, `subscriptions.go`) -/

/-- The struct `Connection`: its id, the handle of its socket and the handle of its `send`
channel. -/
structure Connection where
  ID : String
  ws : Nat
  send : Nat
deriving DecidableEq, Repr

/-- The struct `Msg`. -/
structure Msg where
  ConnectionID : String
  Data : Bytes
deriving DecidableEq, Repr

/-- The struct `Listener`; a callback field is `none` when it is nil. -/
structure Listener where
  ID : String
  OnMessage : Option Nat
  OnConnect : Option Nat
  OnDisconnect : Option Nat
deriving DecidableEq, Repr

/-- The fields `connections` and `listeners` of the struct `Hub`. -/
structure Hub where
  connections : String → Option Connection
  listeners : List Listener

/-- The hub together with the heap of the `send` channels. -/
structure State where
  hub : Hub
  chans : Nat → Chan

/-- Capacity of a `send` channel, as made by `serveWS`. -/
def sendCapacity : Nat := 256

/-- `NewHub`: no connection, no listener. -/
def NewHub : Hub := ⟨fun _ => none, []⟩

/-- The state at start: the new hub, and every channel handle that `serveWS` will hand
out holds `make(chan []byte, 256)`. -/
def State.init : State := ⟨NewHub, fun _ => Chan.make sendCapacity⟩

/-- `Hub.HasConnection`. -/
def Hub.HasConnection (h : Hub) (connectionID : String) : Bool :=
  match h.connections connectionID with
  | some _ => true
  | none => false

/-- A value received by `Hub.Run` from one of its channels. -/
inductive Event where
  | listen (listener : Listener)
  | register (connection : Connection)
  | unregister (connection : Connection)
  | inbound (message : Option Msg)
  | outbound (message : Msg)
deriving DecidableEq, Repr

/-- A call of a listener's callback made by the hub. -/
inductive Call where
  | onConnect (listener : Listener) (connection : Connection)
  | onDisconnect (listener : Listener) (connection : Connection)
  | onMessage (listener : Listener) (message : Msg)
deriving DecidableEq, Repr

/-! ## `Hub.Run` -/

/-- The loop `for _, listener := range h.listeners` of the register case. -/
def fireConnect (connection : Connection) : List Listener → List Call
  | [] => []
  | listener :: rest =>
    match listener.OnConnect with
    | none => fireConnect connection rest
    | some _ => Call.onConnect listener connection :: fireConnect connection rest

/-- The loop `for _, listener := range h.listeners` of the unregister case. -/
def fireDisconnect (connection : Connection) : List Listener → List Call
  | [] => []
  | listener :: rest =>
    match listener.OnDisconnect with
    | none => fireDisconnect connection rest
    | some _ => Call.onDisconnect listener connection :: fireDisconnect connection rest

/-- The loop `for _, listener := range h.listeners` of the inbound case. -/
def fireMessage (message : Msg) : List Listener → List Call
  | [] => []
  | listener :: rest =>
    match listener.OnMessage with
    | none => fireMessage message rest
    | some _ => Call.onMessage listener message :: fireMessage message rest

/-- One iteration of the `select` of `Hub.Run` on a received value: the new state and the
callbacks called, or the panic. -/
def step (s : State) : Event → Except Panic (State × List Call)
  | .listen listener =>
    .ok (⟨⟨s.hub.connections, s.hub.listeners ++ [listener]⟩, s.chans⟩, [])
  | .register connection =>
    .ok (⟨⟨Function.update s.hub.connections connection.ID (some connection),
            s.hub.listeners⟩, s.chans⟩,
         fireConnect connection s.hub.listeners)
  | .unregister connection =>
    match s.hub.connections connection.ID with
    | some _ =>
      match (s.chans connection.send).close with
      | .error p => .error p
      | .ok ch =>
        .ok (⟨⟨Function.update s.hub.connections connection.ID none, s.hub.listeners⟩,
              Function.update s.chans connection.send ch⟩,
             fireDisconnect connection s.hub.listeners)
    | none => .ok (s, fireDisconnect connection s.hub.listeners)
  | .inbound none => .ok (s, [])
  | .inbound (some message) => .ok (s, fireMessage message s.hub.listeners)
  | .outbound message =>
    match s.hub.connections message.ConnectionID with
    | some connection =>
      match (s.chans connection.send).trySend message.Data with
      | .error p => .error p
      | .ok (some ch) =>
        .ok (⟨s.hub, Function.update s.chans connection.send ch⟩, [])
      | .ok none =>
        match (s.chans connection.send).close with
        | .error p => .error p
        | .ok ch =>
          .ok (⟨⟨Function.update s.hub.connections connection.ID none, s.hub.listeners⟩,
                Function.update s.chans connection.send ch⟩, [])
    | none => .ok (s, [])

/-- The loop of `Hub.Run` on the values received before cancellation, oldest first: the
final state and all callbacks called, in order.  Nothing is taken from a send queue between
the iterations; `RunWithPumps` below is the loop with the receives of the writer pumps in
between. -/
def Run (s : State) : List Event → Except Panic (State × List Call)
  | [] => .ok (s, [])
  | e :: rest =>
    match step s e with
    | .error p => .error p
    | .ok (s', calls) =>
      match Run s' rest with
      | .error p => .error p
      | .ok (s'', calls') => .ok (s'', calls ++ calls')

/-! ## Vocabulary of the hub invariants -/

/-- The connections of the register events of `evs`, oldest first. -/
def registered (evs : List Event) : List Connection :=
  evs.filterMap (fun e => match e with
    | .register c => some c
    | _ => none)

/-- The send queue of `c` is open. -/
abbrev State.sendOpen (s : State) (c : Connection) : Prop :=
  (s.chans c.send).closed = false

/-- The connection `c` is in the connection map (under its id). -/
abbrev State.inMap (s : State) (c : Connection) : Prop :=
  s.hub.connections c.ID = some c

/-- The invariant of the hub after the events `evs`, for the connections `cs` that `serveWS`
has made: an entry of the map is a registered connection under its own id, and the send
queue of a connection is open exactly when the connection is in the map or not yet
registered. -/
def HubInv (cs : List Connection) (evs : List Event) (s : State) : Prop :=
  (∀ (id : String) (c : Connection), s.hub.connections id = some c →
      c.ID = id ∧ c ∈ registered evs)
  ∧ (∀ c ∈ cs, s.sendOpen c ↔ (s.inMap c ∨ c ∉ registered evs))

/-- The listeners of the listen events of `evs`, oldest first. -/
def listens (evs : List Event) : List Listener :=
  evs.filterMap (fun e => match e with
    | .listen l => some l
    | _ => none)

/-- The callbacks that one iteration of `Hub.Run` calls on a received value when the
listener list is `ls`. -/
def callsOf (ls : List Listener) : Event → List Call
  | .register c => fireConnect c ls
  | .unregister c => fireDisconnect c ls
  | .inbound (some m) => fireMessage m ls
  | _ => []

/-- The callbacks that `Hub.Run` calls on the values `evs` when it starts with the listener
list `ls` and no step panics. -/
def hubCalls (ls : List Listener) : List Event → List Call
  | [] => []
  | e :: rest => callsOf ls e ++ hubCalls (ls ++ listens [e]) rest

/-! ## The hub together with the writer pumps

Between two iterations of `Hub.Run` a writer pump may receive from the send queue of its
connection (`<-c.send` in `writePump` and in `onSend`).  The hub and the writer pumps are
the only ones that touch a send queue. -/

/-- What happens at the hub and at the send queues: a value received by `Hub.Run`, or one
receive of a writer pump from the send channel with the handle `send`. -/
inductive Action where
  | hub (e : Event)
  | recv (send : Nat)
deriving DecidableEq, Repr

/-- One action: an iteration of `Hub.Run`, or a receive from a send queue, which takes the
oldest item when there is one and changes nothing otherwise. -/
def act (s : State) : Action → Except Panic (State × List Call)
  | .hub e => step s e
  | .recv send =>
    match (s.chans send).recv with
    | some (_, _, ch) => .ok (⟨s.hub, Function.update s.chans send ch⟩, [])
    | none => .ok (s, [])

/-- The actions `acts`, oldest first, from the state `s`: the final state and all callbacks
called, in order. -/
def RunWithPumps (s : State) : List Action → Except Panic (State × List Call)
  | [] => .ok (s, [])
  | a :: rest =>
    match act s a with
    | .error p => .error p
    | .ok (s', calls) =>
      match RunWithPumps s' rest with
      | .error p => .error p
      | .ok (s'', calls') => .ok (s'', calls ++ calls')

/-- The values received by `Hub.Run` among the actions, oldest first. -/
def hubEvents (acts : List Action) : List Event :=
  acts.filterMap (fun a => match a with
    | .hub e => some e
    | .recv _ => none)

/-! ## The Go library functions used by the reader pump

`bytes.ReplaceAll`, `bytes.TrimSpace` and what they call in `unicode` and `unicode/utf8`.
A rune is a natural number. -/

/-- The variable `newline` of `connections.go`. -/
def newline : Bytes := [10]

/-- The variable `space` of `connections.go`. -/
def space : Bytes := [32]

/-- The loop of `bytes.Replace` for a non-empty `old` and no limit: `skip` bytes of a match
are still to be passed over. -/
def ReplaceAllLoop (old new : Bytes) : Nat → Bytes → Bytes
  | _, [] => []
  | skip + 1, _ :: rest => ReplaceAllLoop old new skip rest
  | 0, b :: rest =>
    if old.isPrefixOf (b :: rest) then new ++ ReplaceAllLoop old new (old.length - 1) rest
    else b :: ReplaceAllLoop old new 0 rest

/-- Go's `bytes.ReplaceAll(s, old, new)` for a non-empty `old`: the non-overlapping
occurrences of `old`, from the left, are replaced by `new`. -/
def ReplaceAll (s old new : Bytes) : Bytes := ReplaceAllLoop old new 0 s

/-- Go's `utf8.RuneSelf`. -/
def RuneSelf : Nat := 0x80

/-- Go's `utf8.RuneError`. -/
def RuneError : Nat := 0xFFFD

/-- Go's `utf8.UTFMax`. -/
def UTFMax : Nat := 4

/-- The table `asciiSpace` of package `bytes`: tab, newline, vertical tab, form feed,
carriage return, space. -/
def asciiSpace (c : Byte) : Bool :=
  c == 9 || c == 10 || c == 11 || c == 12 || c == 13 || c == 32

/-- Go's `unicode.IsSpace`. -/
def IsSpace (r : Nat) : Bool :=
  if r ≤ 0xFF then
    r == 9 || r == 10 || r == 11 || r == 12 || r == 13 || r == 32 || r == 0x85 || r == 0xA0
  else
    r == 0x1680 || (0x2000 ≤ r && r ≤ 0x200a) || r == 0x2028 || r == 0x2029 || r == 0x202f
      || r == 0x205f || r == 0x3000

/-- The table `first` of package `utf8`: information on the first byte of a sequence. -/
def first (b : Nat) : Nat :=
  if b < 0x80 then 0xF0
  else if b < 0xC2 then 0xF1
  else if b < 0xE0 then 0x02
  else if b = 0xE0 then 0x13
  else if b < 0xED then 0x03
  else if b = 0xED then 0x23
  else if b < 0xF0 then 0x03
  else if b = 0xF0 then 0x34
  else if b < 0xF4 then 0x04
  else if b = 0xF4 then 0x44
  else 0xF1

/-- The table `acceptRanges` of package `utf8`: bounds on the second byte. -/
def acceptRanges (i : Nat) : Nat × Nat :=
  match i with
  | 0 => (0x80, 0xBF)
  | 1 => (0xA0, 0xBF)
  | 2 => (0x80, 0x9F)
  | 3 => (0x90, 0xBF)
  | 4 => (0x80, 0x8F)
  | _ => (0, 0)

/-- Go's `utf8.DecodeRune`: the rune and its width in bytes. -/
def DecodeRune (p : Bytes) : Nat × Nat :=
  match p with
  | [] => (RuneError, 0)
  | p0 :: _ =>
    let x := first p0.toNat
    if x ≥ 0xF0 then
      (if x % 2 = 1 then RuneError else p0.toNat, 1)
    else
      let sz := x &&& 7
      let accept := acceptRanges (x >>> 4)
      if p.length < sz then (RuneError, 1)
      else
        let b1 := (p.getD 1 0).toNat
        if b1 < accept.1 || accept.2 < b1 then (RuneError, 1)
        else if sz ≤ 2 then (((p0.toNat &&& 0x1F) <<< 6) ||| (b1 &&& 0x3F), 2)
        else
          let b2 := (p.getD 2 0).toNat
          if b2 < 0x80 || 0xBF < b2 then (RuneError, 1)
          else if sz ≤ 3 then
            (((p0.toNat &&& 0x0F) <<< 12) ||| ((b1 &&& 0x3F) <<< 6) ||| (b2 &&& 0x3F), 3)
          else
            let b3 := (p.getD 3 0).toNat
            if b3 < 0x80 || 0xBF < b3 then (RuneError, 1)
            else
              (((p0.toNat &&& 0x07) <<< 18) ||| ((b1 &&& 0x3F) <<< 12)
                ||| ((b2 &&& 0x3F) <<< 6) ||| (b3 &&& 0x3F), 4)

/-- Go's `utf8.RuneStart`. -/
def RuneStart (b : Byte) : Bool := b.toNat &&& 0xC0 != 0x80

/-- The backward search of `utf8.DecodeLastRune` for the start of the last rune, among
the `n` positions `lim + n - 1`, ..., `lim`.  When none is a rune start the loop leaves
`lim - 1`, and `0` is taken when that is negative. -/
def lastRuneStart (p : Bytes) (lim : Nat) : Nat → Nat
  | 0 => lim - 1
  | n + 1 => if RuneStart (p.getD (lim + n) 0) then lim + n else lastRuneStart p lim n

/-- Go's `utf8.DecodeLastRune`: the last rune and its width in bytes. -/
def DecodeLastRune (p : Bytes) : Nat × Nat :=
  if p.length = 0 then (RuneError, 0)
  else
    let r := (p.getD (p.length - 1) 0).toNat
    if r < RuneSelf then (r, 1)
    else
      let lim := p.length - UTFMax
      let start := lastRuneStart p lim (p.length - 1 - lim)
      let d := DecodeRune (p.drop start)
      if start + d.2 ≠ p.length then (RuneError, 1) else d

/-- The loop of `indexFunc` of package `bytes` on `s[start:]`, with `skip` bytes of the
current rune still to be passed over: the index of the first rune `r` with
`f r = truth`, `none` for `-1`. -/
def indexFuncLoop (f : Nat → Bool) (truth : Bool) : Nat → Nat → Bytes → Option Nat
  | _, _, [] => none
  | skip + 1, start, _ :: rest => indexFuncLoop f truth skip (start + 1) rest
  | 0, start, b :: rest =>
    let d := if b.toNat ≥ RuneSelf then DecodeRune (b :: rest) else (b.toNat, 1)
    if f d.1 == truth then some start
    else indexFuncLoop f truth (d.2 - 1) (start + 1) rest

/-- Go's `indexFunc`. -/
def indexFunc (s : Bytes) (f : Nat → Bool) (truth : Bool) : Option Nat :=
  indexFuncLoop f truth 0 0 s

/-- The loop of `lastIndexFunc` of package `bytes` on `s[0:i]`, given reversed, with `skip`
bytes of the current rune still to be passed over: the index of the last rune `r` with
`f r = truth`, `none` for `-1`. -/
def lastIndexFuncLoop (f : Nat → Bool) (truth : Bool) : Nat → Bytes → Option Nat
  | _, [] => none
  | skip + 1, _ :: rest => lastIndexFuncLoop f truth skip rest
  | 0, b :: rest =>
    let d := if b.toNat ≥ RuneSelf then DecodeLastRune (b :: rest).reverse else (b.toNat, 1)
    if f d.1 == truth then some ((b :: rest).length - d.2)
    else lastIndexFuncLoop f truth (d.2 - 1) rest

/-- Go's `lastIndexFunc`. -/
def lastIndexFunc (s : Bytes) (f : Nat → Bool) (truth : Bool) : Option Nat :=
  lastIndexFuncLoop f truth 0 s.reverse

/-- Go's `bytes.TrimLeftFunc`. -/
def TrimLeftFunc (s : Bytes) (f : Nat → Bool) : Bytes :=
  match indexFunc s f false with
  | none => []
  | some i => s.drop i

/-- Go's `bytes.TrimRightFunc`. -/
def TrimRightFunc (s : Bytes) (f : Nat → Bool) : Bytes :=
  match lastIndexFunc s f false with
  | some i =>
    if (s.getD i 0).toNat ≥ RuneSelf then s.take (i + (DecodeRune (s.drop i)).2)
    else s.take (i + 1)
  | none => s.take 0

/-- Go's `bytes.TrimFunc`. -/
def TrimFunc (s : Bytes) (f : Nat → Bool) : Bytes := TrimRightFunc (TrimLeftFunc s f) f

/-- The first loop of `bytes.TrimSpace`: `s[start:]`, and whether a byte that is not ASCII
was met. -/
def trimSpaceStart : Bytes → Bool × Bytes
  | [] => (false, [])
  | c :: rest =>
    if c.toNat ≥ RuneSelf then (true, c :: rest)
    else if asciiSpace c then trimSpaceStart rest
    else (false, c :: rest)

/-- The second loop of `bytes.TrimSpace` on `s[start:stop]` given reversed: that slice
reversed for the new `stop`, and whether a byte that is not ASCII was met. -/
def trimSpaceStop : Bytes → Bool × Bytes
  | [] => (false, [])
  | c :: rest =>
    if c.toNat ≥ RuneSelf then (true, c :: rest)
    else if asciiSpace c then trimSpaceStop rest
    else (false, c :: rest)

/-- Go's `bytes.TrimSpace`: the ASCII loops, and `TrimFunc(·, unicode.IsSpace)` on what is
left as soon as a byte that is not ASCII is met. -/
def TrimSpace (s : Bytes) : Bytes :=
  match trimSpaceStart s with
  | (true, t) => TrimFunc t IsSpace
  | (false, t) =>
    match trimSpaceStop t.reverse with
    | (true, u) => TrimFunc u.reverse IsSpace
    | (false, u) => u.reverse

/-! ## The reader pump (`Connection.readPump`) -/

/-- The result of one `c.ws.ReadMessage()`. -/
inductive ReadResult where
  | message (payload : Bytes)
  | error
deriving DecidableEq, Repr

/-- The loop of `readPump` on the results of its reads, oldest first: the values it posts
on the channels of the hub.  A read error ends the loop and the deferred function posts
the connection on `unregister`; when the results run out the pump is waiting in
`ReadMessage`. -/
def readLoop (c : Connection) : List ReadResult → List Event
  | [] => []
  | .error :: _ => [Event.unregister c]
  | .message message :: rest =>
    Event.inbound (some ⟨c.ID, TrimSpace (ReplaceAll message newline space)⟩)
      :: readLoop c rest

/-- The function `readPump`: when `SetReadDeadline` fails nothing is read. -/
def readPump (c : Connection) (setReadDeadlineOk : Bool) (reads : List ReadResult) :
    List Event :=
  if setReadDeadlineOk then readLoop c reads else [Event.unregister c]

/-! ## The upgrade endpoint (`serveWS`) and the values a connection sends to the hub -/

/-- The function `serveWS`, given the id it mints, the result of the upgrade (`none` when it
fails) and the handle of the channel that `make(chan []byte, 256)` returns: the connection
it makes and what it sends to the hub before it starts the pumps. -/
def serveWS (connectionID : String) (upgrade : Option Nat) (send : Nat) :
    Option Connection × List Event :=
  match upgrade with
  | none => (none, [])
  | some ws => (some ⟨connectionID, ws, send⟩, [Event.register ⟨connectionID, ws, send⟩])

/-- What `serveWS` and then the reader pump it starts send to the hub for the connection
`c`, in order. -/
def connectionEvents (c : Connection) (setReadDeadlineOk : Bool) (reads : List ReadResult) :
    List Event :=
  (serveWS c.ID (some c.ws) c.send).2 ++ readPump c setReadDeadlineOk reads

/-- The value is sent to the hub for the connection id `id`: a register or an unregister of
a connection with that id, or an inbound message with that id. -/
def Event.forConnection (id : String) : Event → Bool
  | .register c => c.ID == id
  | .unregister c => c.ID == id
  | .inbound (some m) => m.ConnectionID == id
  | _ => false

/-- The values `evs` received by the hub are produced by `serveWS` and the reader pumps for
the connections `cs`: for each connection of `cs` the values for its id are, in order, a
beginning of what `serveWS` and its reader pump send, and every register, unregister and
inbound value is for the id of a connection of `cs`.  Listen and outbound values are
free. -/
def ProducedBy (cs : List Connection) (evs : List Event) : Prop :=
  (∀ c ∈ cs, ∃ (ok : Bool) (reads : List ReadResult),
      evs.filter (Event.forConnection c.ID) <+: connectionEvents c ok reads)
  ∧ (∀ e ∈ evs, (∃ l, e = Event.listen l) ∨ (∃ m, e = Event.outbound m)
      ∨ ∃ c ∈ cs, e.forConnection c.ID = true)

/-! ## The normalisation as the specification words it -/

/-- Every newline byte replaced by one space byte. -/
def newlinesToSpaces (p : Bytes) : Bytes := p.map (fun b => if b = 10 then 32 else b)

/-- The leading ASCII whitespace bytes removed. -/
def asciiTrimLeft (p : Bytes) : Bytes := p.dropWhile asciiSpace

/-- The leading and trailing ASCII whitespace bytes removed. -/
def asciiTrim (p : Bytes) : Bytes := (asciiTrimLeft (asciiTrimLeft p).reverse).reverse

/-- The payload normalised in the words of the specification: newline bytes replaced by
spaces, then leading and trailing ASCII whitespace bytes removed. -/
def specNormalise (p : Bytes) : Bytes := asciiTrim (newlinesToSpaces p)

/-- The first byte of `t`, if any, is not ASCII. -/
def nonASCIIHead : Bytes → Bool
  | [] => false
  | c :: _ => decide (c.toNat ≥ RuneSelf)

/-! ## White space and UTF-8 decoding in arithmetic terms

The white-space sequences are those of the Unicode property White_Space, in UTF-8.
`decodeFirst` is `utf8.DecodeRune` on a non-empty slice written with comparisons and
arithmetic in place of the tables and bit operations; `DecodeRune_eq_decodeFirst` proves
that the two agree. -/

/-- The UTF-8 encodings of the characters with the Unicode property White_Space. -/
def whiteSpace : List Bytes :=
  [[9], [10], [11], [12], [13], [32], [0xC2, 0x85], [0xC2, 0xA0], [0xE1, 0x9A, 0x80],
    [0xE2, 0x80, 0x80], [0xE2, 0x80, 0x81], [0xE2, 0x80, 0x82], [0xE2, 0x80, 0x83],
    [0xE2, 0x80, 0x84], [0xE2, 0x80, 0x85], [0xE2, 0x80, 0x86], [0xE2, 0x80, 0x87],
    [0xE2, 0x80, 0x88], [0xE2, 0x80, 0x89], [0xE2, 0x80, 0x8A], [0xE2, 0x80, 0xA8],
    [0xE2, 0x80, 0xA9], [0xE2, 0x80, 0xAF], [0xE2, 0x81, 0x9F], [0xE3, 0x80, 0x80]]

/-- The bounds on the second byte of a sequence with first byte `n`. -/
def secondByteBounds (n : Nat) : Nat × Nat :=
  if n = 0xE0 then (0xA0, 0xBF)
  else if n = 0xED then (0x80, 0x9F)
  else if n = 0xF0 then (0x90, 0xBF)
  else if n = 0xF4 then (0x80, 0x8F)
  else (0x80, 0xBF)

/-- UTF-8 decoding of the first rune of `b :: rest` in arithmetic terms. -/
def decodeFirst (b : Byte) (rest : Bytes) : Nat × Nat :=
  let n := b.toNat
  if n < 0x80 then (n, 1)
  else if n < 0xC2 then (RuneError, 1)
  else if n < 0xE0 then
    match rest with
    | c :: _ =>
      if 0x80 ≤ c.toNat ∧ c.toNat ≤ 0xBF then ((n % 32) * 64 + c.toNat % 64, 2)
      else (RuneError, 1)
    | [] => (RuneError, 1)
  else if n < 0xF0 then
    match rest with
    | c :: d :: _ =>
      if (secondByteBounds n).1 ≤ c.toNat ∧ c.toNat ≤ (secondByteBounds n).2
          ∧ 0x80 ≤ d.toNat ∧ d.toNat ≤ 0xBF then
        ((n % 16) * 4096 + (c.toNat % 64) * 64 + d.toNat % 64, 3)
      else (RuneError, 1)
    | _ => (RuneError, 1)
  else if n < 0xF5 then
    match rest with
    | c :: d :: e :: _ =>
      if (secondByteBounds n).1 ≤ c.toNat ∧ c.toNat ≤ (secondByteBounds n).2
          ∧ 0x80 ≤ d.toNat ∧ d.toNat ≤ 0xBF ∧ 0x80 ≤ e.toNat ∧ e.toNat ≤ 0xBF then
        ((n % 8) * 262144 + (c.toNat % 64) * 4096 + (d.toNat % 64) * 64 + e.toNat % 64, 4)
      else (RuneError, 1)
    | _ => (RuneError, 1)
  else (RuneError, 1)

/-! ## The writer pump (`Connection.onSend`, `Connection.keepAlive`, `Connection.writePump`)

The socket is the `*websocket.Conn` of the library.  Of its write side the model keeps the
calls made on it, the frames that went out and the text writer that is open.  Whether a call
returns an error is not decided by this repository: the socket carries the outcomes of its
coming calls.  The library keeps the first write error (`writeErr`) and returns it from
every later write, and after a close message is written it returns `ErrCloseSent` from
every later write: in the model a `false` at the head of the outcomes is that error, it
stays there, and a written close message puts it there.  So the outcomes say at which
call, if at any, the socket fails first: a list of `n` times `true` and then `false` is a
socket that fails at call `n + 1` and from then on, and a list without `false` is a socket
that does not fail before a close message is written.  Write deadlines are not
modelled. -/

/-- The message types the writer pump uses. -/
inductive MessageType where
  | TextMessage
  | CloseMessage
  | PingMessage
deriving DecidableEq, Repr

/-- A frame that went out on the socket. -/
structure Frame where
  messageType : MessageType
  body : Bytes
deriving DecidableEq, Repr

/-- A call on the socket or on the writer obtained from `NextWriter`. -/
inductive SocketCall where
  | WriteMessage (messageType : MessageType) (data : Bytes)
  | NextWriter (messageType : MessageType)
  | Write (p : Bytes)
  | WriterClose
  | Close
deriving DecidableEq, Repr

/-- The write side of a socket. -/
structure Socket where
  calls : List (SocketCall × Bool)
  frames : List Frame
  writer : Option (MessageType × Bytes)
  outcomes : List Bool
deriving DecidableEq, Repr

/-- What a call that returned without error does to the frames and the open writer:
`WriteMessage` sends one frame, `Write` adds to the open writer, `WriterClose` sends what
was written as one frame. -/
def Socket.effect (ws : Socket) : SocketCall → List Frame × Option (MessageType × Bytes)
  | .WriteMessage t data => (ws.frames ++ [⟨t, data⟩], ws.writer)
  | .NextWriter t => (ws.frames, some (t, []))
  | .Write p =>
    match ws.writer with
    | some (t, body) => (ws.frames, some (t, body ++ p))
    | none => (ws.frames, none)
  | .WriterClose =>
    match ws.writer with
    | some (t, body) => (ws.frames ++ [⟨t, body⟩], none)
    | none => (ws.frames, none)
  | .Close => (ws.frames, ws.writer)

/-- The outcomes of the coming calls after a call that returned without error, `rest` being
the outcomes that were left: after a close message every later call is refused. -/
def Socket.after : SocketCall → List Bool → List Bool
  | .WriteMessage .CloseMessage _, _ => [false]
  | _, rest => rest

/-- One call on the socket: whether it returned without error, and the socket after it.  A
call that finds the write error is refused: it writes nothing and the error stays. -/
def Socket.call (ws : Socket) (op : SocketCall) : Bool × Socket :=
  match ws.outcomes with
  | [] =>
    (true, ⟨ws.calls ++ [(op, true)], (ws.effect op).1, (ws.effect op).2, Socket.after op []⟩)
  | true :: rest =>
    (true, ⟨ws.calls ++ [(op, true)], (ws.effect op).1, (ws.effect op).2,
      Socket.after op rest⟩)
  | false :: rest => (false, ⟨ws.calls ++ [(op, false)], ws.frames, ws.writer, false :: rest⟩)

/-- What `onSend` returns: nil, an error, or nothing because it waits on an empty open
queue. -/
inductive Result where
  | nil
  | error (text : String)
  | blocked
deriving DecidableEq, Repr

/-- The loop `for i := 0; i < n; i++` of `onSend`, with `n` iterations to go. -/
def onSendLoop : Nat → Socket → Chan → Result × Socket × Chan
  | 0, ws, send => (.nil, ws, send)
  | n + 1, ws, send =>
    match ws.call (.Write newline) with
    | (false, ws₁) => (.error "failed to write newline", ws₁, send)
    | (true, ws₁) =>
      match send.recv with
      | none => (.blocked, ws₁, send)
      | some (v, _, send₁) =>
        match ws₁.call (.Write v) with
        | (false, ws₂) => (.error "failed to write message", ws₂, send₁)
        | (true, ws₂) => onSendLoop n ws₂ send₁

/-- The function `onSend` on the socket and the send queue of the connection. -/
def onSend (ws : Socket) (send : Chan) (message : Bytes) (hasMessage : Bool) :
    Result × Socket × Chan :=
  if !hasMessage then
    match ws.call (.WriteMessage .CloseMessage []) with
    | (false, ws₁) => (.error "failed to write close message", ws₁, send)
    | (true, ws₁) => (.nil, ws₁, send)
  else
    match ws.call (.NextWriter .TextMessage) with
    | (false, ws₁) => (.error "failed to get next writer", ws₁, send)
    | (true, ws₁) =>
      match ws₁.call (.Write message) with
      | (false, ws₂) => (.error "failed to write message", ws₂, send)
      | (true, ws₂) =>
        match onSendLoop send.len ws₂ send with
        | (.nil, ws₃, send₃) =>
          match ws₃.call .WriterClose with
          | (false, ws₄) => (.error "failed to close writer", ws₄, send₃)
          | (true, ws₄) => (.nil, ws₄, send₃)
        | r => r

/-- The function `keepAlive`. -/
def keepAlive (ws : Socket) : Result × Socket :=
  match ws.call (.WriteMessage .PingMessage []) with
  | (false, ws₁) => (.error "failed to write ping message", ws₁)
  | (true, ws₁) => (.nil, ws₁)

/-- Where the goroutine of `writePump` is. -/
inductive Status where
  | running
  | blocked
  | exited
deriving DecidableEq, Repr

/-- The writer pump of a connection: its socket, the send queue, and where it is. -/
structure Pump where
  ws : Socket
  send : Chan
  status : Status
deriving DecidableEq, Repr

/-- What happens at a connection's send queue and in the `select` of its writer pump. -/
inductive PumpEvent where
  /-- The hub sends `p` on the queue (`connection.send <- message.Data`). -/
  | enqueue (p : Bytes)
  /-- The hub closes the queue. -/
  | closeSend
  /-- The `select` takes the case `<-c.send`. -/
  | recv
  /-- The `select` takes the case `<-ticker.C`. -/
  | tick
deriving DecidableEq, Repr

/-- The deferred function of `writePump`: the ticker is stopped and the socket closed. -/
def Pump.exit (ws : Socket) (send : Chan) : Pump :=
  ⟨⟨ws.calls ++ [(.Close, true)], ws.frames, ws.writer, ws.outcomes⟩, send, .exited⟩

/-- One iteration of the loop of `writePump` on the case its `select` takes. -/
def writePumpStep (st : Pump) (recvCase : Bool) : Pump :=
  match st.status with
  | .running =>
    if recvCase then
      match st.send.recv with
      | none => st
      | some (message, ok, send₁) =>
        match onSend st.ws send₁ message ok with
        | (.nil, ws₁, send₂) => ⟨ws₁, send₂, .running⟩
        | (.error _, ws₁, send₂) => Pump.exit ws₁ send₂
        | (.blocked, ws₁, send₂) => ⟨ws₁, send₂, .blocked⟩
    else
      ⟨(keepAlive st.ws).2, st.send, .running⟩
  | _ => st

/-- The loop of `writePump` on the cases its `select` takes, oldest first: `true` for
`<-c.send`, `false` for `<-ticker.C`. -/
def writePump (st : Pump) : List Bool → Pump
  | [] => st
  | recvCase :: rest => writePump (writePumpStep st recvCase) rest

/-- One event at the connection: the pump after it, and the payload that went into the
queue, if one did. -/
def pumpStep (st : Pump) : PumpEvent → Pump × List Bytes
  | .enqueue p =>
    match st.send.trySend p with
    | .ok (some send₁) => (⟨st.ws, send₁, st.status⟩, [p])
    | _ => (st, [])
  | .closeSend =>
    match st.send.close with
    | .ok send₁ => (⟨st.ws, send₁, st.status⟩, [])
    | .error _ => (st, [])
  | .recv => (writePumpStep st true, [])
  | .tick => (writePumpStep st false, [])

/-- The events at a connection, oldest first: the pump after them and the payloads that
went into the queue, in order. -/
def pumpRun (st : Pump) : List PumpEvent → Pump × List Bytes
  | [] => (st, [])
  | e :: rest =>
    ((pumpRun (pumpStep st e).1 rest).1, (pumpStep st e).2 ++ (pumpRun (pumpStep st e).1 rest).2)

/-- The pump of a new connection: nothing written, the queue just made, every coming call
on the socket with the outcome given. -/
def Pump.new (outcomes : List Bool) : Pump :=
  ⟨⟨[], [], none, outcomes⟩, Chan.make sendCapacity, .running⟩

/-- Payloads joined with one newline byte between consecutive ones. -/
def joinLines : List Bytes → Bytes
  | [] => []
  | [x] => x
  | x :: y :: rest => x ++ newline ++ joinLines (y :: rest)

/-- The bodies of the text frames among `fs`, in order. -/
def textBodies (fs : List Frame) : List Bytes :=
  (fs.filter (fun f => f.messageType == MessageType.TextMessage)).map Frame.body

/-! ## The management endpoint (`main` of `apig-websocket-emulator/run.go`) -/

/-- Go's `http.StatusOK`. -/
def StatusOK : Nat := 200

/-- Go's `http.StatusGone`. -/
def StatusGone : Nat := 410

/-- Go's `http.StatusInternalServerError`. -/
def StatusInternalServerError : Nat := 500

/-- `Hub.SendOutboundMessage`: the message is sent on the channel `outbound`; the call
returns once `Hub.Run` has received it.  The result is what `Hub.Run` receives. -/
def Hub.SendOutboundMessage (msg : Msg) : List Event := [Event.outbound msg]

/-- `Hub.RegisterListener`: the listener is sent on the channel `listen`. -/
def Hub.RegisterListener (listener : Listener) : List Event := [Event.listen listener]

/-- The handler of the route `/{stage}/@connections/{connectionID}`: on the hub as
`HasConnection` reads it, the path variable and the result of `io.ReadAll(r.Body)` (`none`
for an error), the status code written and what was sent to the hub. -/
def managementHandler (h : Hub) (connectionID : String) (body : Option Bytes) :
    Nat × List Event :=
  if !h.HasConnection connectionID then (StatusGone, [])
  else
    match body with
    | none => (StatusInternalServerError, [])
    | some bodyData => (StatusOK, Hub.SendOutboundMessage ⟨connectionID, bodyData⟩)

/-! ## Concrete inputs -/

/-- A connection made by `serveWS`: socket 0, send channel 0. -/
def conn₁ : Connection := ⟨"c-1", 0, 0⟩

/-- A second connection: socket 1, send channel 1. -/
def conn₂ : Connection := ⟨"c-2", 1, 1⟩

/-- A listener with all three callbacks set. -/
def listenerAll : Listener := ⟨"all", some 0, some 1, some 2⟩

/-- A listener with only `OnMessage` set. -/
def listenerMsg : Listener := ⟨"msg", some 3, none, none⟩

/-- The state after the two listeners were registered and `conn₁` was registered. -/
def stateOne : State :=
  ⟨⟨Function.update NewHub.connections "c-1" (some conn₁), [listenerAll, listenerMsg]⟩,
    State.init.chans⟩

/-- A writer pump whose send queue the hub has closed and which is drained; the coming
calls on its socket have the outcomes given. -/
def pumpClosed (outcomes : List Bool) : Pump :=
  ⟨⟨[], [], none, outcomes⟩, ⟨sendCapacity, [], true⟩, .running⟩

/-- The state `stateOne` with the send queue of `conn₁` full. -/
def stateFull : State :=
  ⟨stateOne.hub,
    Function.update stateOne.chans 0 ⟨sendCapacity, List.replicate 256 [104], false⟩⟩

/-- The values of a run in which `conn₁` is evicted before its reader pump exits: a listener,
the register of `conn₁`, 257 outbound messages for it while nothing is taken from its queue,
and its unregister. -/
def evictionTrace : List Event :=
  Event.listen listenerAll :: Event.register conn₁
    :: ((List.replicate 257 ([104] : Bytes)).map (fun x => Event.outbound ⟨"c-1", x⟩)
        ++ [Event.unregister conn₁])

/-- The values of a run with a listener that has only `OnMessage` set: the listener, the
register of `conn₁` and one inbound message of `conn₁`. -/
def messageOnlyTrace : List Event :=
  [Event.listen listenerMsg, Event.register conn₁, Event.inbound (some ⟨"c-1", [104, 105]⟩)]

/-- The values of a run with both listeners: the register of `conn₁`, one inbound message
and the unregister. -/
def lifecycleTrace : List Event :=
  [Event.listen listenerAll, Event.listen listenerMsg, Event.register conn₁,
    Event.inbound (some ⟨"c-1", [104, 105]⟩), Event.unregister conn₁]

/-- Actions of a run in which the writer pump of `conn₁` takes the one item of its queue
before `conn₁` is unregistered. -/
def drainedActions : List Action :=
  [Action.hub (Event.listen listenerAll), Action.hub (Event.register conn₁),
    Action.hub (Event.outbound ⟨"c-1", [104]⟩), Action.recv 0]

/-- The values of a run in which the listener `listenerAll` is registered twice before
`conn₁` is accepted. -/
def doubleListenTrace : List Event :=
  [Event.listen listenerAll, Event.listen listenerAll, Event.register conn₁,
    Event.unregister conn₁]

/-! ## Helper lemmas on the callback loops -/

theorem fireConnect_eq (c : Connection) (ls : List Listener) :
    fireConnect c ls
      = (ls.filter (fun l => l.OnConnect.isSome)).map (fun l => Call.onConnect l c) := by
  induction ls with
  | nil => rfl
  | cons l rest ih =>
    cases h : l.OnConnect <;> simp [fireConnect, h, ih]

theorem fireDisconnect_eq (c : Connection) (ls : List Listener) :
    fireDisconnect c ls
      = (ls.filter (fun l => l.OnDisconnect.isSome)).map (fun l => Call.onDisconnect l c) := by
  induction ls with
  | nil => rfl
  | cons l rest ih =>
    cases h : l.OnDisconnect <;> simp [fireDisconnect, h, ih]

theorem fireMessage_eq (m : Msg) (ls : List Listener) :
    fireMessage m ls
      = (ls.filter (fun l => l.OnMessage.isSome)).map (fun l => Call.onMessage l m) := by
  induction ls with
  | nil => rfl
  | cons l rest ih =>
    cases h : l.OnMessage <;> simp [fireMessage, h, ih]

theorem Run_cons (s : State) (e : Event) (rest : List Event) :
    Run s (e :: rest)
      = match step s e with
        | .error p => .error p
        | .ok (s', calls) =>
          match Run s' rest with
          | .error p => .error p
          | .ok (s'', calls') => .ok (s'', calls ++ calls') := rfl

theorem Run_append (s : State) (es fs : List Event) :
    Run s (es ++ fs)
      = match Run s es with
        | .error p => .error p
        | .ok (s', calls) =>
          match Run s' fs with
          | .error p => .error p
          | .ok (s'', calls') => .ok (s'', calls ++ calls') := by
  induction es generalizing s with
  | nil =>
    rw [List.nil_append]
    show _ = match Run s fs with
      | .error p => .error p
      | .ok (s'', calls') => .ok (s'', [] ++ calls')
    cases Run s fs with
    | error p => rfl
    | ok r => rfl
  | cons e rest ih =>
    rw [List.cons_append, Run_cons, Run_cons]
    cases step s e with
    | error p => rfl
    | ok r =>
      obtain ⟨s', calls⟩ := r
      simp only []
      rw [ih]
      cases Run s' rest with
      | error p => rfl
      | ok r' =>
        obtain ⟨s'', calls'⟩ := r'
        simp only []
        cases Run s'' fs with
        | error p => rfl
        | ok r'' => simp only [List.append_assoc]

theorem Run_listens (s : State) (ls : List Listener) :
    Run s (ls.map Event.listen)
      = .ok (⟨⟨s.hub.connections, s.hub.listeners ++ ls⟩, s.chans⟩, []) := by
  induction ls generalizing s with
  | nil => simp [Run]
  | cons l rest ih => simp [Run, step, ih]

/-! ## The cases of `Hub.Run` -/

/-- C1: a register of `c` binds `c.ID` to `c` in the connection map and leaves the other
entries, the listener list and the send queues as they were; it calls `OnConnect` once,
with `c`, on exactly the listeners whose `OnConnect` is set, in the order of the listener
list.  A listen event appends the listener at the end of the list, so after the listen
events `ls` on a new hub that order is the order of registration. -/
theorem register_event (s : State) (c : Connection) :
    step s (.register c)
        = .ok (⟨⟨Function.update s.hub.connections c.ID (some c), s.hub.listeners⟩, s.chans⟩,
               (s.hub.listeners.filter (fun l => l.OnConnect.isSome)).map
                 (fun l => Call.onConnect l c))
    ∧ (∀ l : Listener,
        step s (.listen l)
          = .ok (⟨⟨s.hub.connections, s.hub.listeners ++ [l]⟩, s.chans⟩, []))
    ∧ (∀ ls : List Listener,
        Run State.init (ls.map Event.listen ++ [Event.register c])
          = .ok (⟨⟨Function.update NewHub.connections c.ID (some c), ls⟩, State.init.chans⟩,
                 (ls.filter (fun l => l.OnConnect.isSome)).map
                   (fun l => Call.onConnect l c))) := by
  refine ⟨?_, fun l => rfl, fun ls => ?_⟩
  · simp only [step, fireConnect_eq]
  · rw [Run_append, Run_listens]
    simp only [Run, step, fireConnect_eq, State.init, NewHub, List.nil_append,
      List.append_nil]

/-- C2: an unregister of `c` whose id is a key of the connection map (its send queue being
open, as it is for every connection of the map in a reachable state) removes the entry and
closes `c.send`; when the id is not a key the state is unchanged.  In both cases
`OnDisconnect` is called once with `c` on every listener whose `OnDisconnect` is set, in the
order of the listener list.  A second unregister of `c` makes the same calls again and
changes nothing. -/
theorem unregister_event (s : State) (c : Connection) :
    (∀ c' : Connection, s.hub.connections c.ID = some c' → (s.chans c.send).closed = false →
        step s (.unregister c)
          = .ok (⟨⟨Function.update s.hub.connections c.ID none, s.hub.listeners⟩,
                  Function.update s.chans c.send { s.chans c.send with closed := true }⟩,
                 (s.hub.listeners.filter (fun l => l.OnDisconnect.isSome)).map
                   (fun l => Call.onDisconnect l c)))
    ∧ (s.hub.connections c.ID = none →
        step s (.unregister c)
          = .ok (s, (s.hub.listeners.filter (fun l => l.OnDisconnect.isSome)).map
                      (fun l => Call.onDisconnect l c)))
    ∧ (∀ (s' : State) (calls : List Call), step s (.unregister c) = .ok (s', calls) →
        step s' (.unregister c) = .ok (s', calls)) := by
  refine ⟨fun c' hc hopen => ?_, fun hc => ?_, fun s' calls h => ?_⟩
  · simp only [step, hc, Chan.close, hopen, fireDisconnect_eq]
    rfl
  · simp only [step, hc, fireDisconnect_eq]
  · cases hc : s.hub.connections c.ID with
    | none =>
      simp only [step, hc, Except.ok.injEq, Prod.mk.injEq] at h
      obtain ⟨rfl, rfl⟩ := h
      simp only [step, hc]
    | some c' =>
      simp only [step, hc, Chan.close] at h
      cases hcl : (s.chans c.send).closed with
      | true => simp [hcl] at h
      | false =>
        simp only [hcl, Bool.false_eq_true, if_false, Except.ok.injEq, Prod.mk.injEq] at h
        obtain ⟨rfl, rfl⟩ := h
        simp only [step, Function.update_same]

/-- C3: an outbound message whose connection id is not a key of the connection map leaves
the whole state (connection map, listener list, every send queue) unchanged and calls no
callback. -/
theorem outbound_unknown_id (s : State) (m : Msg)
    (h : s.hub.connections m.ConnectionID = none) :
    step s (.outbound m) = .ok (s, []) := by
  simp only [step, h]

/-- C4: an outbound message for a connection `c` of the map whose send queue is open and
holds fewer than 256 items puts `m.Data` at the end of `c.send`, behind the items already
queued (so that the item received next is still the oldest one); the hub (connection map and
listener list) is unchanged, `c.send` stays open, no other queue changes and no callback is
called. -/
theorem outbound_enqueue (s : State) (m : Msg) (c : Connection)
    (hc : s.hub.connections m.ConnectionID = some c)
    (hopen : (s.chans c.send).closed = false)
    (hcap : (s.chans c.send).cap = sendCapacity)
    (hroom : (s.chans c.send).len < 256) :
    ∃ s' : State, step s (.outbound m) = .ok (s', [])
      ∧ s'.hub = s.hub
      ∧ s'.hub.connections m.ConnectionID = some c
      ∧ (s'.chans c.send).buf = (s.chans c.send).buf ++ [m.Data]
      ∧ (s'.chans c.send).closed = false
      ∧ (s'.chans c.send).cap = sendCapacity
      ∧ (∀ h : Nat, h ≠ c.send → s'.chans h = s.chans h)
      ∧ (∀ (v : Bytes) (rest : List Bytes), (s.chans c.send).buf = v :: rest →
          ∃ ch, (s'.chans c.send).recv = some (v, true, ch) ∧ ch.buf = rest ++ [m.Data]) := by
  have hlt : (s.chans c.send).buf.length < (s.chans c.send).cap := by
    rw [hcap]; exact hroom
  refine ⟨⟨s.hub, Function.update s.chans c.send
      { s.chans c.send with buf := (s.chans c.send).buf ++ [m.Data] }⟩, ?_, rfl, hc, ?_, ?_, ?_,
      ?_, ?_⟩
  · simp only [step, hc, Chan.trySend, hopen, hlt, Bool.false_eq_true, if_false, if_true]
  · simp only [Function.update_same]
  · simp only [Function.update_same]; exact hopen
  · simp only [Function.update_same]; exact hcap
  · intro h hne
    simp only [Function.update_noteq hne]
  · intro v rest hbuf
    simp only [Function.update_same, Chan.recv, hbuf, List.cons_append]
    exact ⟨_, rfl, rfl⟩

/-- C7: an inbound message that is not nil calls `OnMessage` once with that message on
exactly the listeners whose `OnMessage` is set, in the order of the listener list; a nil
message calls nothing.  In both cases the state is unchanged, whether or not the connection
id of the message is a key of the connection map. -/
theorem inbound_event (s : State) (m : Msg) :
    step s (.inbound (some m))
        = .ok (s, (s.hub.listeners.filter (fun l => l.OnMessage.isSome)).map
                    (fun l => Call.onMessage l m))
    ∧ step s (.inbound none) = .ok (s, []) := by
  refine ⟨?_, rfl⟩
  simp only [step, fireMessage_eq]

/-! ## Filling a send queue -/

/-- The outbound events carrying the payloads `ds` to the connection id `id`. -/
theorem outbound_events_cons (id : String) (d : Bytes) (ds : List Bytes) :
    (d :: ds).map (fun x => Event.outbound ⟨id, x⟩)
      = Event.outbound ⟨id, d⟩ :: ds.map (fun x => Event.outbound ⟨id, x⟩) := rfl

/-- Outbound messages for a connection whose open queue has room for all of them are
queued in order. -/
theorem Run_outbound_room (c : Connection) (ds : List Bytes) :
    ∀ s : State, s.hub.connections c.ID = some c → (s.chans c.send).closed = false →
      (s.chans c.send).buf.length + ds.length ≤ (s.chans c.send).cap →
      Run s (ds.map (fun x => Event.outbound ⟨c.ID, x⟩))
        = .ok (⟨s.hub, Function.update s.chans c.send
                 { s.chans c.send with buf := (s.chans c.send).buf ++ ds }⟩, []) := by
  induction ds with
  | nil =>
    intro s _ _ _
    have hself : Function.update s.chans c.send
        { s.chans c.send with buf := (s.chans c.send).buf ++ [] } = s.chans := by
      rw [List.append_nil]
      exact Function.update_eq_self c.send s.chans
    rw [hself]
    rfl
  | cons d rest ih =>
    intro s hc hopen hlen
    have hlt : (s.chans c.send).buf.length < (s.chans c.send).cap := by
      simp only [List.length_cons] at hlen; omega
    have hstep : step s (.outbound ⟨c.ID, d⟩)
        = .ok (⟨s.hub, Function.update s.chans c.send
                 { s.chans c.send with buf := (s.chans c.send).buf ++ [d] }⟩, []) := by
      simp only [step, hc, Chan.trySend, hopen, hlt, Bool.false_eq_true, if_false, if_true]
    have hnext := ih ⟨s.hub, Function.update s.chans c.send
        { s.chans c.send with buf := (s.chans c.send).buf ++ [d] }⟩ hc
      (by simp only [Function.update_same]; exact hopen)
      (by simp only [Function.update_same, List.length_append, List.length_cons,
            List.length_nil] at hlen ⊢; omega)
    rw [outbound_events_cons, Run_cons, hstep]
    simp only []
    rw [hnext]
    simp only [Function.update_same, Function.update_idem, List.append_assoc,
      List.singleton_append, List.nil_append]

/-- C5: let `c` be a connection of the map whose send queue was just made (open, empty,
capacity 256) and from which nothing is received.  Of 257 outbound messages for `c.ID`,
the first `k` (for every `k ≤ 256`) are queued in order, with `c` still in the map and the
queue open; the 257th is not queued: it closes `c.send` and removes `c.ID` from the map,
calls no callback, and `HasConnection c.ID` is false afterwards.  An outbound event never
makes a queue of capacity 256 hold more than 256 items. -/
theorem full_buffer_eviction (s : State) (c : Connection) (ds : List Bytes) (d : Bytes)
    (hreg : s.hub.connections c.ID = some c)
    (hch : s.chans c.send = Chan.make sendCapacity)
    (hlen : ds.length = 256) :
    (∀ k : Nat, k ≤ 256 →
        Run s ((ds.take k).map (fun x => Event.outbound ⟨c.ID, x⟩))
          = .ok (⟨s.hub, Function.update s.chans c.send ⟨256, ds.take k, false⟩⟩, []))
    ∧ (∃ s' : State,
        Run s ((ds ++ [d]).map (fun x => Event.outbound ⟨c.ID, x⟩)) = .ok (s', [])
        ∧ s'.hub.connections = Function.update s.hub.connections c.ID none
        ∧ s'.hub.listeners = s.hub.listeners
        ∧ s'.chans = Function.update s.chans c.send ⟨256, ds, true⟩
        ∧ s'.hub.HasConnection c.ID = false)
    ∧ (∀ (s₁ s₂ : State) (m : Msg) (calls : List Call) (h : Nat),
        step s₁ (.outbound m) = .ok (s₂, calls) →
        (s₁.chans h).cap = 256 → (s₁.chans h).len ≤ 256 →
        (s₂.chans h).cap = 256 ∧ (s₂.chans h).len ≤ 256) := by
  have hclosed : (s.chans c.send).closed = false := by rw [hch]; rfl
  have hbuf : (s.chans c.send).buf = [] := by rw [hch]; rfl
  have hcap : (s.chans c.send).cap = 256 := by rw [hch]; rfl
  have hfirst : ∀ k : Nat, k ≤ 256 →
      Run s ((ds.take k).map (fun x => Event.outbound ⟨c.ID, x⟩))
        = .ok (⟨s.hub, Function.update s.chans c.send ⟨256, ds.take k, false⟩⟩, []) := by
    intro k hk
    rw [Run_outbound_room c (ds.take k) s hreg hclosed
      (by rw [hbuf, hcap, List.length_take]; simp only [List.length_nil]; omega)]
    simp only [hbuf, hcap, hclosed, List.nil_append]
  refine ⟨hfirst, ?_, ?_⟩
  · have h256 := hfirst 256 (Nat.le_refl _)
    rw [List.take_of_length_le (by omega)] at h256
    refine ⟨⟨⟨Function.update s.hub.connections c.ID none, s.hub.listeners⟩,
      Function.update s.chans c.send ⟨256, ds, true⟩⟩, ?_, rfl, rfl, rfl, ?_⟩
    · rw [List.map_append, Run_append, h256]
      simp only [List.map_cons, List.map_nil, Run, step, hreg, Function.update_same,
        Chan.trySend, Chan.close, hlen, Nat.lt_irrefl, Bool.false_eq_true, if_false,
        Function.update_idem, List.append_nil]
    · simp only [Hub.HasConnection, Function.update_same]
  · intro s₁ s₂ m calls h hstep hc hl
    simp only [step] at hstep
    cases hm : s₁.hub.connections m.ConnectionID with
    | none =>
      simp only [hm, Except.ok.injEq, Prod.mk.injEq] at hstep
      obtain ⟨rfl, _⟩ := hstep
      exact ⟨hc, hl⟩
    | some c' =>
      simp only [hm, Chan.trySend, Chan.close] at hstep
      cases hcl : (s₁.chans c'.send).closed with
      | true => simp [hcl] at hstep
      | false =>
        simp only [hcl, Bool.false_eq_true, if_false] at hstep
        by_cases hlt : (s₁.chans c'.send).buf.length < (s₁.chans c'.send).cap
        · simp only [hlt, if_true, Except.ok.injEq, Prod.mk.injEq] at hstep
          obtain ⟨rfl, _⟩ := hstep
          by_cases hh : h = c'.send
          · subst hh
            simp only [Function.update_same, Chan.len, List.length_append,
              List.length_singleton]
            refine ⟨hc, ?_⟩
            rw [hc] at hlt
            omega
          · simp only [Function.update_noteq hh]
            exact ⟨hc, hl⟩
        · simp only [hlt, if_false, Except.ok.injEq, Prod.mk.injEq] at hstep
          obtain ⟨rfl, _⟩ := hstep
          by_cases hh : h = c'.send
          · subst hh
            simp only [Function.update_same]
            exact ⟨hc, hl⟩
          · simp only [Function.update_noteq hh]
            exact ⟨hc, hl⟩

/-! ## The close-exactly-once invariant -/

theorem registered_append (es fs : List Event) :
    registered (es ++ fs) = registered es ++ registered fs := by
  simp only [registered, List.filterMap_append]

theorem mem_registered (c : Connection) (evs : List Event) :
    c ∈ registered evs ↔ Event.register c ∈ evs := by
  simp only [registered, List.mem_filterMap]
  constructor
  · rintro ⟨e, he, h⟩
    cases e <;> simp at h
    subst h
    exact he
  · intro h
    exact ⟨_, h, rfl⟩

theorem HubInv_init (cs : List Connection) : HubInv cs [] State.init := by
  refine ⟨fun id c h => ?_, fun c _ => ?_⟩
  · simp [State.init, NewHub] at h
  · simp [State.sendOpen, State.inMap, State.init, NewHub, Chan.make, registered]

/-- Removing a connection of the map and closing its send queue keeps the invariant, and
the queue is closed in the step that removes the connection. -/
theorem HubInv_remove (cs : List Connection) (pre evs : List Event) (s : State)
    (c : Connection) (ls : List Listener) (ch : Chan)
    (hid : ∀ c₁ ∈ cs, ∀ c₂ ∈ cs, c₁.ID = c₂.ID → c₁ = c₂)
    (hsend : ∀ c₁ ∈ cs, ∀ c₂ ∈ cs, c₁.send = c₂.send → c₁ = c₂)
    (hc : c ∈ cs) (hinv : HubInv cs pre s) (hin : s.inMap c) (hch : ch.closed = true)
    (hr : registered evs = registered pre) :
    HubInv cs evs ⟨⟨Function.update s.hub.connections c.ID none, ls⟩,
        Function.update s.chans c.send ch⟩
    ∧ (∀ x ∈ cs,
        (s.inMap x ∧ ¬ State.inMap ⟨⟨Function.update s.hub.connections c.ID none, ls⟩,
            Function.update s.chans c.send ch⟩ x)
        ↔ (s.sendOpen x ∧ ¬ State.sendOpen ⟨⟨Function.update s.hub.connections c.ID none, ls⟩,
            Function.update s.chans c.send ch⟩ x)) := by
  obtain ⟨h1, h2⟩ := hinv
  have hcreg : c ∈ registered pre := (h1 _ _ hin).2
  have hopen : s.sendOpen c := (h2 c hc).2 (Or.inl hin)
  refine ⟨⟨fun id x hx => ?_, fun x hx => ?_⟩, fun x hx => ?_⟩
  · by_cases hidc : id = c.ID
    · subst hidc
      simp only [Function.update_same] at hx
      exact absurd hx (by simp)
    · simp only [Function.update_noteq hidc] at hx
      rw [hr]
      exact h1 id x hx
  · by_cases hxc : x = c
    · subst hxc
      simp only [State.sendOpen, State.inMap, Function.update_same, hch, hr]
      simp only [Bool.true_eq_false, false_iff, not_or, not_not]
      exact ⟨by simp, hcreg⟩
    · have hne1 : x.ID ≠ c.ID := fun h => hxc (hid x hx c hc h)
      have hne2 : x.send ≠ c.send := fun h => hxc (hsend x hx c hc h)
      simp only [State.sendOpen, State.inMap, Function.update_noteq hne1,
        Function.update_noteq hne2, hr]
      exact h2 x hx
  · by_cases hxc : x = c
    · subst hxc
      simp only [State.sendOpen, State.inMap, Function.update_same, hch]
      constructor
      · intro _
        exact ⟨hopen, by simp⟩
      · intro _
        exact ⟨hin, by simp⟩
    · have hne1 : x.ID ≠ c.ID := fun h => hxc (hid x hx c hc h)
      have hne2 : x.send ≠ c.send := fun h => hxc (hsend x hx c hc h)
      simp only [State.sendOpen, State.inMap, Function.update_noteq hne1,
        Function.update_noteq hne2]
      constructor
      · intro h; exact absurd h.1 h.2
      · intro h; exact absurd h.1 h.2

/-- A step that keeps the map and the closed flags keeps the invariant, and neither removes
a connection nor closes a queue. -/
theorem HubInv_same (cs : List Connection) (pre evs : List Event) (s s' : State)
    (hinv : HubInv cs pre s)
    (hmap : s'.hub.connections = s.hub.connections)
    (hflag : ∀ h : Nat, (s'.chans h).closed = (s.chans h).closed)
    (hr : registered evs = registered pre) :
    HubInv cs evs s'
    ∧ (∀ x ∈ cs, (s.inMap x ∧ ¬ s'.inMap x) ↔ (s.sendOpen x ∧ ¬ s'.sendOpen x)) := by
  obtain ⟨h1, h2⟩ := hinv
  refine ⟨⟨fun id x hx => ?_, fun x hx => ?_⟩, fun x _ => ?_⟩
  · rw [hmap] at hx
    rw [hr]
    exact h1 id x hx
  · simp only [State.sendOpen, State.inMap, hmap, hflag, hr]
    exact h2 x hx
  · simp only [State.sendOpen, State.inMap, hmap, hflag]
    constructor
    · intro h; exact absurd h.1 h.2
    · intro h; exact absurd h.1 h.2

/-- A register of a connection that is not yet registered keeps the invariant. -/
theorem HubInv_register (cs : List Connection) (pre : List Event) (s : State)
    (c : Connection)
    (hid : ∀ c₁ ∈ cs, ∀ c₂ ∈ cs, c₁.ID = c₂.ID → c₁ = c₂)
    (hc : c ∈ cs) (hnew : c ∉ registered pre) (hinv : HubInv cs pre s) :
    HubInv cs (pre ++ [Event.register c])
        ⟨⟨Function.update s.hub.connections c.ID (some c), s.hub.listeners⟩, s.chans⟩
    ∧ (∀ x ∈ cs,
        (s.inMap x ∧ ¬ State.inMap
            ⟨⟨Function.update s.hub.connections c.ID (some c), s.hub.listeners⟩, s.chans⟩ x)
        ↔ (s.sendOpen x ∧ ¬ State.sendOpen
            ⟨⟨Function.update s.hub.connections c.ID (some c), s.hub.listeners⟩, s.chans⟩ x)) := by
  obtain ⟨h1, h2⟩ := hinv
  have hr : registered (pre ++ [Event.register c]) = registered pre ++ [c] := by
    rw [registered_append]; rfl
  refine ⟨⟨fun id x hx => ?_, fun x hx => ?_⟩, fun x hx => ?_⟩
  · rw [hr]
    by_cases hidc : id = c.ID
    · subst hidc
      simp only [Function.update_same, Option.some.injEq] at hx
      subst hx
      exact ⟨rfl, by simp⟩
    · simp only [Function.update_noteq hidc] at hx
      exact ⟨(h1 id x hx).1, List.mem_append_left _ (h1 id x hx).2⟩
  · rw [hr]
    by_cases hxc : x = c
    · subst hxc
      simp only [State.sendOpen, State.inMap, Function.update_same, true_or, iff_true]
      exact (h2 x hx).2 (Or.inr hnew)
    · have hne1 : x.ID ≠ c.ID := fun h => hxc (hid x hx c hc h)
      simp only [State.sendOpen, State.inMap, Function.update_noteq hne1, List.mem_append,
        List.mem_singleton, hxc, or_false]
      exact h2 x hx
  · simp only [State.sendOpen, State.inMap]
    constructor
    · rintro ⟨hin, hout⟩
      by_cases hxc : x = c
      · subst hxc
        exact absurd (h1 _ _ hin).2 hnew
      · have hne1 : x.ID ≠ c.ID := fun h => hxc (hid x hx c hc h)
        simp only [Function.update_noteq hne1] at hout
        exact absurd hin hout
    · intro h; exact absurd h.1 h.2

/-- One step of the hub from a state that satisfies the invariant, on an event that
registers a new connection of `cs`, unregisters a registered one, or is of another kind: no
panic, the invariant holds again, and a queue is closed exactly when its connection is
removed. -/
theorem step_HubInv (cs : List Connection) (pre : List Event) (s : State) (e : Event)
    (hid : ∀ c₁ ∈ cs, ∀ c₂ ∈ cs, c₁.ID = c₂.ID → c₁ = c₂)
    (hsend : ∀ c₁ ∈ cs, ∀ c₂ ∈ cs, c₁.send = c₂.send → c₁ = c₂)
    (hcs : ∀ c ∈ registered pre, c ∈ cs)
    (hinv : HubInv cs pre s)
    (hreg : ∀ c, e = Event.register c → c ∈ cs ∧ c ∉ registered pre)
    (hun : ∀ c, e = Event.unregister c → c ∈ registered pre) :
    ∃ (s' : State) (calls : List Call), step s e = .ok (s', calls)
      ∧ HubInv cs (pre ++ [e]) s'
      ∧ (∀ x ∈ cs, (s.inMap x ∧ ¬ s'.inMap x) ↔ (s.sendOpen x ∧ ¬ s'.sendOpen x)) := by
  have hmapped : ∀ (id : String) (x : Connection), s.hub.connections id = some x →
      x ∈ cs ∧ s.inMap x ∧ s.sendOpen x := by
    intro id x hx
    have hx1 := hinv.1 id x hx
    have hxcs := hcs x hx1.2
    have hin : s.inMap x := by
      simp only [State.inMap, hx1.1]; exact hx
    exact ⟨hxcs, hin, (hinv.2 x hxcs).2 (Or.inl hin)⟩
  cases e with
  | listen l =>
    exact ⟨_, _, rfl, HubInv_same cs pre _ s _ hinv rfl (fun _ => rfl)
      (by rw [registered_append]; simp [registered])⟩
  | register c =>
    obtain ⟨hc, hnew⟩ := hreg c rfl
    exact ⟨_, _, rfl, HubInv_register cs pre s c hid hc hnew hinv⟩
  | unregister c =>
    have hcreg := hun c rfl
    have hc := hcs c hcreg
    have hr : registered (pre ++ [Event.unregister c]) = registered pre := by
      rw [registered_append]; simp [registered]
    cases hm : s.hub.connections c.ID with
    | none =>
      refine ⟨s, fireDisconnect c s.hub.listeners, ?_,
        HubInv_same cs pre _ s s hinv rfl (fun _ => rfl) hr⟩
      simp only [step, hm]
    | some c' =>
      obtain ⟨hc', hin', _⟩ := hmapped _ _ hm
      have hcc : c' = c := hid c' hc' c hc (hinv.1 _ _ hm).1
      subst hcc
      obtain ⟨_, hin, hopen⟩ := hmapped _ _ hm
      refine ⟨_, fireDisconnect c' s.hub.listeners, ?_, HubInv_remove cs pre _ s c'
        s.hub.listeners { s.chans c'.send with closed := true } hid hsend hc hinv hin rfl hr⟩
      simp only [State.sendOpen] at hopen
      simp only [step, hm, Chan.close, hopen, Bool.false_eq_true, if_false]
  | inbound m =>
    have hr : registered (pre ++ [Event.inbound m]) = registered pre := by
      rw [registered_append]; simp [registered]
    cases m with
    | none => exact ⟨s, _, rfl, HubInv_same cs pre _ s s hinv rfl (fun _ => rfl) hr⟩
    | some m => exact ⟨s, _, rfl, HubInv_same cs pre _ s s hinv rfl (fun _ => rfl) hr⟩
  | outbound m =>
    have hr : registered (pre ++ [Event.outbound m]) = registered pre := by
      rw [registered_append]; simp [registered]
    cases hm : s.hub.connections m.ConnectionID with
    | none =>
      refine ⟨s, [], ?_, HubInv_same cs pre _ s s hinv rfl (fun _ => rfl) hr⟩
      simp only [step, hm]
    | some c =>
      obtain ⟨hc, hin, hopen⟩ := hmapped _ _ hm
      simp only [State.sendOpen] at hopen
      by_cases hlt : (s.chans c.send).buf.length < (s.chans c.send).cap
      · refine ⟨⟨s.hub, Function.update s.chans c.send
            { s.chans c.send with buf := (s.chans c.send).buf ++ [m.Data] }⟩, [], ?_,
          HubInv_same cs pre _ s _ hinv rfl (fun h => ?_) hr⟩
        · simp only [step, hm, Chan.trySend, hopen, hlt, Bool.false_eq_true, if_false,
            if_true]
        · by_cases hh : h = c.send
          · subst hh
            simp only [Function.update_same]
          · simp only [Function.update_noteq hh]
      · refine ⟨_, [], ?_, HubInv_remove cs pre _ s c s.hub.listeners
          { s.chans c.send with closed := true } hid hsend hc hinv hin rfl hr⟩
        simp only [step, hm, Chan.trySend, Chan.close, hopen, hlt, Bool.false_eq_true,
          if_false]

/-- What the last event of an admissible sequence is allowed to be. -/
theorem last_event_admissible (cs : List Connection) (pre : List Event) (e : Event)
    (hcs : ∀ c, Event.register c ∈ pre ++ [e] → c ∈ cs)
    (honce : (registered (pre ++ [e])).Nodup)
    (hbefore : ∀ p c q, pre ++ [e] = p ++ Event.unregister c :: q → Event.register c ∈ p) :
    (∀ c, e = Event.register c → c ∈ cs ∧ c ∉ registered pre)
    ∧ (∀ c, e = Event.unregister c → c ∈ registered pre) := by
  constructor
  · rintro c rfl
    refine ⟨hcs c (by simp), ?_⟩
    rw [registered_append] at honce
    have hdis := (List.nodup_append.1 honce).2.2
    intro hmem
    exact hdis hmem (by simp [registered])
  · rintro c rfl
    exact (mem_registered c pre).2 (hbefore pre c [] rfl)

/-- The hypotheses on an admissible sequence hold for the sequence without its last
event. -/
theorem admissible_initial (cs : List Connection) (pre : List Event) (e : Event)
    (hcs : ∀ c, Event.register c ∈ pre ++ [e] → c ∈ cs)
    (honce : (registered (pre ++ [e])).Nodup)
    (hbefore : ∀ p c q, pre ++ [e] = p ++ Event.unregister c :: q → Event.register c ∈ p) :
    (∀ c, Event.register c ∈ pre → c ∈ cs)
    ∧ (registered pre).Nodup
    ∧ (∀ p c q, pre = p ++ Event.unregister c :: q → Event.register c ∈ p) := by
  refine ⟨fun c h => hcs c (List.mem_append_left _ h), ?_, fun p c q h => ?_⟩
  · rw [registered_append] at honce
    exact (List.nodup_append.1 honce).1
  · apply hbefore p c (q ++ [e])
    rw [h]
    simp

/-! ## The theorems at concrete inputs -/

theorem unregister_event_witness :
    (stateOne.hub.connections conn₁.ID = some conn₁
      ∧ (stateOne.chans conn₁.send).closed = false
      ∧ step stateOne (.unregister conn₁)
          = .ok (⟨⟨Function.update stateOne.hub.connections conn₁.ID none,
                    stateOne.hub.listeners⟩,
                  Function.update stateOne.chans conn₁.send
                    { stateOne.chans conn₁.send with closed := true }⟩,
                 (stateOne.hub.listeners.filter (fun l => l.OnDisconnect.isSome)).map
                   (fun l => Call.onDisconnect l conn₁)))
    ∧ (stateOne.hub.connections conn₂.ID = none
      ∧ step stateOne (.unregister conn₂)
          = .ok (stateOne, (stateOne.hub.listeners.filter (fun l => l.OnDisconnect.isSome)).map
                      (fun l => Call.onDisconnect l conn₂)))
    ∧ ∃ s' : State,
        step stateOne (.unregister conn₁)
            = .ok (s', [Call.onDisconnect listenerAll conn₁])
        ∧ s'.hub.HasConnection "c-1" = false
        ∧ (s'.chans 0).closed = true
        ∧ step s' (.unregister conn₁) = .ok (s', [Call.onDisconnect listenerAll conn₁]) :=
  have h₁ : stateOne.hub.connections conn₁.ID = some conn₁ := by simp [stateOne, conn₁]
  have hstep := (unregister_event stateOne conn₁).1 conn₁ h₁ rfl
  ⟨⟨h₁, rfl, hstep⟩,
    ⟨by simp [stateOne, conn₂, NewHub],
      (unregister_event stateOne conn₂).2.1 (by simp [stateOne, conn₂, NewHub])⟩,
    ⟨_, hstep, by simp [Hub.HasConnection, conn₁], by simp [conn₁],
      (unregister_event stateOne conn₁).2.2 _ _ hstep⟩⟩

theorem outbound_unknown_id_witness :
    stateOne.hub.connections (Msg.mk "c-2" [104, 105]).ConnectionID = none
    ∧ step stateOne (.outbound ⟨"c-2", [104, 105]⟩) = .ok (stateOne, []) :=
  ⟨by simp [stateOne, NewHub],
    outbound_unknown_id stateOne ⟨"c-2", [104, 105]⟩ (by simp [stateOne, NewHub])⟩

theorem outbound_enqueue_witness :
    stateOne.hub.connections (Msg.mk "c-1" [104, 105]).ConnectionID = some conn₁
    ∧ (stateOne.chans conn₁.send).closed = false
    ∧ (stateOne.chans conn₁.send).cap = sendCapacity
    ∧ (stateOne.chans conn₁.send).len < 256
    ∧ ∃ s' : State, step stateOne (.outbound ⟨"c-1", [104, 105]⟩) = .ok (s', [])
      ∧ (s'.chans conn₁.send).buf = (stateOne.chans conn₁.send).buf ++ [[104, 105]] :=
  ⟨by simp [stateOne], rfl, rfl, by decide,
    (outbound_enqueue stateOne ⟨"c-1", [104, 105]⟩ conn₁ (by simp [stateOne]) rfl rfl
      (by decide)).imp (fun _ h => ⟨h.1, h.2.2.2.1⟩)⟩

theorem full_buffer_eviction_witness :
    stateOne.hub.connections conn₁.ID = some conn₁
    ∧ stateOne.chans conn₁.send = Chan.make sendCapacity
    ∧ (List.replicate 256 ([104] : Bytes)).length = 256
    ∧ ∃ s' : State,
        Run stateOne ((List.replicate 256 ([104] : Bytes) ++ [[105]]).map
          (fun x => Event.outbound ⟨conn₁.ID, x⟩)) = .ok (s', [])
        ∧ s'.hub.HasConnection conn₁.ID = false :=
  ⟨by simp [stateOne, conn₁], rfl, List.length_replicate _ _,
    (full_buffer_eviction stateOne conn₁ (List.replicate 256 [104]) [105]
      (by simp [stateOne, conn₁]) rfl (List.length_replicate _ _)).2.1.imp
      (fun _ h => ⟨h.1, h.2.2.2.2⟩)⟩

/-! ## The reader pump -/

theorem ReplaceAllLoop_newline (s : Bytes) :
    ReplaceAllLoop newline space 0 s = newlinesToSpaces s := by
  induction s with
  | nil => rfl
  | cons b rest ih =>
    by_cases hb : b = 10
    · subst hb
      simp only [ReplaceAllLoop, newline, space, List.isPrefixOf, beq_self_eq_true,
        Bool.and_self, if_true, List.length_singleton, Nat.sub_self, newlinesToSpaces,
        List.map_cons, List.singleton_append, List.cons.injEq, true_and]
      exact ih
    · have hne : (10 == b) = false := by
        simp only [beq_eq_false_iff_ne, ne_eq]
        exact fun h => hb h.symm
      simp only [ReplaceAllLoop, newline, List.isPrefixOf, hne, Bool.false_and,
        Bool.false_eq_true, if_false, newlinesToSpaces, List.map_cons, hb, List.cons.injEq,
        true_and]
      exact ih

theorem asciiSpace_lt (c : Byte) (h : asciiSpace c = true) : c.toNat < RuneSelf := by
  simp only [asciiSpace, Bool.or_eq_true, beq_iff_eq] at h
  rcases h with ((((h | h) | h) | h) | h) | h <;> subst h <;> decide

theorem trimSpaceStart_eq (s : Bytes) :
    trimSpaceStart s = (nonASCIIHead (asciiTrimLeft s), asciiTrimLeft s) := by
  induction s with
  | nil => rfl
  | cons c rest ih =>
    by_cases hc : c.toNat ≥ RuneSelf
    · have hsp : asciiSpace c = false := by
        cases h : asciiSpace c with
        | false => rfl
        | true => exact absurd (asciiSpace_lt c h) (by omega)
      simp only [trimSpaceStart, hc, if_true, asciiTrimLeft, List.dropWhile_cons, hsp,
        Bool.false_eq_true, if_false, nonASCIIHead, decide_True]
    · cases hsp : asciiSpace c with
      | true =>
        simp only [trimSpaceStart, hc, if_false, hsp, if_true, asciiTrimLeft,
          List.dropWhile_cons]
        exact ih
      | false =>
        simp only [trimSpaceStart, hc, if_false, hsp, Bool.false_eq_true, asciiTrimLeft,
          List.dropWhile_cons, nonASCIIHead, decide_False]

theorem trimSpaceStop_eq (s : Bytes) :
    trimSpaceStop s = (nonASCIIHead (asciiTrimLeft s), asciiTrimLeft s) := by
  induction s with
  | nil => rfl
  | cons c rest ih =>
    by_cases hc : c.toNat ≥ RuneSelf
    · have hsp : asciiSpace c = false := by
        cases h : asciiSpace c with
        | false => rfl
        | true => exact absurd (asciiSpace_lt c h) (by omega)
      simp only [trimSpaceStop, hc, if_true, asciiTrimLeft, List.dropWhile_cons, hsp,
        Bool.false_eq_true, if_false, nonASCIIHead, decide_True]
    · cases hsp : asciiSpace c with
      | true =>
        simp only [trimSpaceStop, hc, if_false, hsp, if_true, asciiTrimLeft,
          List.dropWhile_cons]
        exact ih
      | false =>
        simp only [trimSpaceStop, hc, if_false, hsp, Bool.false_eq_true, asciiTrimLeft,
          List.dropWhile_cons, nonASCIIHead, decide_False]

theorem nonASCIIHead_false (t : Bytes)
    (h : ∀ b : Byte, t.head? = some b → b.toNat < RuneSelf) : nonASCIIHead t = false := by
  cases t with
  | nil => rfl
  | cons c rest =>
    have := h c rfl
    simp only [nonASCIIHead, decide_eq_false_iff_not]
    omega

/-- On a slice whose first and last bytes, once the ASCII whitespace at both ends is taken
off, are ASCII, `bytes.TrimSpace` takes off the ASCII whitespace at both ends and nothing
else. -/
theorem TrimSpace_ascii_ends (s : Bytes)
    (hfirst : ∀ b : Byte, (asciiTrimLeft s).head? = some b → b.toNat < RuneSelf)
    (hlast : ∀ b : Byte, (asciiTrim s).getLast? = some b → b.toNat < RuneSelf) :
    TrimSpace s = asciiTrim s := by
  have h1 := nonASCIIHead_false _ hfirst
  have h2 : nonASCIIHead (asciiTrimLeft (asciiTrimLeft s).reverse) = false := by
    apply nonASCIIHead_false
    intro b hb
    apply hlast b
    simp only [asciiTrim, List.getLast?_reverse]
    exact hb
  simp only [TrimSpace, trimSpaceStart_eq, h1, trimSpaceStop_eq, h2, asciiTrim]

theorem TrimFunc_contiguous (t : Bytes) (f : Nat → Bool) : TrimFunc t f <:+: t := by
  have hleft : TrimLeftFunc t f <:+ t := by
    unfold TrimLeftFunc
    cases indexFunc t f false with
    | none => exact List.nil_suffix
    | some i => exact List.drop_suffix i t
  have hright : ∀ u : Bytes, TrimRightFunc u f <+: u := by
    intro u
    unfold TrimRightFunc
    cases lastIndexFunc u f false with
    | none => exact List.take_prefix 0 u
    | some i =>
      simp only []
      split
      · exact List.take_prefix _ u
      · exact List.take_prefix _ u
  exact List.IsInfix.trans (hright _).isInfix hleft.isInfix

/-- What `bytes.TrimSpace` returns is a contiguous part of its argument. -/
theorem TrimSpace_contiguous (s : Bytes) : TrimSpace s <:+: s := by
  have hl : asciiTrimLeft s <:+ s := List.dropWhile_suffix _
  have hr : asciiTrimLeft (asciiTrimLeft s).reverse <:+ (asciiTrimLeft s).reverse :=
    List.dropWhile_suffix _
  have hr' : (asciiTrimLeft (asciiTrimLeft s).reverse).reverse <+: asciiTrimLeft s := by
    have := List.reverse_prefix.2 hr
    rwa [List.reverse_reverse] at this
  simp only [TrimSpace, trimSpaceStart_eq, trimSpaceStop_eq]
  cases nonASCIIHead (asciiTrimLeft s) with
  | true =>
    exact List.IsInfix.trans (TrimFunc_contiguous _ _) hl.isInfix
  | false =>
    simp only []
    cases nonASCIIHead (asciiTrimLeft (asciiTrimLeft s).reverse) with
    | true =>
      exact List.IsInfix.trans (TrimFunc_contiguous _ _) (List.IsInfix.trans hr'.isInfix hl.isInfix)
    | false =>
      exact List.IsInfix.trans hr'.isInfix hl.isInfix

/-! ## `bytes.TrimSpace` takes off white space as Unicode defines it -/

theorem or2 (a b : Nat) (hb : b < 64) : (a <<< 6) ||| b = a * 64 + b := by
  rw [Nat.shiftLeft_eq]
  have h := Nat.mul_add_lt_is_or (i := 6) (b := b) (by simpa using hb) a
  simp only [Nat.reducePow] at h
  rw [Nat.mul_comm a 64, ← h]

theorem or3 (a b c : Nat) (hb : b < 64) (hc : c < 64) :
    (a <<< 12) ||| (b <<< 6) ||| c = a * 4096 + b * 64 + c := by
  rw [Nat.shiftLeft_eq, Nat.shiftLeft_eq]
  have h1 := Nat.mul_add_lt_is_or (i := 12) (b := b * 2 ^ 6) (by simp only [Nat.reducePow]; omega) a
  have h2 := Nat.mul_add_lt_is_or (i := 6) (b := c) (by simpa using hc) (a * 64 + b)
  simp only [Nat.reducePow] at h1 h2 ⊢
  rw [Nat.mul_comm a 4096, ← h1]
  have e : 4096 * a + b * 64 = 64 * (a * 64 + b) := by omega
  rw [e, ← h2]

theorem or4 (a b c d : Nat) (hb : b < 64) (hc : c < 64) (hd : d < 64) :
    (a <<< 18) ||| (b <<< 12) ||| (c <<< 6) ||| d
      = a * 262144 + b * 4096 + c * 64 + d := by
  rw [Nat.shiftLeft_eq, Nat.shiftLeft_eq, Nat.shiftLeft_eq]
  have h1 := Nat.mul_add_lt_is_or (i := 18) (b := b * 2 ^ 12)
    (by simp only [Nat.reducePow]; omega) a
  have h2 := Nat.mul_add_lt_is_or (i := 12) (b := c * 2 ^ 6)
    (by simp only [Nat.reducePow]; omega) (a * 64 + b)
  have h3 := Nat.mul_add_lt_is_or (i := 6) (b := d) (by simpa using hd)
    (a * 4096 + b * 64 + c)
  simp only [Nat.reducePow] at h1 h2 h3 ⊢
  rw [Nat.mul_comm a 262144, ← h1]
  have e : 262144 * a + b * 4096 = 4096 * (a * 64 + b) := by omega
  rw [e, ← h2]
  have e2 : 4096 * (a * 64 + b) + c * 64 = 64 * (a * 4096 + b * 64 + c) := by omega
  rw [e2, ← h3]

theorem and_mask (x : Nat) :
    x &&& 0x3F = x % 64 ∧ x &&& 0x1F = x % 32 ∧ x &&& 0x0F = x % 16 ∧ x &&& 0x07 = x % 8 :=
  ⟨Nat.and_pow_two_sub_one_eq_mod x 6, Nat.and_pow_two_sub_one_eq_mod x 5,
    Nat.and_pow_two_sub_one_eq_mod x 4, Nat.and_pow_two_sub_one_eq_mod x 3⟩


theorem first_values (n : Nat) :
    (n < 0x80 → first n = 0xF0)
    ∧ (0x80 ≤ n → n < 0xC2 → first n = 0xF1)
    ∧ (0xC2 ≤ n → n < 0xE0 → first n = 0x02)
    ∧ (n = 0xE0 → first n = 0x13)
    ∧ (0xE0 < n → n < 0xED → first n = 0x03)
    ∧ (n = 0xED → first n = 0x23)
    ∧ (0xED < n → n < 0xF0 → first n = 0x03)
    ∧ (n = 0xF0 → first n = 0x34)
    ∧ (0xF0 < n → n < 0xF4 → first n = 0x04)
    ∧ (n = 0xF4 → first n = 0x44)
    ∧ (0xF4 < n → first n = 0xF1) := by
  refine ⟨?_, ?_, ?_, ?_, ?_, ?_, ?_, ?_, ?_, ?_, ?_⟩
  · intro h
    rw [first, if_pos h]
  · intro h h'
    rw [first, if_neg (by omega), if_pos h']
  · intro h h'
    rw [first, if_neg (by omega), if_neg (by omega), if_pos h']
  · intro h
    subst h
    rfl
  · intro h h'
    rw [first, if_neg (by omega), if_neg (by omega), if_neg (by omega), if_neg (by omega),
      if_pos h']
  · intro h
    subst h
    rfl
  · intro h h'
    rw [first, if_neg (by omega), if_neg (by omega), if_neg (by omega), if_neg (by omega),
      if_neg (by omega), if_neg (by omega), if_pos h']
  · intro h
    subst h
    rfl
  · intro h h'
    rw [first, if_neg (by omega), if_neg (by omega), if_neg (by omega), if_neg (by omega),
      if_neg (by omega), if_neg (by omega), if_neg (by omega), if_neg (by omega), if_pos h']
  · intro h
    subst h
    rfl
  · intro h
    rw [first, if_neg (by omega), if_neg (by omega), if_neg (by omega), if_neg (by omega),
      if_neg (by omega), if_neg (by omega), if_neg (by omega), if_neg (by omega),
      if_neg (by omega), if_neg (by omega)]

theorem table_bits :
    (2 : Nat) &&& 7 = 2 ∧ (3 : Nat) &&& 7 = 3 ∧ (0x13 : Nat) &&& 7 = 3 ∧ (0x23 : Nat) &&& 7 = 3
    ∧ (0x34 : Nat) &&& 7 = 4 ∧ (4 : Nat) &&& 7 = 4 ∧ (0x44 : Nat) &&& 7 = 4 := by decide

theorem mod64_lt (x : Nat) : x % 64 < 64 := Nat.mod_lt _ (by decide)

theorem DecodeRune_eq_decodeFirst (b : Byte) (rest : Bytes) :
    DecodeRune (b :: rest) = decodeFirst b rest := by
  obtain ⟨h1, h2, h3, h4, h5, h6, h7, h8, h9, h10, h11⟩ := first_values b.toNat
  obtain ⟨m6, m5, m4, m3⟩ := and_mask b.toNat
  obtain ⟨t1, t2, t3, t4, t5, t6, t7⟩ := table_bits
  by_cases c1 : b.toNat < 0x80
  · simp [DecodeRune, decodeFirst, h1 c1, c1]
  by_cases c2 : b.toNat < 0xC2
  · simp [DecodeRune, decodeFirst, h2 (by omega) c2, c1, c2, RuneError]
  by_cases c3 : b.toNat < 0xE0
  · have hf := h3 (by omega) c3
    cases rest with
    | nil => simp [DecodeRune, decodeFirst, hf, c1, c2, c3, acceptRanges, t1]
    | cons c r =>
      simp [DecodeRune, decodeFirst, hf, c1, c2, c3, acceptRanges, t1]
      simp only [m5, (and_mask c.toNat).1, or2 _ _ (mod64_lt _)]
      split_ifs <;> first | rfl | omega
  by_cases c4 : b.toNat < 0xF0
  · have hf : first b.toNat = 0x13 ∨ first b.toNat = 0x03 ∨ first b.toNat = 0x23 := by
      by_cases e1 : b.toNat = 0xE0
      · exact Or.inl (h4 e1)
      by_cases e2 : b.toNat = 0xED
      · exact Or.inr (Or.inr (h6 e2))
      by_cases e3 : b.toNat < 0xED
      · exact Or.inr (Or.inl (h5 (by omega) e3))
      · exact Or.inr (Or.inl (h7 (by omega) c4))
    have hsz : first b.toNat &&& 7 = 3 := by
      rcases hf with h | h | h <;> rw [h] <;> assumption
    have hacc : acceptRanges (first b.toNat >>> 4) = secondByteBounds b.toNat := by
      by_cases e1 : b.toNat = 0xE0
      · rw [h4 e1, e1]; rfl
      by_cases e2 : b.toNat = 0xED
      · rw [h6 e2, e2]; rfl
      have hb : secondByteBounds b.toNat = (0x80, 0xBF) := by
        rw [secondByteBounds, if_neg e1, if_neg e2, if_neg (by omega), if_neg (by omega)]
      rw [hb]
      by_cases e3 : b.toNat < 0xED
      · rw [h5 (by omega) e3]; rfl
      · rw [h7 (by omega) c4]; rfl
    have hlt : ¬ first b.toNat ≥ 0xF0 := by
      rcases hf with h | h | h <;> rw [h] <;> omega
    rcases rest with _ | ⟨c, _ | ⟨d, r⟩⟩
    · simp [DecodeRune, decodeFirst, hlt, hsz, c1, c2, c3, c4]
    · simp [DecodeRune, decodeFirst, hlt, hsz, c1, c2, c3, c4]
    · simp [DecodeRune, decodeFirst, hlt, hsz, hacc, c1, c2, c3, c4]
      simp only [m4, (and_mask c.toNat).1, (and_mask d.toNat).1,
        or3 _ _ _ (mod64_lt _) (mod64_lt _)]
      split_ifs <;> first | rfl | omega
  by_cases c5 : b.toNat < 0xF5
  · have hf : first b.toNat = 0x34 ∨ first b.toNat = 0x04 ∨ first b.toNat = 0x44 := by
      by_cases e1 : b.toNat = 0xF0
      · exact Or.inl (h8 e1)
      by_cases e2 : b.toNat = 0xF4
      · exact Or.inr (Or.inr (h10 e2))
      · exact Or.inr (Or.inl (h9 (by omega) (by omega)))
    have hsz : first b.toNat &&& 7 = 4 := by
      rcases hf with h | h | h <;> rw [h] <;> assumption
    have hacc : acceptRanges (first b.toNat >>> 4) = secondByteBounds b.toNat := by
      by_cases e1 : b.toNat = 0xF0
      · rw [h8 e1, e1]; rfl
      by_cases e2 : b.toNat = 0xF4
      · rw [h10 e2, e2]; rfl
      have hb : secondByteBounds b.toNat = (0x80, 0xBF) := by
        rw [secondByteBounds, if_neg (by omega), if_neg (by omega), if_neg e1, if_neg e2]
      rw [hb, h9 (by omega) (by omega)]
      rfl
    have hlt : ¬ first b.toNat ≥ 0xF0 := by
      rcases hf with h | h | h <;> rw [h] <;> omega
    rcases rest with _ | ⟨c, _ | ⟨d, _ | ⟨e, r⟩⟩⟩
    · simp [DecodeRune, decodeFirst, hlt, hsz, c1, c2, c3, c4, c5]
    · simp [DecodeRune, decodeFirst, hlt, hsz, c1, c2, c3, c4, c5]
    · simp [DecodeRune, decodeFirst, hlt, hsz, c1, c2, c3, c4, c5]
    · simp [DecodeRune, decodeFirst, hlt, hsz, hacc, c1, c2, c3, c4, c5]
      simp only [m3, (and_mask c.toNat).1, (and_mask d.toNat).1, (and_mask e.toNat).1,
        or4 _ _ _ _ (mod64_lt _) (mod64_lt _) (mod64_lt _)]
      split_ifs <;> first | rfl | omega
  · simp [DecodeRune, decodeFirst, h11 (by omega), c1, c2, c3, c4, c5, RuneError]

theorem byte_ext (a b : Byte) (h : a.toNat = b.toNat) : a = b := UInt8.toNat.inj h

theorem byte_lt (a : Byte) : a.toNat < 256 := UInt8.toNat_lt_size a

theorem IsSpace_iff (r : Nat) :
    IsSpace r = true ↔
      (r = 9 ∨ r = 10 ∨ r = 11 ∨ r = 12 ∨ r = 13 ∨ r = 32 ∨ r = 0x85 ∨ r = 0xA0
        ∨ r = 0x1680 ∨ (0x2000 ≤ r ∧ r ≤ 0x200A) ∨ r = 0x2028 ∨ r = 0x2029 ∨ r = 0x202F
        ∨ r = 0x205F ∨ r = 0x3000) := by
  unfold IsSpace
  split_ifs with h
  · simp only [Bool.or_eq_true, beq_iff_eq]
    omega
  · simp only [Bool.or_eq_true, beq_iff_eq, Bool.and_eq_true, decide_eq_true_eq]
    omega

theorem whiteSpace_mem_iff (w : Bytes) :
    w ∈ whiteSpace ↔
      (w = [9] ∨ w = [10] ∨ w = [11] ∨ w = [12] ∨ w = [13] ∨ w = [32] ∨ w = [0xC2, 0x85]
        ∨ w = [0xC2, 0xA0] ∨ w = [0xE1, 0x9A, 0x80] ∨ w = [0xE2, 0x80, 0x80]
        ∨ w = [0xE2, 0x80, 0x81] ∨ w = [0xE2, 0x80, 0x82] ∨ w = [0xE2, 0x80, 0x83]
        ∨ w = [0xE2, 0x80, 0x84] ∨ w = [0xE2, 0x80, 0x85] ∨ w = [0xE2, 0x80, 0x86]
        ∨ w = [0xE2, 0x80, 0x87] ∨ w = [0xE2, 0x80, 0x88] ∨ w = [0xE2, 0x80, 0x89]
        ∨ w = [0xE2, 0x80, 0x8A] ∨ w = [0xE2, 0x80, 0xA8] ∨ w = [0xE2, 0x80, 0xA9]
        ∨ w = [0xE2, 0x80, 0xAF] ∨ w = [0xE2, 0x81, 0x9F] ∨ w = [0xE3, 0x80, 0x80]) := by
  simp only [whiteSpace, List.mem_cons, List.mem_singleton, List.not_mem_nil, or_false]

/-- The first rune of a white-space sequence followed by anything is a space of that
width. -/
theorem decodeFirst_whiteSpace (w : Bytes) (hw : w ∈ whiteSpace) (s : Bytes) :
    ∃ b rest, w ++ s = b :: rest ∧ IsSpace (decodeFirst b rest).1 = true
      ∧ (decodeFirst b rest).2 = w.length := by
  rw [whiteSpace_mem_iff] at hw
  rcases hw with h | h | h | h | h | h | h | h | h | h | h | h | h | h | h | h | h | h | h | h
    | h | h | h | h | h <;> subst h <;> exact ⟨_, _, rfl, rfl, rfl⟩


theorem three_byte_space (n c d : Nat) (hn : 0xE0 ≤ n) (hn' : n < 0xF0) (hc : 0x80 ≤ c)
    (hc' : c ≤ 0xBF) (hE0 : n = 0xE0 → 0xA0 ≤ c) (hd : 0x80 ≤ d) (hd' : d ≤ 0xBF)
    (h : IsSpace ((n % 16) * 4096 + (c % 64) * 64 + d % 64) = true) :
    ∃ x y z : Byte, [x, y, z] ∈ whiteSpace ∧ n = x.toNat ∧ c = y.toNat ∧ d = z.toNat := by
  have e1 : n % 16 = n - 0xE0 := by omega
  have e2 : c % 64 = c - 0x80 := by omega
  have e3 : d % 64 = d - 0x80 := by omega
  rw [e1, e2, e3, IsSpace_iff] at h
  rcases h with h | h | h | h | h | h | h | h | h | h | h | h | h | h | h
  · omega
  · omega
  · omega
  · omega
  · omega
  · omega
  · omega
  · omega
  · have h' : n = 0xE1 ∧ c = 0x9A ∧ d = 0x80 := by omega
    exact ⟨0xE1, 0x9A, 0x80, by simp [whiteSpace], h'.1, h'.2.1, h'.2.2⟩
  · have h' : n = 0xE2 ∧ c = 0x80 ∧ 0x80 ≤ d ∧ d ≤ 0x8A := by omega
    obtain ⟨h1, h2, h3, h4⟩ := h'
    have h5 : d = 0x80 ∨ d = 0x81 ∨ d = 0x82 ∨ d = 0x83 ∨ d = 0x84 ∨ d = 0x85 ∨ d = 0x86
        ∨ d = 0x87 ∨ d = 0x88 ∨ d = 0x89 ∨ d = 0x8A := by omega
    rcases h5 with e | e | e | e | e | e | e | e | e | e | e
    · exact ⟨0xE2, 0x80, 0x80, by simp [whiteSpace], h1, h2, e⟩
    · exact ⟨0xE2, 0x80, 0x81, by simp [whiteSpace], h1, h2, e⟩
    · exact ⟨0xE2, 0x80, 0x82, by simp [whiteSpace], h1, h2, e⟩
    · exact ⟨0xE2, 0x80, 0x83, by simp [whiteSpace], h1, h2, e⟩
    · exact ⟨0xE2, 0x80, 0x84, by simp [whiteSpace], h1, h2, e⟩
    · exact ⟨0xE2, 0x80, 0x85, by simp [whiteSpace], h1, h2, e⟩
    · exact ⟨0xE2, 0x80, 0x86, by simp [whiteSpace], h1, h2, e⟩
    · exact ⟨0xE2, 0x80, 0x87, by simp [whiteSpace], h1, h2, e⟩
    · exact ⟨0xE2, 0x80, 0x88, by simp [whiteSpace], h1, h2, e⟩
    · exact ⟨0xE2, 0x80, 0x89, by simp [whiteSpace], h1, h2, e⟩
    · exact ⟨0xE2, 0x80, 0x8A, by simp [whiteSpace], h1, h2, e⟩
  · have h' : n = 0xE2 ∧ c = 0x80 ∧ d = 0xA8 := by omega
    exact ⟨0xE2, 0x80, 0xA8, by simp [whiteSpace], h'.1, h'.2.1, h'.2.2⟩
  · have h' : n = 0xE2 ∧ c = 0x80 ∧ d = 0xA9 := by omega
    exact ⟨0xE2, 0x80, 0xA9, by simp [whiteSpace], h'.1, h'.2.1, h'.2.2⟩
  · have h' : n = 0xE2 ∧ c = 0x80 ∧ d = 0xAF := by omega
    exact ⟨0xE2, 0x80, 0xAF, by simp [whiteSpace], h'.1, h'.2.1, h'.2.2⟩
  · have h' : n = 0xE2 ∧ c = 0x81 ∧ d = 0x9F := by omega
    exact ⟨0xE2, 0x81, 0x9F, by simp [whiteSpace], h'.1, h'.2.1, h'.2.2⟩
  · have h' : n = 0xE3 ∧ c = 0x80 ∧ d = 0x80 := by omega
    exact ⟨0xE3, 0x80, 0x80, by simp [whiteSpace], h'.1, h'.2.1, h'.2.2⟩

theorem four_byte_space (n c d e : Nat) (hn : 0xF0 ≤ n) (hn' : n < 0xF5) (hc : 0x80 ≤ c)
    (hc' : c ≤ 0xBF) (hF0 : n = 0xF0 → 0x90 ≤ c) :
    IsSpace ((n % 8) * 262144 + (c % 64) * 4096 + (d % 64) * 64 + e % 64) = false := by
  have e1 : n % 8 = n - 0xF0 := by omega
  have e2 : c % 64 = c - 0x80 := by omega
  have hbig : 0x3000 < (n % 8) * 262144 + (c % 64) * 4096 + (d % 64) * 64 + e % 64 := by
    rw [e1, e2]
    omega
  cases hs : IsSpace ((n % 8) * 262144 + (c % 64) * 4096 + (d % 64) * 64 + e % 64) with
  | false => rfl
  | true =>
    rw [IsSpace_iff] at hs
    omega

theorem two_byte_space (n c : Nat) (hn : 0xC2 ≤ n) (hn' : n < 0xE0) (hc : 0x80 ≤ c)
    (hc' : c ≤ 0xBF) (h : IsSpace ((n % 32) * 64 + c % 64) = true) :
    ∃ x y : Byte, [x, y] ∈ whiteSpace ∧ n = x.toNat ∧ c = y.toNat := by
  have e1 : n % 32 = n - 0xC0 := by omega
  have e2 : c % 64 = c - 0x80 := by omega
  rw [e1, e2, IsSpace_iff] at h
  rcases h with h | h | h | h | h | h | h | h | h | h | h | h | h | h | h
  · omega
  · omega
  · omega
  · omega
  · omega
  · omega
  · have h' : n = 0xC2 ∧ c = 0x85 := by omega
    exact ⟨0xC2, 0x85, by simp [whiteSpace], h'.1, h'.2⟩
  · have h' : n = 0xC2 ∧ c = 0xA0 := by omega
    exact ⟨0xC2, 0xA0, by simp [whiteSpace], h'.1, h'.2⟩
  · omega
  · omega
  · omega
  · omega
  · omega
  · omega
  · omega

theorem one_byte_space (n : Nat) (hn : n < 0x80) (h : IsSpace n = true) :
    ∃ x : Byte, [x] ∈ whiteSpace ∧ n = x.toNat := by
  rw [IsSpace_iff] at h
  rcases h with h | h | h | h | h | h | h | h | h | h | h | h | h | h | h
  · exact ⟨9, by simp [whiteSpace], h⟩
  · exact ⟨10, by simp [whiteSpace], h⟩
  · exact ⟨11, by simp [whiteSpace], h⟩
  · exact ⟨12, by simp [whiteSpace], h⟩
  · exact ⟨13, by simp [whiteSpace], h⟩
  · exact ⟨32, by simp [whiteSpace], h⟩
  · omega
  · omega
  · omega
  · omega
  · omega
  · omega
  · omega
  · omega
  · omega


theorem secondByteBounds_range (n : Nat) :
    0x80 ≤ (secondByteBounds n).1 ∧ (secondByteBounds n).2 ≤ 0xBF := by
  unfold secondByteBounds
  split_ifs <;> exact ⟨by decide, by decide⟩

theorem secondByteBounds_three (n : Nat) (h1 : 0xE0 ≤ n) (h2 : n < 0xF0) :
    (n = 0xE0 ∧ secondByteBounds n = (0xA0, 0xBF))
    ∨ (n = 0xED ∧ secondByteBounds n = (0x80, 0x9F))
    ∨ (n ≠ 0xE0 ∧ n ≠ 0xED ∧ secondByteBounds n = (0x80, 0xBF)) := by
  by_cases e1 : n = 0xE0
  · subst e1
    exact Or.inl ⟨rfl, rfl⟩
  by_cases e2 : n = 0xED
  · subst e2
    exact Or.inr (Or.inl ⟨rfl, rfl⟩)
  · refine Or.inr (Or.inr ⟨e1, e2, ?_⟩)
    rw [secondByteBounds, if_neg e1, if_neg e2, if_neg (by omega), if_neg (by omega)]

theorem secondByteBounds_four (n : Nat) (h1 : 0xF0 ≤ n) (h2 : n < 0xF5) :
    (n = 0xF0 ∧ secondByteBounds n = (0x90, 0xBF))
    ∨ (n = 0xF4 ∧ secondByteBounds n = (0x80, 0x8F))
    ∨ (n ≠ 0xF0 ∧ n ≠ 0xF4 ∧ secondByteBounds n = (0x80, 0xBF)) := by
  by_cases e1 : n = 0xF0
  · subst e1
    exact Or.inl ⟨rfl, rfl⟩
  by_cases e2 : n = 0xF4
  · subst e2
    exact Or.inr (Or.inl ⟨rfl, rfl⟩)
  · refine Or.inr (Or.inr ⟨e1, e2, ?_⟩)
    rw [secondByteBounds, if_neg (by omega), if_neg (by omega), if_neg e1, if_neg e2]

theorem IsSpace_RuneError : IsSpace RuneError = false := by decide

/-- A first rune that is a space is the rune of a white-space sequence at the start. -/
theorem decodeFirst_space_start (b : Byte) (rest : Bytes)
    (h : IsSpace (decodeFirst b rest).1 = true) :
    ∃ w ∈ whiteSpace, w <+: b :: rest := by
  have hE := IsSpace_RuneError
  unfold decodeFirst at h
  simp only at h
  by_cases c1 : b.toNat < 0x80
  · rw [if_pos c1] at h
    obtain ⟨x, hw, e⟩ := one_byte_space _ c1 h
    rw [byte_ext _ _ e]
    exact ⟨_, hw, rest, rfl⟩
  rw [if_neg c1] at h
  by_cases c2 : b.toNat < 0xC2
  · rw [if_pos c2, hE] at h
    cases h
  rw [if_neg c2] at h
  by_cases c3 : b.toNat < 0xE0
  · rw [if_pos c3] at h
    cases rest with
    | nil =>
      rw [hE] at h
      cases h
    | cons c r =>
      simp only at h
      by_cases hc : 0x80 ≤ c.toNat ∧ c.toNat ≤ 0xBF
      · rw [if_pos hc] at h
        obtain ⟨x, y, hw, e1, e2⟩ := two_byte_space _ _ (by omega) c3 hc.1 hc.2 h
        rw [byte_ext _ _ e1, byte_ext _ _ e2]
        exact ⟨_, hw, r, rfl⟩
      · rw [if_neg hc, hE] at h
        cases h
  rw [if_neg c3] at h
  by_cases c4 : b.toNat < 0xF0
  · rw [if_pos c4] at h
    rcases rest with _ | ⟨c, _ | ⟨d, r⟩⟩
    · rw [hE] at h
      cases h
    · rw [hE] at h
      cases h
    · simp only at h
      by_cases hc : (secondByteBounds b.toNat).1 ≤ c.toNat
          ∧ c.toNat ≤ (secondByteBounds b.toNat).2 ∧ 0x80 ≤ d.toNat ∧ d.toNat ≤ 0xBF
      · rw [if_pos hc] at h
        have hbd : 0x80 ≤ c.toNat ∧ c.toNat ≤ 0xBF
            ∧ (b.toNat = 0xE0 → 0xA0 ≤ c.toNat) := by
          rcases secondByteBounds_three b.toNat (by omega) c4 with ⟨e, hb⟩ | ⟨e, hb⟩
            | ⟨e1, e2, hb⟩ <;> rw [hb] at hc <;> simp only at hc <;> omega
        obtain ⟨x, y, z, hw, e1, e2, e3⟩ := three_byte_space _ _ _ (by omega) c4 hbd.1
          hbd.2.1 hbd.2.2 hc.2.2.1 hc.2.2.2 h
        rw [byte_ext _ _ e1, byte_ext _ _ e2, byte_ext _ _ e3]
        exact ⟨_, hw, r, rfl⟩
      · rw [if_neg hc, hE] at h
        cases h
  rw [if_neg c4] at h
  by_cases c5 : b.toNat < 0xF5
  · rw [if_pos c5] at h
    rcases rest with _ | ⟨c, _ | ⟨d, _ | ⟨e, r⟩⟩⟩
    · rw [hE] at h
      cases h
    · rw [hE] at h
      cases h
    · rw [hE] at h
      cases h
    · simp only at h
      by_cases hc : (secondByteBounds b.toNat).1 ≤ c.toNat
          ∧ c.toNat ≤ (secondByteBounds b.toNat).2 ∧ 0x80 ≤ d.toNat ∧ d.toNat ≤ 0xBF
          ∧ 0x80 ≤ e.toNat ∧ e.toNat ≤ 0xBF
      · rw [if_pos hc] at h
        have hbd : 0x80 ≤ c.toNat ∧ c.toNat ≤ 0xBF
            ∧ (b.toNat = 0xF0 → 0x90 ≤ c.toNat) := by
          rcases secondByteBounds_four b.toNat (by omega) c5 with ⟨e, hb⟩ | ⟨e, hb⟩
            | ⟨e1, e2, hb⟩ <;> rw [hb] at hc <;> simp only at hc <;> omega
        rw [four_byte_space _ _ _ _ (by omega) c5 hbd.1 hbd.2.1 hbd.2.2] at h
        cases h
      · rw [if_neg hc, hE] at h
        cases h
  · rw [if_neg c5, hE] at h
    cases h

theorem whiteSpace_ne_nil (w : Bytes) (hw : w ∈ whiteSpace) : w ≠ [] := by
  rw [whiteSpace_mem_iff] at hw
  rcases hw with h | h | h | h | h | h | h | h | h | h | h | h | h | h | h | h | h | h | h | h
    | h | h | h | h | h <;> subst h <;> exact List.cons_ne_nil _ _

/-- The first rune of `b :: rest` is a space exactly when a white-space sequence starts
`b :: rest`, and its width is then the length of that sequence. -/
theorem decodeFirst_space_iff (b : Byte) (rest : Bytes) :
    (IsSpace (decodeFirst b rest).1 = true ↔ ∃ w ∈ whiteSpace, w <+: b :: rest)
    ∧ ∀ w ∈ whiteSpace, w <+: b :: rest → (decodeFirst b rest).2 = w.length := by
  have hpre : ∀ w ∈ whiteSpace, w <+: b :: rest →
      IsSpace (decodeFirst b rest).1 = true ∧ (decodeFirst b rest).2 = w.length := by
    intro w hw hp
    obtain ⟨s, hs⟩ := hp
    obtain ⟨b', rest', he, h1, h2⟩ := decodeFirst_whiteSpace w hw s
    rw [hs] at he
    cases he
    exact ⟨h1, h2⟩
  refine ⟨⟨decodeFirst_space_start b rest, ?_⟩, fun w hw hp => (hpre w hw hp).2⟩
  rintro ⟨w, hw, hp⟩
  exact (hpre w hw hp).1

/-- The rune that the loop of `indexFunc` looks at. -/
theorem rune_at (b : Byte) (rest : Bytes) :
    (if b.toNat ≥ RuneSelf then DecodeRune (b :: rest) else (b.toNat, 1))
      = decodeFirst b rest := by
  by_cases h : b.toNat ≥ RuneSelf
  · rw [if_pos h, DecodeRune_eq_decodeFirst]
  · rw [if_neg h]
    have h' : b.toNat < 0x80 := by
      simp only [RuneSelf] at h
      omega
    unfold decodeFirst
    simp only
    rw [if_pos h']

theorem indexFuncLoop_nil (f : Nat → Bool) (truth : Bool) (k start : Nat) :
    indexFuncLoop f truth k start [] = none := by
  cases k <;> rfl

theorem indexFuncLoop_skip (f : Nat → Bool) (truth : Bool) :
    ∀ (k start : Nat) (s : Bytes),
      indexFuncLoop f truth k start s = indexFuncLoop f truth 0 (start + k) (s.drop k) := by
  intro k
  induction k with
  | zero =>
    intro start s
    simp
  | succ k ih =>
    intro start s
    cases s with
    | nil => simp [indexFuncLoop_nil]
    | cons b rest =>
      have h1 : indexFuncLoop f truth (k + 1) start (b :: rest)
          = indexFuncLoop f truth k (start + 1) rest := rfl
      rw [h1, ih, List.drop_succ_cons]
      congr 1
      omega

theorem whiteSpace_not_start_nil (w : Bytes) (hw : w ∈ whiteSpace) : ¬ w <+: [] := by
  intro h
  exact whiteSpace_ne_nil w hw (List.prefix_nil.1 h)

/-- The loop of `indexFunc` for the first rune that is not a space: what it passes over is
white-space sequences, and no white-space sequence starts what is left. -/
theorem indexFuncLoop_space (n : Nat) :
    ∀ (s : Bytes) (start : Nat), s.length ≤ n →
      ∃ ws : List Bytes, (∀ w ∈ ws, w ∈ whiteSpace)
        ∧ ((indexFuncLoop IsSpace false 0 start s = none ∧ s = ws.flatten)
          ∨ (∃ t, indexFuncLoop IsSpace false 0 start s = some (start + ws.flatten.length)
              ∧ s = ws.flatten ++ t ∧ t ≠ [] ∧ ∀ w ∈ whiteSpace, ¬ w <+: t)) := by
  induction n with
  | zero =>
    intro s start hs
    have : s = [] := List.length_eq_zero.1 (by omega)
    subst this
    exact ⟨[], fun w hw => absurd hw (List.not_mem_nil w), Or.inl ⟨rfl, rfl⟩⟩
  | succ n ih =>
    intro s start hs
    cases s with
    | nil => exact ⟨[], fun w hw => absurd hw (List.not_mem_nil w), Or.inl ⟨rfl, rfl⟩⟩
    | cons b rest =>
      obtain ⟨hiff, hwid⟩ := decodeFirst_space_iff b rest
      have hloop : indexFuncLoop IsSpace false 0 start (b :: rest)
          = if IsSpace (decodeFirst b rest).1 == false then some start
            else indexFuncLoop IsSpace false ((decodeFirst b rest).2 - 1) (start + 1) rest := by
        simp only [indexFuncLoop, rune_at]
      by_cases hsp : IsSpace (decodeFirst b rest).1 = true
      · obtain ⟨w, hw, hp⟩ := hiff.1 hsp
        have hlen := hwid w hw hp
        obtain ⟨s', hs'⟩ := hp
        have hne := whiteSpace_ne_nil w hw
        have hpos : 1 ≤ w.length := by
          cases w with
          | nil => exact absurd rfl hne
          | cons _ _ => simp
        have hdrop : rest.drop (w.length - 1) = s' := by
          have h1 : (b :: rest).drop w.length = s' := by
            rw [← hs', List.drop_left]
          have h2 : w.length = (w.length - 1) + 1 := by omega
          rw [h2, List.drop_succ_cons] at h1
          exact h1
        have hlen' : s'.length ≤ n := by
          have : (w ++ s').length = (b :: rest).length := by rw [hs']
          simp only [List.length_append, List.length_cons] at this hs
          omega
        obtain ⟨ws, hws, hres⟩ := ih s' (start + w.length) hlen'
        have hcont : indexFuncLoop IsSpace false 0 start (b :: rest)
            = indexFuncLoop IsSpace false 0 (start + w.length) s' := by
          rw [hloop, hsp, indexFuncLoop_skip, hlen, hdrop]
          have : start + 1 + (w.length - 1) = start + w.length := by omega
          rw [this]
          rfl
        refine ⟨w :: ws, ?_, ?_⟩
        · intro x hx
          rcases List.mem_cons.1 hx with rfl | hx
          · exact hw
          · exact hws x hx
        · rcases hres with ⟨hnone, hflat⟩ | ⟨t, hsome, hflat, hne', hnp⟩
          · left
            refine ⟨by rw [hcont, hnone], ?_⟩
            rw [List.flatten_cons, ← hflat, hs']
          · right
            refine ⟨t, ?_, ?_, hne', hnp⟩
            · rw [hcont, hsome, List.flatten_cons, List.length_append, Nat.add_assoc]
            · rw [List.flatten_cons, List.append_assoc, ← hflat, hs']
      · have hsp' : IsSpace (decodeFirst b rest).1 = false := by
          cases h : IsSpace (decodeFirst b rest).1 with
          | false => rfl
          | true => exact absurd h hsp
        refine ⟨[], fun w hw => absurd hw (List.not_mem_nil w), Or.inr ⟨b :: rest, ?_, rfl,
          List.cons_ne_nil _ _, ?_⟩⟩
        · rw [hloop, hsp']
          rfl
        · intro w hw hp
          exact hsp (hiff.2 ⟨w, hw, hp⟩)

/-- The function `TrimLeftFunc` with `unicode.IsSpace`: what it takes off is white-space
sequences, and no white-space sequence starts what is left. -/
theorem TrimLeftFunc_space (s : Bytes) :
    ∃ ws : List Bytes, (∀ w ∈ ws, w ∈ whiteSpace)
      ∧ s = ws.flatten ++ TrimLeftFunc s IsSpace
      ∧ ∀ w ∈ whiteSpace, ¬ w <+: TrimLeftFunc s IsSpace := by
  obtain ⟨ws, hws, hres⟩ := indexFuncLoop_space s.length s 0 (Nat.le_refl _)
  refine ⟨ws, hws, ?_⟩
  unfold TrimLeftFunc indexFunc
  rcases hres with ⟨hnone, hflat⟩ | ⟨t, hsome, hflat, _, hnp⟩
  · rw [hnone]
    exact ⟨by simpa using hflat, whiteSpace_not_start_nil⟩
  · rw [hsome]
    have hdrop : s.drop (0 + ws.flatten.length) = t := by
      rw [Nat.zero_add]
      conv_lhs => rw [hflat]
      exact List.drop_left _ _
    simp only [hdrop]
    exact ⟨hflat, hnp⟩


theorem lastRuneStart_le (p : Bytes) (lim : Nat) :
    ∀ n, lastRuneStart p lim n ≤ lim + n - 1 := by
  intro n
  induction n with
  | zero => simp [lastRuneStart]
  | succ n ih =>
    unfold lastRuneStart
    split_ifs
    · omega
    · omega

theorem lastRuneStart_eq (p : Bytes) (lim j : Nat) (hs : RuneStart (p.getD j 0) = true) :
    ∀ n, lim ≤ j → j < lim + n →
      (∀ i, j < i → i < lim + n → RuneStart (p.getD i 0) = false) →
      lastRuneStart p lim n = j := by
  intro n
  induction n with
  | zero =>
    intro h1 h2 _
    omega
  | succ n ih =>
    intro h1 h2 hns
    unfold lastRuneStart
    by_cases hj : j = lim + n
    · subst hj
      rw [if_pos hs]
    · have hlt : j < lim + n := by omega
      rw [if_neg (by rw [hns (lim + n) hlt (by omega)]; simp)]
      exact ih h1 hlt (fun i hi hi' => hns i hi (by omega))

theorem getD_last (q : Bytes) (z : Byte) :
    (q ++ [z]).getD ((q ++ [z]).length - 1) 0 = z := by
  simp [List.getD_eq_getElem?_getD]

theorem DecodeLastRune_ascii (q : Bytes) (z : Byte) (hz : z.toNat < RuneSelf) :
    DecodeLastRune (q ++ [z]) = (z.toNat, 1) := by
  unfold DecodeLastRune
  rw [if_neg (by simp)]
  simp only [getD_last]
  rw [if_pos hz]

theorem DecodeLastRune_nonascii (q : Bytes) (z : Byte) (hz : ¬ z.toNat < RuneSelf) :
    DecodeLastRune (q ++ [z])
      = if lastRuneStart (q ++ [z]) ((q ++ [z]).length - UTFMax)
              ((q ++ [z]).length - 1 - ((q ++ [z]).length - UTFMax))
            + (DecodeRune ((q ++ [z]).drop (lastRuneStart (q ++ [z])
                ((q ++ [z]).length - UTFMax)
                ((q ++ [z]).length - 1 - ((q ++ [z]).length - UTFMax))))).2
            ≠ (q ++ [z]).length
        then (RuneError, 1)
        else DecodeRune ((q ++ [z]).drop (lastRuneStart (q ++ [z])
                ((q ++ [z]).length - UTFMax)
                ((q ++ [z]).length - 1 - ((q ++ [z]).length - UTFMax)))) := by
  unfold DecodeLastRune
  rw [if_neg (by simp)]
  simp only [getD_last]
  rw [if_neg hz]

theorem lastRuneStart_lt_length (p : Bytes) (hp : p ≠ []) :
    lastRuneStart p (p.length - UTFMax) (p.length - 1 - (p.length - UTFMax)) < p.length := by
  have h := lastRuneStart_le p (p.length - UTFMax) (p.length - 1 - (p.length - UTFMax))
  have hpos : 0 < p.length := List.length_pos.2 hp
  simp only [UTFMax] at h ⊢
  omega


theorem DecodeRune_nil : DecodeRune [] = (RuneError, 0) := rfl

/-- A last rune that is a space is the rune of a white-space sequence at the end, and its
width is the length of that sequence. -/
theorem DecodeLastRune_space (p : Bytes) (h : IsSpace (DecodeLastRune p).1 = true) :
    ∃ w ∈ whiteSpace, w <:+ p ∧ (DecodeLastRune p).2 = w.length := by
  rcases List.eq_nil_or_concat p with rfl | ⟨q, z, rfl⟩
  · have : DecodeLastRune [] = (RuneError, 0) := rfl
    rw [this, IsSpace_RuneError] at h
    cases h
  rw [List.concat_eq_append] at h ⊢
  by_cases hz : z.toNat < RuneSelf
  · rw [DecodeLastRune_ascii q z hz] at h ⊢
    obtain ⟨x, hw, e⟩ := one_byte_space _ hz h
    rw [byte_ext _ _ e]
    exact ⟨_, hw, ⟨q, rfl⟩, rfl⟩
  · rw [DecodeLastRune_nonascii q z hz] at h ⊢
    have hlt := lastRuneStart_lt_length (q ++ [z]) (by simp)
    generalize lastRuneStart (q ++ [z]) ((q ++ [z]).length - UTFMax)
      ((q ++ [z]).length - 1 - ((q ++ [z]).length - UTFMax)) = start at h hlt ⊢
    by_cases hm : start + (DecodeRune ((q ++ [z]).drop start)).2 ≠ (q ++ [z]).length
    · rw [if_pos hm, IsSpace_RuneError] at h
      cases h
    · rw [if_neg hm] at h ⊢
      have hm' : start + (DecodeRune ((q ++ [z]).drop start)).2 = (q ++ [z]).length := by
        omega
      cases hx : (q ++ [z]).drop start with
      | nil =>
        rw [hx, DecodeRune_nil, IsSpace_RuneError] at h
        cases h
      | cons b rest =>
        rw [hx] at h hm'
        rw [DecodeRune_eq_decodeFirst] at h hm' ⊢
        obtain ⟨hiff, hwid⟩ := decodeFirst_space_iff b rest
        obtain ⟨w, hw, hp⟩ := hiff.1 h
        have hlen := hwid w hw hp
        have hxlen : (b :: rest).length = (q ++ [z]).length - start := by
          rw [← hx, List.length_drop]
        have heq : w = b :: rest := by
          apply hp.eq_of_length
          rw [hxlen, ← hlen]
          omega
        refine ⟨w, hw, ?_, hlen⟩
        rw [heq, ← hx]
        exact List.drop_suffix _ _

theorem getD_append_left_lt (q r : Bytes) (i : Nat) (h : i < q.length) :
    (q ++ r).getD i 0 = q.getD i 0 := by
  simp [List.getD_eq_getElem?_getD, List.getElem?_append_left h]

theorem getD_append_right_add (q r : Bytes) (i : Nat) :
    (q ++ r).getD (q.length + i) 0 = r.getD i 0 := by
  simp [List.getD_eq_getElem?_getD, List.getElem?_append_right]

/-- The last rune of a sequence that ends with a two-byte sequence. -/
theorem DecodeLastRune_two (q : Bytes) (u v : Byte) (hu : RuneStart u = true)
    (hv : ¬ v.toNat < RuneSelf) :
    DecodeLastRune (q ++ [u, v])
      = if (DecodeRune [u, v]).2 ≠ 2 then (RuneError, 1) else DecodeRune [u, v] := by
  have hp : q ++ [u, v] = (q ++ [u]) ++ [v] := by simp
  rw [hp, DecodeLastRune_nonascii _ v hv, ← hp]
  have hstart : lastRuneStart (q ++ [u, v]) ((q ++ [u, v]).length - UTFMax)
      ((q ++ [u, v]).length - 1 - ((q ++ [u, v]).length - UTFMax)) = q.length := by
    apply lastRuneStart_eq
    · have := getD_append_right_add q [u, v] 0
      rw [Nat.add_zero] at this
      rw [this]
      exact hu
    · simp only [List.length_append, List.length_cons, List.length_nil, UTFMax]
      omega
    · simp only [List.length_append, List.length_cons, List.length_nil, UTFMax]
      omega
    · intro i h1 h2
      simp only [List.length_append, List.length_cons, List.length_nil, UTFMax] at h2
      omega
  rw [hstart, List.drop_left]
  simp only [List.length_append, List.length_cons, List.length_nil]
  by_cases h2 : (DecodeRune [u, v]).2 = 2
  · rw [if_neg (by omega), if_neg (by omega)]
  · rw [if_pos (by omega), if_pos (by omega)]

/-- The last rune of a sequence that ends with a three-byte sequence. -/
theorem DecodeLastRune_three (q : Bytes) (u v x : Byte) (hu : RuneStart u = true)
    (hv : RuneStart v = false) (hx : ¬ x.toNat < RuneSelf) :
    DecodeLastRune (q ++ [u, v, x])
      = if (DecodeRune [u, v, x]).2 ≠ 3 then (RuneError, 1) else DecodeRune [u, v, x] := by
  have hp : q ++ [u, v, x] = (q ++ [u, v]) ++ [x] := by simp
  rw [hp, DecodeLastRune_nonascii _ x hx, ← hp]
  have hstart : lastRuneStart (q ++ [u, v, x]) ((q ++ [u, v, x]).length - UTFMax)
      ((q ++ [u, v, x]).length - 1 - ((q ++ [u, v, x]).length - UTFMax)) = q.length := by
    apply lastRuneStart_eq
    · have := getD_append_right_add q [u, v, x] 0
      rw [Nat.add_zero] at this
      rw [this]
      exact hu
    · simp only [List.length_append, List.length_cons, List.length_nil, UTFMax]
      omega
    · simp only [List.length_append, List.length_cons, List.length_nil, UTFMax]
      omega
    · intro i h1 h2
      simp only [List.length_append, List.length_cons, List.length_nil, UTFMax] at h2
      have hi : i = q.length + 1 := by omega
      rw [hi, getD_append_right_add]
      exact hv
  rw [hstart, List.drop_left]
  simp only [List.length_append, List.length_cons, List.length_nil]
  by_cases h2 : (DecodeRune [u, v, x]).2 = 3
  · rw [if_neg (by omega), if_neg (by omega)]
  · rw [if_pos (by omega), if_pos (by omega)]

/-- The last rune of a sequence that ends with a white-space sequence is a space of the
width of that sequence. -/
theorem DecodeLastRune_whiteSpace (w : Bytes) (hw : w ∈ whiteSpace) (q : Bytes) :
    IsSpace (DecodeLastRune (q ++ w)).1 = true ∧ (DecodeLastRune (q ++ w)).2 = w.length := by
  rw [whiteSpace_mem_iff] at hw
  rcases hw with h | h | h | h | h | h | h | h | h | h | h | h | h | h | h | h | h | h | h | h
    | h | h | h | h | h <;> subst h
  · rw [DecodeLastRune_ascii q 9 (by decide)]; exact ⟨rfl, rfl⟩
  · rw [DecodeLastRune_ascii q 10 (by decide)]; exact ⟨rfl, rfl⟩
  · rw [DecodeLastRune_ascii q 11 (by decide)]; exact ⟨rfl, rfl⟩
  · rw [DecodeLastRune_ascii q 12 (by decide)]; exact ⟨rfl, rfl⟩
  · rw [DecodeLastRune_ascii q 13 (by decide)]; exact ⟨rfl, rfl⟩
  · rw [DecodeLastRune_ascii q 32 (by decide)]; exact ⟨rfl, rfl⟩
  · rw [DecodeLastRune_two q _ _ (by decide) (by decide), DecodeRune_eq_decodeFirst]
    exact ⟨rfl, rfl⟩
  · rw [DecodeLastRune_two q _ _ (by decide) (by decide), DecodeRune_eq_decodeFirst]
    exact ⟨rfl, rfl⟩
  all_goals
    rw [DecodeLastRune_three q _ _ _ (by decide) (by decide) (by decide),
      DecodeRune_eq_decodeFirst]
    exact ⟨rfl, rfl⟩


/-- The width of the first rune does not change when bytes are added behind a sequence
that the rune spans, as long as the first of them is not a continuation byte. -/
theorem decodeFirst_append (b : Byte) (rest y : Bytes)
    (hy : ∀ c, y.head? = some c → c.toNat < 0x80 ∨ 0xBF < c.toNat)
    (h : (decodeFirst b rest).2 = rest.length + 1) :
    (decodeFirst b (rest ++ y)).2 = rest.length + 1 := by
  have hb := secondByteBounds_range b.toNat
  unfold decodeFirst at h ⊢
  simp only at h ⊢
  by_cases c1 : b.toNat < 0x80
  · rw [if_pos c1] at h ⊢
    exact h
  rw [if_neg c1] at h ⊢
  by_cases c2 : b.toNat < 0xC2
  · rw [if_pos c2] at h ⊢
    exact h
  rw [if_neg c2] at h ⊢
  by_cases c3 : b.toNat < 0xE0
  · rw [if_pos c3] at h ⊢
    cases rest with
    | nil =>
      cases y with
      | nil => rfl
      | cons c r =>
        have := hy c rfl
        simp only [List.nil_append, List.length_nil]
        rw [if_neg (by omega)]
    | cons c r => exact h
  rw [if_neg c3] at h ⊢
  by_cases c4 : b.toNat < 0xF0
  · rw [if_pos c4] at h ⊢
    rcases rest with _ | ⟨c, _ | ⟨d, r⟩⟩
    · rcases y with _ | ⟨c, _ | ⟨d, r⟩⟩
      · rfl
      · rfl
      · have := hy c rfl
        simp only [List.nil_append, List.length_nil]
        rw [if_neg (by omega)]
    · simp at h
    · exact h
  rw [if_neg c4] at h ⊢
  by_cases c5 : b.toNat < 0xF5
  · rw [if_pos c5] at h ⊢
    rcases rest with _ | ⟨c, _ | ⟨d, _ | ⟨e, r⟩⟩⟩
    · rcases y with _ | ⟨c, _ | ⟨d, _ | ⟨e, r⟩⟩⟩
      · rfl
      · rfl
      · rfl
      · have := hy c rfl
        simp only [List.nil_append, List.length_nil]
        rw [if_neg (by omega)]
    · simp at h
    · simp at h
    · exact h
  · rw [if_neg c5] at h ⊢
    exact h

theorem decodeFirst_nil (b : Byte) : (decodeFirst b []).2 = 1 := by
  unfold decodeFirst
  simp only
  split_ifs <;> rfl

theorem decodeFirst_width_pos (b : Byte) (rest : Bytes) : 1 ≤ (decodeFirst b rest).2 := by
  unfold decodeFirst
  simp only
  split_ifs
  · exact Nat.le_refl _
  · exact Nat.le_refl _
  · cases rest with
    | nil => exact Nat.le_refl _
    | cons c r =>
      simp only
      split_ifs <;> simp
  · rcases rest with _ | ⟨c, _ | ⟨d, r⟩⟩
    · exact Nat.le_refl _
    · exact Nat.le_refl _
    · simp only
      split_ifs <;> simp
  · rcases rest with _ | ⟨c, _ | ⟨d, _ | ⟨e, r⟩⟩⟩
    · exact Nat.le_refl _
    · exact Nat.le_refl _
    · exact Nat.le_refl _
    · simp only
      split_ifs <;> simp
  · exact Nat.le_refl _

theorem decodeFirst_ascii (b : Byte) (rest : Bytes) (hb : b.toNat < 0x80) :
    decodeFirst b rest = (b.toNat, 1) := by
  unfold decodeFirst
  simp only
  rw [if_pos hb]

/-- The first byte of a run of white-space sequences is not a continuation byte. -/
theorem whiteSpace_flatten_head (ws : List Bytes) (hws : ∀ w ∈ ws, w ∈ whiteSpace) :
    ∀ c, ws.flatten.head? = some c → c.toNat < 0x80 ∨ 0xBF < c.toNat := by
  cases ws with
  | nil =>
    intro c hc
    simp at hc
  | cons w rest =>
    intro c hc
    have hw := hws w (List.mem_cons_self _ _)
    rw [whiteSpace_mem_iff] at hw
    rcases hw with h | h | h | h | h | h | h | h | h | h | h | h | h | h | h | h | h | h | h
      | h | h | h | h | h | h <;> subst h <;>
      simp only [List.flatten_cons, List.cons_append, List.head?_cons, Option.some.injEq]
        at hc <;> subst hc <;> decide


theorem take_length_append (q y : Bytes) (n : Nat) (h : n = q.length) :
    (q ++ y).take n = q := by
  subst h
  exact List.take_left _ _

/-- Where the backward loop stops at a rune that is not a space, `TrimRightFunc` cuts
behind that rune: the forward decoding at its start has the width the backward decoding
found, because what follows begins no continuation byte. -/
theorem DecodeLastRune_stop (q : Bytes) (hq : q ≠ []) (y : Bytes)
    (hy : ∀ c, y.head? = some c → c.toNat < 0x80 ∨ 0xBF < c.toNat) :
    (if ((q ++ y).getD (q.length - (DecodeLastRune q).2) 0).toNat ≥ RuneSelf then
        (q ++ y).take (q.length - (DecodeLastRune q).2
          + (DecodeRune ((q ++ y).drop (q.length - (DecodeLastRune q).2))).2)
      else (q ++ y).take (q.length - (DecodeLastRune q).2 + 1)) = q := by
  rcases List.eq_nil_or_concat q with rfl | ⟨q', z, rfl⟩
  · exact absurd rfl hq
  rw [List.concat_eq_append]
  have hlen : (q' ++ [z]).length = q'.length + 1 := by simp
  have hget : ((q' ++ [z]) ++ y).getD q'.length 0 = z := by
    have := getD_append_right_add q' ([z] ++ y) 0
    rw [Nat.add_zero] at this
    rw [List.append_assoc, this]
    rfl
  have hdrop : ((q' ++ [z]) ++ y).drop q'.length = z :: y := by
    rw [List.append_assoc, List.drop_left]
    rfl
  have hone : (if (((q' ++ [z]) ++ y).getD ((q' ++ [z]).length - 1) 0).toNat ≥ RuneSelf then
        ((q' ++ [z]) ++ y).take ((q' ++ [z]).length - 1
          + (DecodeRune (((q' ++ [z]) ++ y).drop ((q' ++ [z]).length - 1))).2)
      else ((q' ++ [z]) ++ y).take ((q' ++ [z]).length - 1 + 1)) = q' ++ [z] := by
    have h1 : (q' ++ [z]).length - 1 = q'.length := by omega
    rw [h1, hget, hdrop, DecodeRune_eq_decodeFirst]
    have hw : (decodeFirst z y).2 = 1 := decodeFirst_append z [] y hy (decodeFirst_nil z)
    rw [hw]
    split_ifs <;> exact take_length_append _ _ _ hlen.symm
  by_cases hz : z.toNat < RuneSelf
  · rw [DecodeLastRune_ascii q' z hz]
    exact hone
  · rw [DecodeLastRune_nonascii q' z hz]
    have hlt := lastRuneStart_lt_length (q' ++ [z]) (by simp)
    generalize lastRuneStart (q' ++ [z]) ((q' ++ [z]).length - UTFMax)
      ((q' ++ [z]).length - 1 - ((q' ++ [z]).length - UTFMax)) = start at hlt ⊢
    by_cases hm : start + (DecodeRune ((q' ++ [z]).drop start)).2 ≠ (q' ++ [z]).length
    · rw [if_pos hm]
      exact hone
    · rw [if_neg hm]
      have hm' : start + (DecodeRune ((q' ++ [z]).drop start)).2 = (q' ++ [z]).length := by
        omega
      have hsplit := List.take_append_drop start (q' ++ [z])
      have hprelen : ((q' ++ [z]).take start).length = start := by
        rw [List.length_take]
        omega
      generalize (q' ++ [z]).take start = pre at hsplit hprelen
      cases hx : (q' ++ [z]).drop start with
      | nil =>
        rw [hx, List.append_nil] at hsplit
        rw [← hsplit] at hlt
        omega
      | cons b rest =>
        rw [hx] at hsplit hm'
        rw [DecodeRune_eq_decodeFirst] at hm' ⊢
        have hk : (decodeFirst b rest).2 = rest.length + 1 := by
          rw [← hsplit] at hm'
          simp only [List.length_append, List.length_cons] at hm'
          omega
        have hidx : (q' ++ [z]).length - (decodeFirst b rest).2 = start := by omega
        rw [hidx, ← hsplit]
        have hget' : ((pre ++ b :: rest) ++ y).getD start 0 = b := by
          have := getD_append_right_add pre (b :: rest ++ y) 0
          rw [Nat.add_zero, hprelen] at this
          rw [List.append_assoc, this]
          rfl
        have hdrop' : ((pre ++ b :: rest) ++ y).drop start = b :: (rest ++ y) := by
          rw [List.append_assoc, ← hprelen, List.drop_left]
          rfl
        rw [hget', hdrop', DecodeRune_eq_decodeFirst, decodeFirst_append b rest y hy hk]
        have hfull : (pre ++ b :: rest).length = start + (rest.length + 1) := by
          simp only [List.length_append, List.length_cons, hprelen]
        by_cases hb : b.toNat ≥ RuneSelf
        · rw [if_pos hb]
          exact take_length_append _ _ _ hfull.symm
        · rw [if_neg hb]
          have hb' : b.toNat < 0x80 := by
            simp only [RuneSelf] at hb
            omega
          rw [decodeFirst_ascii b rest hb'] at hk
          simp only at hk
          apply take_length_append
          rw [hfull]
          omega


/-- The rune that the loop of `lastIndexFunc` looks at. -/
theorem rune_at_last (b : Byte) (rest : Bytes) :
    (if b.toNat ≥ RuneSelf then DecodeLastRune (b :: rest).reverse else (b.toNat, 1))
      = DecodeLastRune (b :: rest).reverse := by
  by_cases h : b.toNat ≥ RuneSelf
  · rw [if_pos h]
  · rw [if_neg h, List.reverse_cons, DecodeLastRune_ascii _ _ (by omega)]

theorem lastIndexFuncLoop_nil (f : Nat → Bool) (truth : Bool) (k : Nat) :
    lastIndexFuncLoop f truth k [] = none := by
  cases k <;> rfl

theorem lastIndexFuncLoop_skip (f : Nat → Bool) (truth : Bool) :
    ∀ (k : Nat) (l : Bytes),
      lastIndexFuncLoop f truth k l = lastIndexFuncLoop f truth 0 (l.drop k) := by
  intro k
  induction k with
  | zero =>
    intro l
    simp
  | succ k ih =>
    intro l
    cases l with
    | nil => simp [lastIndexFuncLoop_nil]
    | cons b rest =>
      have h1 : lastIndexFuncLoop f truth (k + 1) (b :: rest)
          = lastIndexFuncLoop f truth k rest := rfl
      rw [h1, ih, List.drop_succ_cons]

theorem whiteSpace_not_end_nil (w : Bytes) (hw : w ∈ whiteSpace) : ¬ w <:+ [] := by
  intro h
  exact whiteSpace_ne_nil w hw (List.suffix_nil.1 h)

/-- The loop of `lastIndexFunc` for the last rune that is not a space, on `p` reversed:
what it passes over is white-space sequences, and it stops at the start of the last rune
of what is left. -/
theorem lastIndexFuncLoop_space (n : Nat) :
    ∀ (p : Bytes), p.length ≤ n →
      ∃ ws : List Bytes, (∀ w ∈ ws, w ∈ whiteSpace)
        ∧ ((lastIndexFuncLoop IsSpace false 0 p.reverse = none ∧ p = ws.flatten)
          ∨ (∃ q, q ≠ []
              ∧ lastIndexFuncLoop IsSpace false 0 p.reverse
                  = some (q.length - (DecodeLastRune q).2)
              ∧ p = q ++ ws.flatten
              ∧ IsSpace (DecodeLastRune q).1 = false)) := by
  induction n with
  | zero =>
    intro p hp
    have : p = [] := List.length_eq_zero.1 (by omega)
    subst this
    exact ⟨[], fun w hw => absurd hw (List.not_mem_nil w), Or.inl ⟨rfl, rfl⟩⟩
  | succ n ih =>
    intro p hp
    rcases List.eq_nil_or_concat p with rfl | ⟨p', z, rfl⟩
    · exact ⟨[], fun w hw => absurd hw (List.not_mem_nil w), Or.inl ⟨rfl, rfl⟩⟩
    rw [List.concat_eq_append] at hp ⊢
    have hrev : (p' ++ [z]).reverse = z :: p'.reverse := by simp
    have hback : (z :: p'.reverse).reverse = p' ++ [z] := by simp
    have hloop : lastIndexFuncLoop IsSpace false 0 (p' ++ [z]).reverse
        = if IsSpace (DecodeLastRune (p' ++ [z])).1 == false then
            some ((p' ++ [z]).length - (DecodeLastRune (p' ++ [z])).2)
          else lastIndexFuncLoop IsSpace false ((DecodeLastRune (p' ++ [z])).2 - 1)
            p'.reverse := by
      have hra := rune_at_last z p'.reverse
      rw [hback] at hra
      rw [hrev]
      simp only [lastIndexFuncLoop, hback, hra, List.length_cons,
        List.length_reverse, List.length_append, List.length_nil, Nat.zero_add]
    by_cases hsp : IsSpace (DecodeLastRune (p' ++ [z])).1 = true
    · obtain ⟨w, hw, hsuf, hlen⟩ := DecodeLastRune_space _ hsp
      obtain ⟨p₂, hp₂⟩ := hsuf
      have hne := whiteSpace_ne_nil w hw
      have hpos : 1 ≤ w.length := by
        cases w with
        | nil => exact absurd rfl hne
        | cons _ _ => simp
      have hdrop : p'.reverse.drop (w.length - 1) = p₂.reverse := by
        have h1 : (p' ++ [z]).reverse.drop w.length = p₂.reverse := by
          rw [← hp₂, List.reverse_append, ← List.length_reverse w, List.drop_left]
        have h2 : w.length = (w.length - 1) + 1 := by omega
        rw [hrev, h2, List.drop_succ_cons] at h1
        exact h1
      have hlen' : p₂.length ≤ n := by
        have : (p₂ ++ w).length = (p' ++ [z]).length := by rw [hp₂]
        simp only [List.length_append, List.length_cons, List.length_nil] at this hp
        omega
      obtain ⟨ws, hws, hres⟩ := ih p₂ hlen'
      have hcont : lastIndexFuncLoop IsSpace false 0 (p' ++ [z]).reverse
          = lastIndexFuncLoop IsSpace false 0 p₂.reverse := by
        rw [hloop, hsp, lastIndexFuncLoop_skip, hlen, hdrop]
        rfl
      refine ⟨ws ++ [w], ?_, ?_⟩
      · intro x hx
        rcases List.mem_append.1 hx with hx | hx
        · exact hws x hx
        · rw [List.mem_singleton.1 hx]
          exact hw
      · have hflat : (ws ++ [w]).flatten = ws.flatten ++ w := by simp
        rcases hres with ⟨hnone, hfl⟩ | ⟨q, hq, hsome, hfl, hns⟩
        · left
          refine ⟨by rw [hcont, hnone], ?_⟩
          rw [hflat, ← hfl, hp₂]
        · right
          refine ⟨q, hq, by rw [hcont, hsome], ?_, hns⟩
          rw [hflat, ← List.append_assoc, ← hfl, hp₂]
    · have hsp' : IsSpace (DecodeLastRune (p' ++ [z])).1 = false := by
        cases h : IsSpace (DecodeLastRune (p' ++ [z])).1 with
        | false => rfl
        | true => exact absurd h hsp
      refine ⟨[], fun w hw => absurd hw (List.not_mem_nil w), Or.inr ⟨p' ++ [z], by simp, ?_,
        by simp, hsp'⟩⟩
      rw [hloop, hsp']
      rfl

/-- The function `TrimRightFunc` with `unicode.IsSpace`: what it takes off is white-space
sequences, and no white-space sequence ends what is left. -/
theorem TrimRightFunc_space (s : Bytes) :
    ∃ ws : List Bytes, (∀ w ∈ ws, w ∈ whiteSpace)
      ∧ s = TrimRightFunc s IsSpace ++ ws.flatten
      ∧ ∀ w ∈ whiteSpace, ¬ w <:+ TrimRightFunc s IsSpace := by
  obtain ⟨ws, hws, hres⟩ := lastIndexFuncLoop_space s.length s (Nat.le_refl _)
  refine ⟨ws, hws, ?_⟩
  unfold TrimRightFunc lastIndexFunc
  rcases hres with ⟨hnone, hflat⟩ | ⟨q, hq, hsome, hflat, hns⟩
  · rw [hnone]
    simp only [List.take_zero, List.nil_append]
    exact ⟨hflat, whiteSpace_not_end_nil⟩
  · rw [hsome]
    simp only
    have hstop := DecodeLastRune_stop q hq ws.flatten (whiteSpace_flatten_head ws hws)
    rw [← hflat] at hstop
    rw [hstop]
    refine ⟨hflat, ?_⟩
    intro w hw hsuf
    obtain ⟨q', hq'⟩ := hsuf
    have := (DecodeLastRune_whiteSpace w hw q').1
    rw [hq', hns] at this
    cases this

/-- The function `TrimFunc` with `unicode.IsSpace`: what it takes off at the two ends is
white-space sequences, and no white-space sequence starts or ends what is left. -/
theorem TrimFunc_space (s : Bytes) :
    ∃ ws₁ ws₂ : List Bytes, (∀ w ∈ ws₁, w ∈ whiteSpace) ∧ (∀ w ∈ ws₂, w ∈ whiteSpace)
      ∧ s = ws₁.flatten ++ TrimFunc s IsSpace ++ ws₂.flatten
      ∧ (∀ w ∈ whiteSpace, ¬ w <+: TrimFunc s IsSpace)
      ∧ (∀ w ∈ whiteSpace, ¬ w <:+ TrimFunc s IsSpace) := by
  obtain ⟨ws₁, h1, hl, hnp⟩ := TrimLeftFunc_space s
  obtain ⟨ws₂, h2, hr, hns⟩ := TrimRightFunc_space (TrimLeftFunc s IsSpace)
  refine ⟨ws₁, ws₂, h1, h2, ?_, ?_, hns⟩
  · unfold TrimFunc
    rw [List.append_assoc, ← hr, ← hl]
  · intro w hw hp
    apply hnp w hw
    unfold TrimFunc at hp
    rw [hr]
    exact hp.trans (List.prefix_append _ _)


theorem asciiSpace_whiteSpace (c : Byte) (h : asciiSpace c = true) : [c] ∈ whiteSpace := by
  simp only [asciiSpace, Bool.or_eq_true, beq_iff_eq] at h
  rcases h with ((((h | h) | h) | h) | h) | h <;> subst h <;> simp [whiteSpace]

/-- A run of ASCII whitespace bytes is a run of white-space sequences. -/
theorem asciiSpace_flatten (cs : Bytes) (h : ∀ c ∈ cs, asciiSpace c = true) :
    ∃ ws : List Bytes, (∀ w ∈ ws, w ∈ whiteSpace) ∧ cs = ws.flatten := by
  refine ⟨cs.map (fun c => [c]), ?_, ?_⟩
  · intro w hw
    obtain ⟨c, hc, rfl⟩ := List.mem_map.1 hw
    exact asciiSpace_whiteSpace c (h c hc)
  · induction cs with
    | nil => rfl
    | cons c rest ih =>
      simp only [List.map_cons, List.flatten_cons, List.singleton_append]
      rw [← ih (fun x hx => h x (List.mem_cons_of_mem _ hx))]

theorem asciiTrimLeft_split (s : Bytes) :
    ∃ cs : Bytes, (∀ c ∈ cs, asciiSpace c = true) ∧ s = cs ++ asciiTrimLeft s :=
  ⟨s.takeWhile asciiSpace, fun _ hc => List.mem_takeWhile_imp hc,
    (List.takeWhile_append_dropWhile asciiSpace s).symm⟩

theorem asciiTrimLeft_head (s : Bytes) (c : Byte) (rest : Bytes)
    (h : asciiTrimLeft s = c :: rest) : asciiSpace c = false := by
  induction s with
  | nil => cases h
  | cons b t ih =>
    unfold asciiTrimLeft at h ih
    rw [List.dropWhile_cons] at h
    by_cases hb : asciiSpace b = true
    · rw [if_pos hb] at h
      exact ih h
    · rw [if_neg hb] at h
      cases h
      cases hc : asciiSpace c with
      | false => rfl
      | true => exact absurd hc hb

theorem whiteSpace_head (w : Bytes) (hw : w ∈ whiteSpace) :
    ∃ c rest, w = c :: rest ∧ (asciiSpace c = true ∨ c.toNat ≥ RuneSelf) := by
  rw [whiteSpace_mem_iff] at hw
  rcases hw with h | h | h | h | h | h | h | h | h | h | h | h | h | h | h | h | h | h | h | h
    | h | h | h | h | h <;> subst h <;> exact ⟨_, _, rfl, by decide⟩

theorem whiteSpace_last (w : Bytes) (hw : w ∈ whiteSpace) :
    ∃ init c, w = init ++ [c] ∧ (asciiSpace c = true ∨ c.toNat ≥ RuneSelf) := by
  rw [whiteSpace_mem_iff] at hw
  rcases hw with h | h | h | h | h | h | h | h | h | h | h | h | h | h | h | h | h | h | h | h
    | h | h | h | h | h <;> subst h
  · exact ⟨[], _, rfl, by decide⟩
  · exact ⟨[], _, rfl, by decide⟩
  · exact ⟨[], _, rfl, by decide⟩
  · exact ⟨[], _, rfl, by decide⟩
  · exact ⟨[], _, rfl, by decide⟩
  · exact ⟨[], _, rfl, by decide⟩
  · exact ⟨[_], _, rfl, by decide⟩
  · exact ⟨[_], _, rfl, by decide⟩
  all_goals exact ⟨[_, _], _, rfl, by decide⟩

/-- No white-space sequence starts a payload whose first byte is ASCII and not ASCII
whitespace. -/
theorem whiteSpace_not_start (t : Bytes) (hna : nonASCIIHead t = false)
    (hsp : ∀ c rest, t = c :: rest → asciiSpace c = false) :
    ∀ w ∈ whiteSpace, ¬ w <+: t := by
  intro w hw hp
  obtain ⟨c, rest, rfl, hc⟩ := whiteSpace_head w hw
  obtain ⟨r, hr⟩ := hp
  subst hr
  rcases hc with hc | hc
  · rw [hsp c (rest ++ r) rfl] at hc
    cases hc
  · simp only [List.cons_append, nonASCIIHead, decide_eq_false_iff_not] at hna
    exact hna hc

/-- The function `bytes.TrimSpace`: what it takes off at the two ends is white-space
sequences, and no white-space sequence starts or ends what is left. -/
theorem TrimSpace_space (s : Bytes) :
    ∃ ws₁ ws₂ : List Bytes, (∀ w ∈ ws₁, w ∈ whiteSpace) ∧ (∀ w ∈ ws₂, w ∈ whiteSpace)
      ∧ s = ws₁.flatten ++ TrimSpace s ++ ws₂.flatten
      ∧ (∀ w ∈ whiteSpace, ¬ w <+: TrimSpace s)
      ∧ (∀ w ∈ whiteSpace, ¬ w <:+ TrimSpace s) := by
  obtain ⟨cs₁, hcs₁, hs₁⟩ := asciiTrimLeft_split s
  obtain ⟨a, ha, hfa⟩ := asciiSpace_flatten cs₁ hcs₁
  obtain ⟨cs₂, hcs₂, hs₂⟩ := asciiTrimLeft_split (asciiTrimLeft s).reverse
  obtain ⟨b, hb, hfb⟩ := asciiSpace_flatten cs₂.reverse
    (fun c hc => hcs₂ c (List.mem_reverse.1 hc))
  have ht : asciiTrimLeft s
      = (asciiTrimLeft (asciiTrimLeft s).reverse).reverse ++ cs₂.reverse := by
    have := congrArg List.reverse hs₂
    rw [List.reverse_reverse, List.reverse_append] at this
    exact this
  have hmem : ∀ (x y : List Bytes), (∀ w ∈ x, w ∈ whiteSpace) → (∀ w ∈ y, w ∈ whiteSpace) →
      ∀ w ∈ x ++ y, w ∈ whiteSpace := by
    intro x y hx hy w hw
    rcases List.mem_append.1 hw with h | h
    · exact hx w h
    · exact hy w h
  simp only [TrimSpace, trimSpaceStart_eq, trimSpaceStop_eq]
  cases h1 : nonASCIIHead (asciiTrimLeft s) with
  | true =>
    simp only
    obtain ⟨ws₁, ws₂, hw1, hw2, hsplit, hnp, hns⟩ := TrimFunc_space (asciiTrimLeft s)
    refine ⟨a ++ ws₁, ws₂, hmem a ws₁ ha hw1, hw2, ?_, hnp, hns⟩
    rw [List.flatten_append, ← hfa, List.append_assoc, List.append_assoc,
      ← List.append_assoc ws₁.flatten, ← hsplit]
    exact hs₁
  | false =>
    simp only
    cases h2 : nonASCIIHead (asciiTrimLeft (asciiTrimLeft s).reverse) with
    | true =>
      simp only
      obtain ⟨ws₁, ws₂, hw1, hw2, hsplit, hnp, hns⟩ :=
        TrimFunc_space (asciiTrimLeft (asciiTrimLeft s).reverse).reverse
      refine ⟨a ++ ws₁, ws₂ ++ b, hmem a ws₁ ha hw1, hmem ws₂ b hw2 hb, ?_, hnp, hns⟩
      rw [List.flatten_append, List.flatten_append, ← hfa, ← hfb]
      have e : cs₁ ++ ws₁.flatten
            ++ TrimFunc (asciiTrimLeft (asciiTrimLeft s).reverse).reverse IsSpace
            ++ (ws₂.flatten ++ cs₂.reverse)
          = cs₁ ++ ((ws₁.flatten
              ++ TrimFunc (asciiTrimLeft (asciiTrimLeft s).reverse).reverse IsSpace
              ++ ws₂.flatten) ++ cs₂.reverse) := by
        simp only [List.append_assoc]
      rw [e, ← hsplit, ← ht]
      exact hs₁
    | false =>
      simp only
      refine ⟨a, b, ha, hb, ?_, ?_, ?_⟩
      · rw [← hfa, ← hfb, List.append_assoc, ← ht]
        exact hs₁
      · -- the first byte of the data is the first byte of `asciiTrimLeft s`
        cases hu : (asciiTrimLeft (asciiTrimLeft s).reverse).reverse with
        | nil => exact whiteSpace_not_start_nil
        | cons c rest =>
          rw [hu] at ht
          apply whiteSpace_not_start
          · rw [ht] at h1
            exact h1
          · intro c' rest' hc'
            cases hc'
            exact asciiTrimLeft_head s c (rest ++ cs₂.reverse) ht
      · intro w hw hsuf
        obtain ⟨init, c, rfl, hc⟩ := whiteSpace_last w hw
        obtain ⟨r, hr⟩ := hsuf
        have hrev := congrArg List.reverse hr
        rw [List.reverse_reverse] at hrev
        simp only [List.reverse_append, List.reverse_cons, List.reverse_nil, List.nil_append,
          List.singleton_append, List.cons_append] at hrev
        have hsp := asciiTrimLeft_head _ c _ hrev.symm
        rw [← hrev] at h2
        rcases hc with hc | hc
        · rw [hsp] at hc
          cases hc
        · simp only [nonASCIIHead, decide_eq_false_iff_not] at h2
          exact h2 hc


/-- Two white-space sequences that start the same bytes are the same sequence. -/
theorem whiteSpace_start_unique (w w' : Bytes) (hw : w ∈ whiteSpace) (hw' : w' ∈ whiteSpace)
    (x x' : Bytes) (h : w ++ x = w' ++ x') : w = w' ∧ x = x' := by
  have hlen : w.length = w'.length := by
    cases hwx : w ++ x with
    | nil =>
      have : w = [] := (List.append_eq_nil.1 hwx).1
      exact absurd this (whiteSpace_ne_nil w hw)
    | cons b rest =>
      obtain ⟨_, hwid⟩ := decodeFirst_space_iff b rest
      rw [← hwid w hw ⟨x, hwx⟩, ← hwid w' hw' ⟨x', by rw [← h, hwx]⟩]
  exact List.append_inj h hlen

/-- Two white-space sequences that end the same bytes are the same sequence. -/
theorem whiteSpace_end_unique (w w' : Bytes) (hw : w ∈ whiteSpace) (hw' : w' ∈ whiteSpace)
    (x x' : Bytes) (h : x ++ w = x' ++ w') : x = x' ∧ w = w' := by
  have hlen : w.length = w'.length := by
    rw [← (DecodeLastRune_whiteSpace w hw x).2, ← (DecodeLastRune_whiteSpace w' hw' x').2, h]
  exact List.append_inj' h hlen

/-- What follows a run of white-space sequences and begins with none is determined. -/
theorem whiteSpace_runs_start (a : List Bytes) :
    ∀ (a' : List Bytes) (x x' : Bytes), (∀ w ∈ a, w ∈ whiteSpace) →
      (∀ w ∈ a', w ∈ whiteSpace) → (∀ w ∈ whiteSpace, ¬ w <+: x) →
      (∀ w ∈ whiteSpace, ¬ w <+: x') → a.flatten ++ x = a'.flatten ++ x' → x = x' := by
  induction a with
  | nil =>
    intro a' x x' _ ha' hx _ h
    cases a' with
    | nil => simpa using h
    | cons w' r' =>
      simp only [List.flatten_nil, List.nil_append, List.flatten_cons, List.append_assoc] at h
      exact absurd ⟨_, h.symm⟩ (hx w' (ha' w' (List.mem_cons_self _ _)))
  | cons w r ih =>
    intro a' x x' ha ha' hx hx' h
    cases a' with
    | nil =>
      simp only [List.flatten_nil, List.nil_append, List.flatten_cons, List.append_assoc] at h
      exact absurd ⟨_, h⟩ (hx' w (ha w (List.mem_cons_self _ _)))
    | cons w' r' =>
      simp only [List.flatten_cons, List.append_assoc] at h
      obtain ⟨_, h2⟩ := whiteSpace_start_unique w w' (ha w (List.mem_cons_self _ _))
        (ha' w' (List.mem_cons_self _ _)) _ _ h
      exact ih r' x x' (fun v hv => ha v (List.mem_cons_of_mem _ hv))
        (fun v hv => ha' v (List.mem_cons_of_mem _ hv)) hx hx' h2

/-- What precedes a run of white-space sequences and ends with none is determined. -/
theorem whiteSpace_runs_end (n : Nat) :
    ∀ (b b' : List Bytes) (y y' : Bytes), b.length ≤ n → (∀ w ∈ b, w ∈ whiteSpace) →
      (∀ w ∈ b', w ∈ whiteSpace) → (∀ w ∈ whiteSpace, ¬ w <:+ y) →
      (∀ w ∈ whiteSpace, ¬ w <:+ y') → y ++ b.flatten = y' ++ b'.flatten → y = y' := by
  induction n with
  | zero =>
    intro b b' y y' hn _ hb' hy _ h
    have hb0 : b = [] := List.length_eq_zero.1 (by omega)
    subst hb0
    rcases List.eq_nil_or_concat b' with rfl | ⟨r', w', rfl⟩
    · simpa using h
    · simp only [List.flatten_nil, List.append_nil, List.concat_eq_append, List.flatten_append,
        List.flatten_cons, ← List.append_assoc] at h
      exact absurd ⟨_, h.symm⟩ (hy w' (hb' w' (by simp)))
  | succ n ih =>
    intro b b' y y' hn hb hb' hy hy' h
    rcases List.eq_nil_or_concat b with rfl | ⟨r, w, rfl⟩
    · rcases List.eq_nil_or_concat b' with rfl | ⟨r', w', rfl⟩
      · simpa using h
      · simp only [List.flatten_nil, List.append_nil, List.concat_eq_append,
          List.flatten_append, List.flatten_cons, ← List.append_assoc] at h
        exact absurd ⟨_, h.symm⟩ (hy w' (hb' w' (by simp)))
    · rcases List.eq_nil_or_concat b' with rfl | ⟨r', w', rfl⟩
      · simp only [List.flatten_nil, List.append_nil, List.concat_eq_append,
          List.flatten_append, List.flatten_cons, ← List.append_assoc] at h
        exact absurd ⟨_, h⟩ (hy' w (hb w (by simp)))
      · simp only [List.concat_eq_append, List.flatten_append, List.flatten_cons,
          List.flatten_nil, List.append_nil, ← List.append_assoc] at h
        obtain ⟨h2, _⟩ := whiteSpace_end_unique w w' (hb w (by simp)) (hb' w' (by simp)) _ _ h
        refine ih r r' y y' ?_ (fun v hv => hb v (by simp [hv]))
          (fun v hv => hb' v (by simp [hv])) hy hy' h2
        simp only [List.concat_eq_append, List.length_append, List.length_cons,
          List.length_nil] at hn
        omega

/-- The bytes of a white-space sequence behind its first are continuation bytes. -/
theorem whiteSpace_tail (w : Bytes) (hw : w ∈ whiteSpace) :
    ∀ c ∈ w.tail, 0x80 ≤ c.toNat ∧ c.toNat ≤ 0xBF := by
  rw [whiteSpace_mem_iff] at hw
  rcases hw with h | h | h | h | h | h | h | h | h | h | h | h | h | h | h | h | h | h | h | h
    | h | h | h | h | h <;> subst h <;> decide

/-- A run of white-space sequences behind bytes that begin with none: the whole begins
with none. -/
theorem whiteSpace_not_start_append (d : Bytes) (hd : d ≠ [])
    (hns : ∀ w ∈ whiteSpace, ¬ w <+: d) (b : List Bytes) (hb : ∀ w ∈ b, w ∈ whiteSpace) :
    ∀ w ∈ whiteSpace, ¬ w <+: d ++ b.flatten := by
  intro w hw hp
  obtain ⟨r, hr⟩ := hp
  rcases List.append_eq_append_iff.1 hr with ⟨a', hd', _⟩ | ⟨c', hw', hb'⟩
  · exact hns w hw ⟨a', hd'.symm⟩
  · cases c' with
    | nil =>
      rw [List.append_nil] at hw'
      exact hns w hw ⟨[], by rw [hw', List.append_nil]⟩
    | cons c0 post =>
      have h1 := whiteSpace_flatten_head b hb c0 (by rw [hb']; rfl)
      have h2 : c0 ∈ w.tail := by
        cases d with
        | nil => exact absurd rfl hd
        | cons d0 d' =>
          rw [hw']
          simp
      have h3 := whiteSpace_tail w hw c0 h2
      omega

/-- The bytes between a leading and a trailing run of white-space sequences that neither
begin nor end with a white-space sequence are determined by the whole. -/
theorem whiteSpace_trim_unique (s d d' : Bytes) (a b a' b' : List Bytes)
    (ha : ∀ w ∈ a, w ∈ whiteSpace) (hb : ∀ w ∈ b, w ∈ whiteSpace)
    (ha' : ∀ w ∈ a', w ∈ whiteSpace) (hb' : ∀ w ∈ b', w ∈ whiteSpace)
    (h : s = a.flatten ++ d ++ b.flatten) (h' : s = a'.flatten ++ d' ++ b'.flatten)
    (hds : ∀ w ∈ whiteSpace, ¬ w <+: d) (hde : ∀ w ∈ whiteSpace, ¬ w <:+ d)
    (hds' : ∀ w ∈ whiteSpace, ¬ w <+: d') (hde' : ∀ w ∈ whiteSpace, ¬ w <:+ d') :
    d = d' := by
  have hab : ∀ (x y : List Bytes), (∀ w ∈ x, w ∈ whiteSpace) → (∀ w ∈ y, w ∈ whiteSpace) →
      ∀ w ∈ x ++ y, w ∈ whiteSpace := by
    intro x y hx hy w hw
    rcases List.mem_append.1 hw with h | h
    · exact hx w h
    · exact hy w h
  have heq : a.flatten ++ (d ++ b.flatten) = a'.flatten ++ (d' ++ b'.flatten) := by
    rw [← List.append_assoc, ← List.append_assoc, ← h, ← h']
  by_cases hd : d = []
  · by_cases hd' : d' = []
    · rw [hd, hd']
    · subst hd
      have h1 : (a ++ b).flatten ++ [] = a'.flatten ++ (d' ++ b'.flatten) := by
        rw [List.append_nil, List.flatten_append]
        simpa using heq
      have := whiteSpace_runs_start (a ++ b) a' [] _ (hab a b ha hb) ha'
        whiteSpace_not_start_nil (whiteSpace_not_start_append d' hd' hds' b' hb') h1
      exact absurd (List.append_eq_nil.1 this.symm).1 hd'
  · by_cases hd' : d' = []
    · subst hd'
      have h1 : a.flatten ++ (d ++ b.flatten) = (a' ++ b').flatten ++ [] := by
        rw [List.append_nil, List.flatten_append]
        simpa using heq
      have := whiteSpace_runs_start a (a' ++ b') _ [] ha (hab a' b' ha' hb')
        (whiteSpace_not_start_append d hd hds b hb) whiteSpace_not_start_nil h1
      exact absurd (List.append_eq_nil.1 this).1 hd
    · have h1 := whiteSpace_runs_start a a' _ _ ha ha'
        (whiteSpace_not_start_append d hd hds b hb)
        (whiteSpace_not_start_append d' hd' hds' b' hb') heq
      exact whiteSpace_runs_end b.length b b' d d' (Nat.le_refl _) hb hb' hde hde' h1


/-- C8, as stated, fails: on the payload `C2 A0 68 69` (a no-break space, U+00A0 in UTF-8,
then `hi`) the reader pump publishes `68 69`, while the payload has no newline byte and no
ASCII whitespace byte at either end, so the stated normalisation leaves it as it is. -/
theorem readPump_trims_unicode_space :
    readPump conn₁ true [ReadResult.message [0xC2, 0xA0, 0x68, 0x69]]
        = [Event.inbound (some ⟨"c-1", [0x68, 0x69]⟩)]
    ∧ specNormalise [0xC2, 0xA0, 0x68, 0x69] = [0xC2, 0xA0, 0x68, 0x69]
    ∧ ¬ (∀ (c : Connection) (p : Bytes) (rest : List ReadResult),
          readLoop c (ReadResult.message p :: rest)
            = Event.inbound (some ⟨c.ID, specNormalise p⟩) :: readLoop c rest) := by
  refine ⟨by decide, by decide, fun h => ?_⟩
  have h' := h conn₁ [0xC2, 0xA0, 0x68, 0x69] []
  revert h'
  decide

/-- C8, amended: for a payload `p` read on connection `c` the reader pump publishes a
message with the id of `c` whose data is `bytes.TrimSpace` of `p` with every newline byte
replaced by a space byte; the hub hands that same message to `OnMessage`.  The data is
the replaced payload with the leading and trailing white space taken off, white space
being the UTF-8 sequences of the Unicode white-space characters, the six ASCII whitespace
bytes among them: the replaced payload is a run of white-space sequences, the data, and a
run of white-space sequences, no white-space sequence starts or ends the data, and the
data is the only byte sequence of which that holds.  The data is a contiguous part of the
replaced payload, so no byte inside it is changed or removed.  When the first and the last
byte left after the ASCII whitespace at the two ends is taken off are ASCII (below `0x80`),
the data is the replaced payload without its leading and trailing ASCII whitespace
bytes. -/
theorem readPump_normalises (c : Connection) (p : Bytes) (rest : List ReadResult)
    (s : State) :
    ∃ data : Bytes,
      readLoop c (ReadResult.message p :: rest)
          = Event.inbound (some ⟨c.ID, data⟩) :: readLoop c rest
      ∧ step s (Event.inbound (some ⟨c.ID, data⟩))
          = .ok (s, (s.hub.listeners.filter (fun l => l.OnMessage.isSome)).map
                      (fun l => Call.onMessage l ⟨c.ID, data⟩))
      ∧ data = TrimSpace (newlinesToSpaces p)
      ∧ (∃ ws₁ ws₂ : List Bytes,
          (∀ w ∈ ws₁, w ∈ whiteSpace) ∧ (∀ w ∈ ws₂, w ∈ whiteSpace)
          ∧ newlinesToSpaces p = ws₁.flatten ++ data ++ ws₂.flatten)
      ∧ (∀ w ∈ whiteSpace, ¬ w <+: data)
      ∧ (∀ w ∈ whiteSpace, ¬ w <:+ data)
      ∧ (∀ (d : Bytes) (a b : List Bytes),
          (∀ w ∈ a, w ∈ whiteSpace) → (∀ w ∈ b, w ∈ whiteSpace) →
          newlinesToSpaces p = a.flatten ++ d ++ b.flatten →
          (∀ w ∈ whiteSpace, ¬ w <+: d) → (∀ w ∈ whiteSpace, ¬ w <:+ d) → d = data)
      ∧ data <:+: newlinesToSpaces p
      ∧ ((∀ b : Byte, (asciiTrimLeft (newlinesToSpaces p)).head? = some b →
            b.toNat < 0x80) →
          (∀ b : Byte, (asciiTrim (newlinesToSpaces p)).getLast? = some b →
            b.toNat < 0x80) →
          data = specNormalise p) := by
  obtain ⟨ws₁, ws₂, h1, h2, hsplit, hstart, hend⟩ := TrimSpace_space (newlinesToSpaces p)
  refine ⟨TrimSpace (newlinesToSpaces p), ?_, ?_, rfl, ⟨ws₁, ws₂, h1, h2, hsplit⟩, hstart,
    hend, ?_, TrimSpace_contiguous _, fun h1 h2 => ?_⟩
  · simp only [readLoop, ReplaceAll, ReplaceAllLoop_newline]
  · simp only [step, fireMessage_eq]
  · intro d a b ha hb hd hds hde
    exact whiteSpace_trim_unique (newlinesToSpaces p) d _ a b ws₁ ws₂ ha hb h1 h2 hd hsplit
      hds hde hstart hend
  · exact TrimSpace_ascii_ends _ h1 h2

theorem readPump_normalises_witness :
    (∀ b : Byte, (asciiTrimLeft (newlinesToSpaces [32, 104, 10, 0xC3, 0xA9, 105, 10])).head?
        = some b → b.toNat < 0x80)
    ∧ (∀ b : Byte, (asciiTrim (newlinesToSpaces [32, 104, 10, 0xC3, 0xA9, 105, 10])).getLast?
        = some b → b.toNat < 0x80)
    ∧ readLoop conn₁ [ReadResult.message [32, 104, 10, 0xC3, 0xA9, 105, 10]]
        = [Event.inbound (some ⟨"c-1", [104, 32, 0xC3, 0xA9, 105]⟩)]
    ∧ (∀ w ∈ [[0xE2, 0x80, 0x83], [10]], w ∈ whiteSpace)
    ∧ (∀ w ∈ [[0xC2, 0xA0], [32]], w ∈ whiteSpace)
    ∧ newlinesToSpaces [0xE2, 0x80, 0x83, 10, 104, 10, 105, 0xC2, 0xA0, 32]
        = [[0xE2, 0x80, 0x83], [32]].flatten ++ [104, 32, 105] ++ [[0xC2, 0xA0], [32]].flatten
    ∧ (∀ w ∈ whiteSpace, ¬ w <+: [104, 32, 105])
    ∧ (∀ w ∈ whiteSpace, ¬ w <:+ [104, 32, 105])
    ∧ readLoop conn₁
          [ReadResult.message [0xE2, 0x80, 0x83, 10, 104, 10, 105, 0xC2, 0xA0, 32]]
        = [Event.inbound (some ⟨"c-1", [104, 32, 105]⟩)] := by
  have h1 : ∀ b : Byte,
      (asciiTrimLeft (newlinesToSpaces [32, 104, 10, 0xC3, 0xA9, 105, 10])).head? = some b →
      b.toNat < 0x80 := by
    intro b hb
    have : (asciiTrimLeft (newlinesToSpaces [32, 104, 10, 0xC3, 0xA9, 105, 10])).head?
        = some 104 := by decide
    rw [this] at hb
    cases hb
    decide
  have h2 : ∀ b : Byte,
      (asciiTrim (newlinesToSpaces [32, 104, 10, 0xC3, 0xA9, 105, 10])).getLast? = some b →
      b.toNat < 0x80 := by
    intro b hb
    have : (asciiTrim (newlinesToSpaces [32, 104, 10, 0xC3, 0xA9, 105, 10])).getLast?
        = some 105 := by decide
    rw [this] at hb
    cases hb
    decide
  obtain ⟨data, hread, _, _, _, _, _, _, _, hdata⟩ :=
    readPump_normalises conn₁ [32, 104, 10, 0xC3, 0xA9, 105, 10] [] State.init
  have hd := hdata h1 h2
  have hs : specNormalise [32, 104, 10, 0xC3, 0xA9, 105, 10] = [104, 32, 0xC3, 0xA9, 105] := by
    decide
  rw [hs] at hd
  subst hd
  have ha : ∀ w ∈ [[0xE2, 0x80, 0x83], [10]], w ∈ whiteSpace := by
    intro w hw
    simp only [List.mem_cons, List.mem_singleton, List.not_mem_nil, or_false] at hw
    rcases hw with rfl | rfl <;> simp [whiteSpace]
  have ha' : ∀ w ∈ [[0xE2, 0x80, 0x83], [32]], w ∈ whiteSpace := by
    intro w hw
    simp only [List.mem_cons, List.mem_singleton, List.not_mem_nil, or_false] at hw
    rcases hw with rfl | rfl <;> simp [whiteSpace]
  have hb : ∀ w ∈ [[0xC2, 0xA0], [32]], w ∈ whiteSpace := by
    intro w hw
    simp only [List.mem_cons, List.mem_singleton, List.not_mem_nil, or_false] at hw
    rcases hw with rfl | rfl <;> simp [whiteSpace]
  have hsplit : newlinesToSpaces [0xE2, 0x80, 0x83, 10, 104, 10, 105, 0xC2, 0xA0, 32]
      = [[0xE2, 0x80, 0x83], [32]].flatten ++ [104, 32, 105]
        ++ [[0xC2, 0xA0], [32]].flatten := by decide
  have hstart : ∀ w ∈ whiteSpace, ¬ w <+: [104, 32, 105] :=
    whiteSpace_not_start _ rfl (fun c rest h => by cases h; decide)
  have hend : ∀ w ∈ whiteSpace, ¬ w <:+ [104, 32, 105] := by
    intro w hw hsuf
    obtain ⟨init, c, rfl, hc⟩ := whiteSpace_last w hw
    obtain ⟨r, hr⟩ := hsuf
    have hrev := congrArg List.reverse hr
    simp only [List.reverse_append, List.reverse_cons, List.reverse_nil, List.nil_append,
      List.singleton_append, List.cons_append, List.cons.injEq] at hrev
    obtain ⟨hc105, _⟩ := hrev
    subst hc105
    revert hc
    decide
  obtain ⟨data₂, hread₂, _, _, _, _, _, huniq, _, _⟩ :=
    readPump_normalises conn₁ [0xE2, 0x80, 0x83, 10, 104, 10, 105, 0xC2, 0xA0, 32] []
      State.init
  have hd₂ := huniq [104, 32, 105] _ _ ha' hb hsplit hstart hend
  subst hd₂
  exact ⟨h1, h2, hread, ha, hb, hsplit, hstart, hend, hread₂⟩

/-! ## The writer pump -/

/-- A call on a socket whose coming calls all succeed. -/
theorem Socket.call_succeeds (ws : Socket) (op : SocketCall)
    (hall : ∀ o ∈ ws.outcomes, o = true) :
    ∃ ws' : Socket, ws.call op = (true, ws')
      ∧ ws'.frames = (ws.effect op).1
      ∧ ws'.writer = (ws.effect op).2
      ∧ ((∀ d, op ≠ .WriteMessage .CloseMessage d) → ∀ o ∈ ws'.outcomes, o = true) := by
  have hafter : ∀ rest : List Bool, (∀ o ∈ rest, o = true) →
      (∀ d, op ≠ .WriteMessage .CloseMessage d) → ∀ o ∈ Socket.after op rest, o = true := by
    intro rest hrest hop
    cases op with
    | WriteMessage t d =>
      cases t with
      | TextMessage => exact hrest
      | CloseMessage => exact absurd rfl (hop d)
      | PingMessage => exact hrest
    | NextWriter t => exact hrest
    | Write p => exact hrest
    | WriterClose => exact hrest
    | Close => exact hrest
  cases hout : ws.outcomes with
  | nil =>
    refine ⟨⟨ws.calls ++ [(op, true)], (ws.effect op).1, (ws.effect op).2,
      Socket.after op []⟩, ?_, rfl, rfl,
      hafter [] (fun x hx => absurd hx (List.not_mem_nil x))⟩
    simp only [Socket.call, hout]
  | cons o rest =>
    have ho : o = true := hall o (by rw [hout]; exact List.mem_cons_self _ _)
    subst ho
    refine ⟨⟨ws.calls ++ [(op, true)], (ws.effect op).1, (ws.effect op).2,
      Socket.after op rest⟩, ?_, rfl, rfl,
      hafter rest (fun x hx => hall x (by rw [hout]; exact List.mem_cons_of_mem _ hx))⟩
    simp only [Socket.call, hout]

theorem joinLines_cons (m : Bytes) (qs : List Bytes) :
    joinLines (m :: qs) = m ++ (qs.map (fun q => newline ++ q)).flatten := by
  induction qs generalizing m with
  | nil => simp [joinLines]
  | cons q rest ih =>
    simp only [joinLines, ih, List.map_cons, List.flatten_cons, List.append_assoc]

/-- The loop of `onSend` on a queue that holds `qs` and then `rest`, every write
succeeding: each item of `qs` is written behind a newline and taken from the queue. -/
theorem onSendLoop_drains (qs : List Bytes) :
    ∀ (ws : Socket) (send : Chan) (rest : List Bytes) (t : MessageType) (body : Bytes),
      (∀ o ∈ ws.outcomes, o = true) → ws.writer = some (t, body) → send.buf = qs ++ rest →
      ∃ ws' : Socket,
        onSendLoop qs.length ws send = (.nil, ws', { send with buf := rest })
        ∧ ws'.frames = ws.frames
        ∧ ws'.writer = some (t, body ++ (qs.map (fun q => newline ++ q)).flatten)
        ∧ (∀ o ∈ ws'.outcomes, o = true) := by
  induction qs with
  | nil =>
    intro ws send rest t body hall hw hbuf
    refine ⟨ws, ?_, rfl, by simpa using hw, hall⟩
    simp only [List.length_nil, onSendLoop]
    cases send
    simp only [List.nil_append] at hbuf
    simp only [hbuf]
  | cons q qs ih =>
    intro ws send rest t body hall hw hbuf
    obtain ⟨ws₁, hc1, hf1, hw1, hall1⟩ := Socket.call_succeeds ws (.Write newline) hall
    replace hall1 := hall1 (fun _ h => SocketCall.noConfusion h)
    simp only [Socket.effect, hw] at hf1 hw1
    have hrecv : send.recv = some (q, true, { send with buf := qs ++ rest }) := by
      simp only [Chan.recv, hbuf, List.cons_append]
    obtain ⟨ws₂, hc2, hf2, hw2, hall2⟩ := Socket.call_succeeds ws₁ (.Write q) hall1
    replace hall2 := hall2 (fun _ h => SocketCall.noConfusion h)
    simp only [Socket.effect, hw1] at hf2 hw2
    obtain ⟨ws', hloop, hfr, hwr, hall'⟩ := ih ws₂ { send with buf := qs ++ rest } rest t
      (body ++ newline ++ q) hall2 hw2 rfl
    refine ⟨ws', ?_, ?_, ?_, hall'⟩
    · simp only [List.length_cons, onSendLoop, hc1, hrecv, hc2]
      exact hloop
    · rw [hfr, hf2, hf1]
    · rw [hwr]
      simp only [List.map_cons, List.flatten_cons, List.append_assoc]

/-- The function `onSend` with a message, every write succeeding: one text frame goes out,
whose body is the message and the queued items joined by single newline bytes, and the
queue is left empty. -/
theorem onSend_batch (ws : Socket) (send : Chan) (m : Bytes)
    (hall : ∀ o ∈ ws.outcomes, o = true) :
    ∃ ws' : Socket,
      onSend ws send m true = (.nil, ws', { send with buf := [] })
      ∧ ws'.frames = ws.frames ++ [⟨.TextMessage, joinLines (m :: send.buf)⟩]
      ∧ (∀ o ∈ ws'.outcomes, o = true) := by
  obtain ⟨ws₁, hc1, hf1, hw1, hall1⟩ :=
    Socket.call_succeeds ws (.NextWriter .TextMessage) hall
  replace hall1 := hall1 (fun _ h => SocketCall.noConfusion h)
  simp only [Socket.effect] at hf1 hw1
  obtain ⟨ws₂, hc2, hf2, hw2, hall2⟩ := Socket.call_succeeds ws₁ (.Write m) hall1
  replace hall2 := hall2 (fun _ h => SocketCall.noConfusion h)
  simp only [Socket.effect, hw1] at hf2 hw2
  obtain ⟨ws₃, hloop, hf3, hw3, hall3⟩ := onSendLoop_drains send.buf ws₂ send []
    .TextMessage ([] ++ m) hall2 hw2 (List.append_nil _).symm
  obtain ⟨ws₄, hc4, hf4, _, hall4⟩ := Socket.call_succeeds ws₃ .WriterClose hall3
  replace hall4 := hall4 (fun _ h => SocketCall.noConfusion h)
  simp only [Socket.effect, hw3] at hf4
  refine ⟨ws₄, ?_, ?_, hall4⟩
  · simp only [onSend, Bool.not_true, Bool.false_eq_true, if_false, hc1, hc2, Chan.len,
      hloop, hc4]
  · rw [hf4, hf3, hf2, hf1, joinLines_cons, List.nil_append]

theorem joinLines_batches (bs : List (List Bytes)) (hne : ∀ b ∈ bs, b ≠ [])
    (tail : List Bytes) :
    joinLines (bs.map joinLines ++ tail) = joinLines (bs.flatten ++ tail) := by
  induction bs with
  | nil => rfl
  | cons b rest ih =>
    have hrest : ∀ x ∈ rest, x ≠ [] := fun x hx => hne x (List.mem_cons_of_mem _ hx)
    have ih' := ih hrest
    cases b with
    | nil => exact absurd rfl (hne [] (List.mem_cons_self _ _))
    | cons m b' =>
      simp only [List.map_cons, List.cons_append, List.flatten_cons, joinLines_cons,
        List.map_append, List.flatten_append, List.append_assoc, List.append_cancel_left_eq]
      cases hx : rest.map joinLines ++ tail with
      | nil =>
        have h1 : rest = [] := by
          cases rest with
          | nil => rfl
          | cons _ _ => simp at hx
        have h2 : tail = [] := by
          subst h1
          simpa using hx
        subst h1
        subst h2
        simp
      | cons y ys =>
        have hcons : ∀ (zs : List Bytes), zs ≠ [] →
            (zs.map (fun q => newline ++ q)).flatten = newline ++ joinLines zs := by
          intro zs hzs
          cases zs with
          | nil => exact absurd rfl hzs
          | cons z zs' =>
            simp only [List.map_cons, List.flatten_cons, joinLines_cons, List.append_assoc]
        have hne1 : rest.map joinLines ++ tail ≠ [] := by rw [hx]; simp
        have hne2 : rest.flatten ++ tail ≠ [] := by
          intro h0
          simp only [List.append_eq_nil, List.flatten_eq_nil_iff] at h0
          obtain ⟨hr, ht⟩ := h0
          cases rest with
          | nil =>
            subst ht
            simp at hx
          | cons r rs =>
            exact hne r (List.mem_cons_of_mem _ (List.mem_cons_self _ _))
              (hr r (List.mem_cons_self _ _))
        have e1 := hcons _ hne1
        have e2 := hcons _ hne2
        simp only [List.map_append, List.flatten_append] at e1 e2
        rw [e1, e2, ih']

theorem textBodies_append_text (fs : List Frame) (b : Bytes) :
    textBodies (fs ++ [⟨.TextMessage, b⟩]) = textBodies fs ++ [b] := by
  simp [textBodies, List.filter_append]

theorem textBodies_append_close (fs : List Frame) (b : Bytes) :
    textBodies (fs ++ [⟨.CloseMessage, b⟩]) = textBodies fs := by
  simp [textBodies, List.filter_append]

theorem textBodies_append_ping (fs : List Frame) (b : Bytes) :
    textBodies (fs ++ [⟨.PingMessage, b⟩]) = textBodies fs := by
  simp [textBodies, List.filter_append]

/-- A ping or close message leaves the text frames as they are, written or refused. -/
theorem textBodies_call_control (ws : Socket) (t : MessageType) (d : Bytes)
    (ht : t ≠ .TextMessage) :
    textBodies (ws.call (.WriteMessage t d)).2.frames = textBodies ws.frames := by
  have hf : textBodies (ws.frames ++ [⟨t, d⟩]) = textBodies ws.frames := by
    cases t with
    | TextMessage => exact absurd rfl ht
    | CloseMessage => exact textBodies_append_close _ _
    | PingMessage => exact textBodies_append_ping _ _
  rcases hout : ws.outcomes with _ | ⟨o, rest⟩
  · simp only [Socket.call, hout, Socket.effect]
    exact hf
  · cases o
    · simp only [Socket.call, hout]
    · simp only [Socket.call, hout, Socket.effect]
      exact hf

/-- One event at a connection whose queue is closed and drained: the queue stays as it is,
nothing goes into it and no text frame is sent. -/
theorem pumpStep_closed (st : Pump) (e : PumpEvent) (hcl : st.send.closed = true)
    (hbuf : st.send.buf = []) :
    (pumpStep st e).1.send = st.send ∧ (pumpStep st e).2 = []
      ∧ textBodies (pumpStep st e).1.ws.frames = textBodies st.ws.frames := by
  obtain ⟨ws, send, status⟩ := st
  simp only at hcl hbuf
  cases e with
  | enqueue p =>
    simp only [pumpStep, Chan.trySend, hcl, if_true]
    exact ⟨trivial, trivial, trivial⟩
  | closeSend =>
    simp only [pumpStep, Chan.close, hcl, if_true]
    exact ⟨trivial, trivial, trivial⟩
  | tick =>
    cases status with
    | running =>
      simp only [pumpStep, writePumpStep, Bool.false_eq_true, if_false]
      refine ⟨trivial, trivial, ?_⟩
      have h := textBodies_call_control ws .PingMessage [] (fun h => MessageType.noConfusion h)
      simp only [keepAlive]
      rcases hc : ws.call (.WriteMessage .PingMessage []) with ⟨ok, ws₁⟩
      rw [hc] at h
      cases ok <;> exact h
    | blocked => exact ⟨rfl, rfl, rfl⟩
    | exited => exact ⟨rfl, rfl, rfl⟩
  | recv =>
    cases status with
    | running =>
      have h := textBodies_call_control ws .CloseMessage [] (fun h => MessageType.noConfusion h)
      simp only [pumpStep, writePumpStep, if_true, Chan.recv, hbuf, hcl, onSend,
        Bool.not_false]
      rcases hc : ws.call (.WriteMessage .CloseMessage []) with ⟨ok, ws₁⟩
      rw [hc] at h
      cases ok
      · exact ⟨rfl, trivial, h⟩
      · exact ⟨rfl, trivial, h⟩
    | blocked => exact ⟨rfl, rfl, rfl⟩
    | exited => exact ⟨rfl, rfl, rfl⟩

/-- One event at a connection whose pump runs and whose socket calls all succeed, or whose
queue is closed and drained: the same holds after it, and the text frames sent so far are
batches of the payloads taken from the queue, in order, with the payload that went into
the queue now behind them. -/
theorem pumpStep_batches (st : Pump) (e : PumpEvent) (bs : List (List Bytes))
    (hinv : (st.status = .running ∧ ∀ o ∈ st.ws.outcomes, o = true)
      ∨ (st.send.closed = true ∧ st.send.buf = []))
    (hne : ∀ b ∈ bs, b ≠ []) (hbodies : textBodies st.ws.frames = bs.map joinLines) :
    ∃ bs' : List (List Bytes),
      (((pumpStep st e).1.status = .running ∧ ∀ o ∈ (pumpStep st e).1.ws.outcomes, o = true)
        ∨ ((pumpStep st e).1.send.closed = true ∧ (pumpStep st e).1.send.buf = []))
      ∧ (∀ b ∈ bs', b ≠ [])
      ∧ textBodies (pumpStep st e).1.ws.frames = bs'.map joinLines
      ∧ bs'.flatten ++ (pumpStep st e).1.send.buf
          = bs.flatten ++ st.send.buf ++ (pumpStep st e).2 := by
  by_cases hcd : st.send.closed = true ∧ st.send.buf = []
  · obtain ⟨hs, hp, hf⟩ := pumpStep_closed st e hcd.1 hcd.2
    refine ⟨bs, Or.inr (by rw [hs]; exact hcd), hne, by rw [hf]; exact hbodies, ?_⟩
    rw [hs, hp, List.append_nil]
  have hA : st.status = .running ∧ ∀ o ∈ st.ws.outcomes, o = true := by
    rcases hinv with h | h
    · exact h
    · exact absurd h hcd
  obtain ⟨hrun, hall⟩ := hA
  cases e with
  | enqueue p =>
    simp only [pumpStep, Chan.trySend]
    by_cases hcl : st.send.closed = true
    · simp only [hcl, if_true]
      exact ⟨bs, Or.inl ⟨hrun, hall⟩, hne, hbodies, by simp⟩
    · simp only [hcl, if_false]
      by_cases hlt : st.send.buf.length < st.send.cap
      · simp only [hlt, if_true]
        exact ⟨bs, Or.inl ⟨hrun, hall⟩, hne, hbodies, by simp⟩
      · simp only [hlt, if_false]
        exact ⟨bs, Or.inl ⟨hrun, hall⟩, hne, hbodies, by simp⟩
  | closeSend =>
    simp only [pumpStep, Chan.close]
    by_cases hcl : st.send.closed = true
    · simp only [hcl, if_true]
      exact ⟨bs, Or.inl ⟨hrun, hall⟩, hne, hbodies, by simp⟩
    · simp only [hcl, if_false]
      exact ⟨bs, Or.inl ⟨hrun, hall⟩, hne, hbodies, by simp⟩
  | tick =>
    obtain ⟨ws₁, hc, hf, _, hall1⟩ :=
      Socket.call_succeeds st.ws (.WriteMessage .PingMessage []) hall
    replace hall1 := hall1 (fun _ h => by cases h)
    simp only [Socket.effect] at hf
    simp only [pumpStep, writePumpStep, hrun, keepAlive, hc, Bool.false_eq_true, if_false]
    refine ⟨bs, Or.inl ⟨trivial, hall1⟩, hne, ?_, by simp⟩
    rw [hf, textBodies_append_ping]
    exact hbodies
  | recv =>
    simp only [pumpStep, writePumpStep, hrun, if_true, Chan.recv]
    cases hbuf : st.send.buf with
    | nil =>
      by_cases hcl : st.send.closed = true
      · exact absurd ⟨hcl, hbuf⟩ hcd
      · simp only [hcl, if_false]
        exact ⟨bs, Or.inl ⟨hrun, hall⟩, hne, hbodies, by simp [hbuf]⟩
    | cons m rest =>
      obtain ⟨ws₁, hsend, hf, hall1⟩ := onSend_batch st.ws { st.send with buf := rest } m hall
      simp only [hsend]
      refine ⟨bs ++ [m :: rest], Or.inl ⟨trivial, hall1⟩, ?_, ?_, by simp⟩
      · intro b hb
        rcases List.mem_append.1 hb with h | h
        · exact hne b h
        · simp only [List.mem_singleton] at h
          subst h
          simp
      · rw [hf, textBodies_append_text, hbodies, List.map_append]
        rfl

/-- The events at a connection whose pump runs and whose socket calls all succeed, or whose
queue is closed and drained. -/
theorem pumpRun_batches (evs : List PumpEvent) :
    ∀ (st : Pump) (bs : List (List Bytes)),
      ((st.status = .running ∧ ∀ o ∈ st.ws.outcomes, o = true)
        ∨ (st.send.closed = true ∧ st.send.buf = [])) →
      (∀ b ∈ bs, b ≠ []) →
      textBodies st.ws.frames = bs.map joinLines →
      ∃ bs' : List (List Bytes),
        (∀ b ∈ bs', b ≠ [])
        ∧ textBodies (pumpRun st evs).1.ws.frames = bs'.map joinLines
        ∧ bs'.flatten ++ (pumpRun st evs).1.send.buf
            = bs.flatten ++ st.send.buf ++ (pumpRun st evs).2 := by
  induction evs with
  | nil =>
    intro st bs _ hne hbodies
    exact ⟨bs, hne, hbodies, by simp [pumpRun]⟩
  | cons e rest ih =>
    intro st bs hinv hne hbodies
    obtain ⟨bs₁, hinv1, hne1, hbodies1, hq1⟩ :=
      pumpStep_batches st e bs hinv hne hbodies
    obtain ⟨bs₂, hne2, hbodies2, hq2⟩ :=
      ih (pumpStep st e).1 bs₁ hinv1 hne1 hbodies1
    refine ⟨bs₂, hne2, hbodies2, ?_⟩
    simp only [pumpRun]
    rw [hq2, hq1, List.append_assoc, List.append_assoc]

/-- C9: when `onSend` is called with a payload `m` while the send queue holds `q1..qk` and
every write succeeds, it returns nil, sends exactly one more frame, a text frame whose body
is `m`, `q1`, ..., `qk` with one newline byte between consecutive payloads, and leaves the
queue empty.  Consequently, after any events at a new connection whose writes all succeed,
the text frames sent are batches of the payloads that went into the queue, in order: the
bodies of the frames followed by the payloads still queued, joined by newline bytes, are the
payloads that went into the queue joined by newline bytes. -/
theorem writePump_batches (ws : Socket) (send : Chan) (m : Bytes) (outcomes : List Bool)
    (evs : List PumpEvent) :
    ((∀ o ∈ ws.outcomes, o = true) →
      ∃ ws' : Socket,
        onSend ws send m true = (.nil, ws', { send with buf := [] })
        ∧ ws'.frames = ws.frames ++ [⟨.TextMessage, joinLines (m :: send.buf)⟩])
    ∧ ((∀ o ∈ outcomes, o = true) →
      (∃ batches : List (List Bytes),
        (∀ b ∈ batches, b ≠ [])
        ∧ textBodies (pumpRun (Pump.new outcomes) evs).1.ws.frames = batches.map joinLines
        ∧ batches.flatten ++ (pumpRun (Pump.new outcomes) evs).1.send.buf
            = (pumpRun (Pump.new outcomes) evs).2)
      ∧ joinLines (textBodies (pumpRun (Pump.new outcomes) evs).1.ws.frames
            ++ (pumpRun (Pump.new outcomes) evs).1.send.buf)
          = joinLines (pumpRun (Pump.new outcomes) evs).2) := by
  constructor
  · intro hall
    obtain ⟨ws', h, hf, _⟩ := onSend_batch ws send m hall
    exact ⟨ws', h, hf⟩
  · intro hall
    obtain ⟨bs, hne, hbodies, hq⟩ := pumpRun_batches evs (Pump.new outcomes) []
      (Or.inl ⟨rfl, hall⟩) (fun b hb => absurd hb (List.not_mem_nil b)) rfl
    have hq' : bs.flatten ++ (pumpRun (Pump.new outcomes) evs).1.send.buf
        = (pumpRun (Pump.new outcomes) evs).2 := by
      rw [hq]
      simp [Pump.new, Chan.make]
    refine ⟨⟨bs, hne, hbodies, hq'⟩, ?_⟩
    rw [hbodies, joinLines_batches bs hne, hq']

theorem writePump_batches_witness :
    (∀ o ∈ (Socket.mk [] [] none []).outcomes, o = true)
    ∧ (∀ o ∈ ([] : List Bool), o = true)
    ∧ (∃ ws' : Socket,
        onSend ⟨[], [], none, []⟩ ⟨256, [[98], [99]], false⟩ [97] true
          = (.nil, ws', ⟨256, [], false⟩)
        ∧ ws'.frames = [⟨.TextMessage, [97, 10, 98, 10, 99]⟩])
    ∧ textBodies (pumpRun (Pump.new []) [.enqueue [97], .recv, .enqueue [98], .enqueue [99],
          .recv]).1.ws.frames = [[97], [98, 10, 99]]
    ∧ joinLines (textBodies (pumpRun (Pump.new []) [.enqueue [97], .recv, .enqueue [98],
          .enqueue [99], .recv]).1.ws.frames
        ++ (pumpRun (Pump.new []) [.enqueue [97], .recv, .enqueue [98], .enqueue [99],
          .recv]).1.send.buf) = [97, 10, 98, 10, 99] :=
  ⟨fun _ h => absurd h (List.not_mem_nil _), fun _ h => absurd h (List.not_mem_nil _),
    (writePump_batches ⟨[], [], none, []⟩ ⟨256, [[98], [99]], false⟩ [97] [] []).1
      (fun _ h => absurd h (List.not_mem_nil _)),
    by decide,
    ((writePump_batches ⟨[], [], none, []⟩ ⟨256, [], false⟩ [] []
        [.enqueue [97], .recv, .enqueue [98], .enqueue [99], .recv]).2
      (fun _ h => absurd h (List.not_mem_nil _))).2.trans (by decide)⟩

/-! ## The writer pump on a closed queue -/

/-- A pump that is not running stays as it is. -/
theorem writePump_not_running (sched : List Bool) :
    ∀ st : Pump, st.status ≠ .running → writePump st sched = st := by
  induction sched with
  | nil => intro st _; rfl
  | cons x rest ih =>
    intro st h
    have hstep : writePumpStep st x = st := by
      cases hs : st.status with
      | running => exact absurd hs h
      | blocked => simp only [writePumpStep, hs]
      | exited => simp only [writePumpStep, hs]
    simp only [writePump, hstep]
    exact ih st h

/-- The ticker cases of a running pump whose socket keeps a write error: each ping is
refused and the pump runs on. -/
theorem writePump_ticks_refused (n : Nat) :
    ∀ (calls : List (SocketCall × Bool)) (frames : List Frame)
      (writer : Option (MessageType × Bytes)) (rest : List Bool) (send : Chan)
      (sched : List Bool),
      writePump ⟨⟨calls, frames, writer, false :: rest⟩, send, .running⟩
          (List.replicate n false ++ sched)
        = writePump ⟨⟨calls ++ List.replicate n (SocketCall.WriteMessage .PingMessage [], false),
              frames, writer, false :: rest⟩, send, .running⟩ sched := by
  induction n with
  | zero =>
    intro calls frames writer rest send sched
    simp
  | succ n ih =>
    intro calls frames writer rest send sched
    have hstep : writePumpStep ⟨⟨calls, frames, writer, false :: rest⟩, send, .running⟩ false
        = ⟨⟨calls ++ [(SocketCall.WriteMessage .PingMessage [], false)], frames, writer,
              false :: rest⟩, send, .running⟩ := rfl
    have hsched : List.replicate (n + 1) false ++ sched
        = false :: (List.replicate n false ++ sched) := rfl
    rw [hsched]
    show writePump (writePumpStep _ false) _ = _
    rw [hstep, ih, List.replicate_succ]
    simp only [List.append_assoc, List.singleton_append]

/-- C10: let the writer pump of a connection run on a send queue that the hub has closed and
that is drained.  At the case `<-c.send` it calls `WriteMessage(CloseMessage, [])`.  When
that write fails, no frame goes out and the pump exits at once: the socket is closed and
the pump does nothing more.  When it succeeds, exactly one close frame goes out, and
`onSend` returns nil, so the pump goes round its loop again: until the `select` takes the
case `<-c.send` again, which is ready because the queue is closed, it is running, the pings
of the ticker cases in between are refused by the socket and only the close frame has gone
out; at that case the close message is refused by the socket, which has sent its close
message, and the pump exits: the socket is closed, the frames are the earlier ones and the
one close frame, the open writer is as it was, and the pump does nothing more. -/
theorem writePump_closed_queue (st : Pump) (hrun : st.status = .running)
    (hclosed : st.send.closed = true) (hdrained : st.send.buf = []) :
    ((st.ws.call (.WriteMessage .CloseMessage [])).1 = false →
      (st.ws.call (.WriteMessage .CloseMessage [])).2.frames = st.ws.frames
      ∧ ∀ sched : List Bool,
          writePump st (true :: sched)
            = Pump.exit (st.ws.call (.WriteMessage .CloseMessage [])).2 st.send)
    ∧ ((st.ws.call (.WriteMessage .CloseMessage [])).1 = true →
      ∀ (ticks : Nat) (sched : List Bool),
        (writePump st (true :: List.replicate ticks false)).status = .running
        ∧ (writePump st (true :: List.replicate ticks false)).ws.frames
            = st.ws.frames ++ [⟨.CloseMessage, []⟩]
        ∧ writePump st (true :: (List.replicate ticks false ++ true :: sched))
            = ⟨⟨st.ws.calls ++ (SocketCall.WriteMessage .CloseMessage [], true)
                    :: (List.replicate ticks (SocketCall.WriteMessage .PingMessage [], false)
                        ++ [(SocketCall.WriteMessage .CloseMessage [], false),
                            (SocketCall.Close, true)]),
                  st.ws.frames ++ [⟨.CloseMessage, []⟩], st.ws.writer, [false]⟩,
                st.send, .exited⟩) := by
  obtain ⟨⟨calls, frames, writer, outcomes⟩, send, status⟩ := st
  simp only at hrun hclosed hdrained
  subst hrun
  have hrecv : send.recv = some ([], false, send) := by
    simp only [Chan.recv, hdrained, hclosed, if_true]
  have hstep : writePumpStep ⟨⟨calls, frames, writer, outcomes⟩, send, .running⟩ true
      = match (Socket.mk calls frames writer outcomes).call (.WriteMessage .CloseMessage []) with
        | (false, ws₁) => Pump.exit ws₁ send
        | (true, ws₁) => ⟨ws₁, send, .running⟩ := by
    simp only [writePumpStep, if_true, hrecv, onSend, Bool.not_false]
    rcases (Socket.mk calls frames writer outcomes).call (.WriteMessage .CloseMessage [])
      with ⟨ok, ws₁⟩
    cases ok <;> rfl
  have hsucc :
      ∀ (ticks : Nat) (sched : List Bool),
        (writePump ⟨⟨calls ++ [(SocketCall.WriteMessage .CloseMessage [], true)],
              frames ++ [⟨.CloseMessage, []⟩], writer, [false]⟩, send, .running⟩
            (List.replicate ticks false)).status = .running
        ∧ (writePump ⟨⟨calls ++ [(SocketCall.WriteMessage .CloseMessage [], true)],
              frames ++ [⟨.CloseMessage, []⟩], writer, [false]⟩, send, .running⟩
            (List.replicate ticks false)).ws.frames = frames ++ [⟨.CloseMessage, []⟩]
        ∧ writePump ⟨⟨calls ++ [(SocketCall.WriteMessage .CloseMessage [], true)],
              frames ++ [⟨.CloseMessage, []⟩], writer, [false]⟩, send, .running⟩
            (List.replicate ticks false ++ true :: sched)
          = ⟨⟨calls ++ (SocketCall.WriteMessage .CloseMessage [], true)
                  :: (List.replicate ticks (SocketCall.WriteMessage .PingMessage [], false)
                      ++ [(SocketCall.WriteMessage .CloseMessage [], false),
                          (SocketCall.Close, true)]),
                frames ++ [⟨.CloseMessage, []⟩], writer, [false]⟩, send, .exited⟩ := by
    intro ticks sched
    have h0 := writePump_ticks_refused ticks
      (calls ++ [(SocketCall.WriteMessage .CloseMessage [], true)])
      (frames ++ [⟨.CloseMessage, []⟩]) writer [] send []
    rw [List.append_nil] at h0
    refine ⟨by rw [h0]; rfl, by rw [h0]; rfl, ?_⟩
    rw [writePump_ticks_refused]
    have hlast : writePumpStep
        ⟨⟨calls ++ [(SocketCall.WriteMessage .CloseMessage [], true)]
              ++ List.replicate ticks (SocketCall.WriteMessage .PingMessage [], false),
            frames ++ [⟨.CloseMessage, []⟩], writer, [false]⟩, send, .running⟩ true
        = ⟨⟨calls ++ (SocketCall.WriteMessage .CloseMessage [], true)
                  :: (List.replicate ticks (SocketCall.WriteMessage .PingMessage [], false)
                      ++ [(SocketCall.WriteMessage .CloseMessage [], false),
                          (SocketCall.Close, true)]),
                frames ++ [⟨.CloseMessage, []⟩], writer, [false]⟩, send, .exited⟩ := by
      simp only [writePumpStep, if_true, hrecv, onSend, Bool.not_false, Socket.call,
        Pump.exit, List.append_assoc, List.singleton_append, List.cons_append,
        List.nil_append]
    simp only [writePump, hlast]
    exact writePump_not_running sched _ (fun h => Status.noConfusion h)
  constructor
  · intro hfail
    rcases houts : outcomes with _ | ⟨o, rest⟩
    · subst houts
      simp [Socket.call] at hfail
    · subst houts
      cases o
      · refine ⟨rfl, fun sched => ?_⟩
        simp only [writePump, hstep, Socket.call]
        exact writePump_not_running sched _ (fun h => Status.noConfusion h)
      · simp [Socket.call] at hfail
  · intro hok ticks sched
    rcases houts : outcomes with _ | ⟨o, rest⟩
    · subst houts
      simp only [writePump, hstep, Socket.call, Socket.effect, Socket.after]
      exact hsucc ticks sched
    · subst houts
      cases o
      · simp [Socket.call] at hok
      · simp only [writePump, hstep, Socket.call, Socket.effect, Socket.after]
        exact hsucc ticks sched

theorem writePump_closed_queue_witness :
    (pumpClosed []).status = .running
    ∧ (pumpClosed []).send.closed = true
    ∧ (pumpClosed []).send.buf = []
    ∧ ((pumpClosed []).ws.call (.WriteMessage .CloseMessage [])).1 = true
    ∧ writePump (pumpClosed []) (true :: (List.replicate 2 false ++ true :: [true, false]))
        = ⟨⟨[(SocketCall.WriteMessage .CloseMessage [], true),
               (SocketCall.WriteMessage .PingMessage [], false),
               (SocketCall.WriteMessage .PingMessage [], false),
               (SocketCall.WriteMessage .CloseMessage [], false),
               (SocketCall.Close, true)],
              [⟨.CloseMessage, []⟩], none, [false]⟩,
            ⟨sendCapacity, [], true⟩, .exited⟩
    ∧ ((pumpClosed [false]).ws.call (.WriteMessage .CloseMessage [])).1 = false
    ∧ writePump (pumpClosed [false]) [true, true]
        = ⟨⟨[(SocketCall.WriteMessage .CloseMessage [], false), (SocketCall.Close, true)],
              [], none, [false]⟩,
            ⟨sendCapacity, [], true⟩, .exited⟩ :=
  ⟨rfl, rfl, rfl, rfl,
    ((writePump_closed_queue (pumpClosed []) rfl rfl rfl).2 rfl 2 [true, false]).2.2,
    rfl, ((writePump_closed_queue (pumpClosed [false]) rfl rfl rfl).1 rfl).2 [true]⟩

/-! ## The management endpoint -/

/-- C12: the management handler writes 410 exactly when `HasConnection` is false for the
connection id, and then sends nothing to the hub; otherwise it writes 500 when reading the
body fails, again sending nothing; otherwise it hands one message with the connection id
and the body bytes to `SendOutboundMessage` and writes 200.  No other status code is
written.  It writes 200 also when the queue of the connection is full, in which case the
hub, on that message, evicts the connection. -/
theorem management_status_codes (s : State) (connectionID : String) (body : Option Bytes) :
    ((managementHandler s.hub connectionID body).1 = 410
        ↔ s.hub.HasConnection connectionID = false)
    ∧ (s.hub.HasConnection connectionID = false →
        managementHandler s.hub connectionID body = (410, []))
    ∧ (s.hub.HasConnection connectionID = true → body = none →
        managementHandler s.hub connectionID body = (500, []))
    ∧ (∀ bodyData : Bytes, s.hub.HasConnection connectionID = true → body = some bodyData →
        managementHandler s.hub connectionID body
          = (200, [Event.outbound ⟨connectionID, bodyData⟩]))
    ∧ ((managementHandler s.hub connectionID body).1 = 200
        ∨ (managementHandler s.hub connectionID body).1 = 410
        ∨ (managementHandler s.hub connectionID body).1 = 500)
    ∧ (∀ (bodyData : Bytes) (c : Connection),
        s.hub.connections connectionID = some c → c.ID = connectionID →
        (s.chans c.send).closed = false →
        (s.chans c.send).buf.length = (s.chans c.send).cap →
        (managementHandler s.hub connectionID (some bodyData)).1 = 200
        ∧ ∃ s' : State,
            Run s (managementHandler s.hub connectionID (some bodyData)).2 = .ok (s', [])
            ∧ s'.hub.HasConnection connectionID = false
            ∧ (s'.chans c.send).closed = true
            ∧ (s'.chans c.send).buf = (s.chans c.send).buf) := by
  refine ⟨?_, ?_, ?_, ?_, ?_, ?_⟩
  · cases h : s.hub.HasConnection connectionID with
    | false => simp [managementHandler, h, StatusGone]
    | true => cases body <;>
        simp [managementHandler, h, StatusInternalServerError, StatusOK]
  · intro h
    simp [managementHandler, h, StatusGone]
  · intro h hb
    simp [managementHandler, h, hb, StatusInternalServerError]
  · intro bodyData h hb
    simp [managementHandler, h, hb, StatusOK, Hub.SendOutboundMessage]
  · cases h : s.hub.HasConnection connectionID with
    | false => simp [managementHandler, h, StatusGone]
    | true => cases body <;>
        simp [managementHandler, h, StatusInternalServerError, StatusOK]
  · intro bodyData c hc hid hopen hfull
    subst hid
    have hhas : s.hub.HasConnection c.ID = true := by
      simp only [Hub.HasConnection, hc]
    have hnot : ¬ (s.chans c.send).buf.length < (s.chans c.send).cap := by omega
    refine ⟨by simp [managementHandler, hhas, StatusOK], ?_⟩
    refine ⟨⟨⟨Function.update s.hub.connections c.ID none, s.hub.listeners⟩,
      Function.update s.chans c.send { s.chans c.send with closed := true }⟩, ?_, ?_, ?_, ?_⟩
    · simp only [managementHandler, hhas, Bool.not_true, Bool.false_eq_true, if_false,
        Hub.SendOutboundMessage, Run, step, hc, Chan.trySend, Chan.close, hopen, hnot,
        List.append_nil]
    · simp only [Hub.HasConnection, Function.update_same]
    · simp only [Function.update_same]
    · simp only [Function.update_same]

theorem management_status_codes_witness :
    (stateFull.hub.HasConnection "c-1" = true
      ∧ managementHandler stateFull.hub "c-1" (some [112])
          = (200, [Event.outbound ⟨"c-1", [112]⟩]))
    ∧ (stateFull.hub.HasConnection "c-1" = true
      ∧ managementHandler stateFull.hub "c-1" none = (500, []))
    ∧ (stateFull.hub.HasConnection "c-9" = false
      ∧ managementHandler stateFull.hub "c-9" (some [112]) = (410, []))
    ∧ (stateFull.hub.connections "c-1" = some conn₁
      ∧ (stateFull.chans conn₁.send).closed = false
      ∧ (stateFull.chans conn₁.send).buf.length = (stateFull.chans conn₁.send).cap
      ∧ ∃ s' : State,
          Run stateFull (managementHandler stateFull.hub "c-1" (some [112])).2 = .ok (s', [])
          ∧ s'.hub.HasConnection "c-1" = false) := by
  have h1 : stateFull.hub.HasConnection "c-1" = true := by
    simp only [stateFull, stateOne, Hub.HasConnection, Function.update_same]
  have h9 : stateFull.hub.HasConnection "c-9" = false := by
    have hne : ("c-9" : String) ≠ "c-1" := by decide
    simp only [stateFull, stateOne, Hub.HasConnection, Function.update_noteq hne, NewHub]
  have hc : stateFull.hub.connections "c-1" = some conn₁ := by
    simp only [stateFull, stateOne, Function.update_same]
  have hopen : (stateFull.chans conn₁.send).closed = false := by
    simp only [stateFull, conn₁, Function.update_same]
  have hfull : (stateFull.chans conn₁.send).buf.length = (stateFull.chans conn₁.send).cap := by
    simp only [stateFull, conn₁, Function.update_same, List.length_replicate, sendCapacity]
  have hev := (management_status_codes stateFull "c-1" (some [112])).2.2.2.2.2 [112] conn₁ hc
    rfl hopen hfull
  obtain ⟨_, s', hrun, hgone, _⟩ := hev
  exact ⟨⟨h1, (management_status_codes stateFull "c-1" (some [112])).2.2.2.1 [112] h1 rfl⟩,
    ⟨h1, (management_status_codes stateFull "c-1" none).2.2.1 h1 rfl⟩,
    ⟨h9, (management_status_codes stateFull "c-9" (some [112])).2.1 h9⟩,
    ⟨hc, hopen, hfull, s', hrun, hgone⟩⟩

/-! ## The callbacks of a run -/

theorem listens_append (es fs : List Event) : listens (es ++ fs) = listens es ++ listens fs := by
  simp only [listens, List.filterMap_append]

theorem listens_cons (e : Event) (rest : List Event) :
    listens (e :: rest) = listens [e] ++ listens rest :=
  listens_append [e] rest

theorem step_calls (s s' : State) (e : Event) (calls : List Call)
    (h : step s e = .ok (s', calls)) :
    calls = callsOf s.hub.listeners e ∧ s'.hub.listeners = s.hub.listeners ++ listens [e] := by
  cases e with
  | listen l =>
    simp only [step, Except.ok.injEq, Prod.mk.injEq] at h
    obtain ⟨rfl, rfl⟩ := h
    exact ⟨rfl, rfl⟩
  | register c =>
    simp only [step, Except.ok.injEq, Prod.mk.injEq] at h
    obtain ⟨rfl, rfl⟩ := h
    exact ⟨rfl, by simp [listens]⟩
  | unregister c =>
    simp only [step] at h
    cases hm : s.hub.connections c.ID with
    | none =>
      simp only [hm, Except.ok.injEq, Prod.mk.injEq] at h
      obtain ⟨rfl, rfl⟩ := h
      exact ⟨rfl, by simp [listens]⟩
    | some c' =>
      simp only [hm] at h
      cases hcl : (s.chans c.send).close with
      | error p => simp [hcl] at h
      | ok ch =>
        simp only [hcl, Except.ok.injEq, Prod.mk.injEq] at h
        obtain ⟨rfl, rfl⟩ := h
        exact ⟨rfl, by simp [listens]⟩
  | inbound m =>
    cases m with
    | none =>
      simp only [step, Except.ok.injEq, Prod.mk.injEq] at h
      obtain ⟨rfl, rfl⟩ := h
      exact ⟨rfl, by simp [listens]⟩
    | some m =>
      simp only [step, Except.ok.injEq, Prod.mk.injEq] at h
      obtain ⟨rfl, rfl⟩ := h
      exact ⟨rfl, by simp [listens]⟩
  | outbound m =>
    simp only [step] at h
    cases hm : s.hub.connections m.ConnectionID with
    | none =>
      simp only [hm, Except.ok.injEq, Prod.mk.injEq] at h
      obtain ⟨rfl, rfl⟩ := h
      exact ⟨rfl, by simp [listens]⟩
    | some c =>
      simp only [hm] at h
      cases hts : (s.chans c.send).trySend m.Data with
      | error p => simp [hts] at h
      | ok r =>
        cases r with
        | some ch =>
          simp only [hts, Except.ok.injEq, Prod.mk.injEq] at h
          obtain ⟨rfl, rfl⟩ := h
          exact ⟨rfl, by simp [listens]⟩
        | none =>
          simp only [hts] at h
          cases hcl : (s.chans c.send).close with
          | error p => simp [hcl] at h
          | ok ch =>
            simp only [hcl, Except.ok.injEq, Prod.mk.injEq] at h
            obtain ⟨rfl, rfl⟩ := h
            exact ⟨rfl, by simp [listens]⟩

/-- The callbacks of a run that does not panic are those of `hubCalls`, and the listener
list grows by the listeners of the listen events. -/
theorem Run_calls (evs : List Event) :
    ∀ (s s' : State) (calls : List Call), Run s evs = .ok (s', calls) →
      calls = hubCalls s.hub.listeners evs
      ∧ s'.hub.listeners = s.hub.listeners ++ listens evs := by
  induction evs with
  | nil =>
    intro s s' calls h
    simp only [Run, Except.ok.injEq, Prod.mk.injEq] at h
    obtain ⟨rfl, rfl⟩ := h
    exact ⟨rfl, by simp [listens]⟩
  | cons e rest ih =>
    intro s s' calls h
    rw [Run_cons] at h
    cases hs : step s e with
    | error p => simp [hs] at h
    | ok r =>
      obtain ⟨s₁, calls₁⟩ := r
      simp only [hs] at h
      cases hr : Run s₁ rest with
      | error p => simp [hr] at h
      | ok r' =>
        obtain ⟨s₂, calls₂⟩ := r'
        simp only [hr, Except.ok.injEq, Prod.mk.injEq] at h
        obtain ⟨rfl, rfl⟩ := h
        obtain ⟨hc1, hl1⟩ := step_calls s s₁ e calls₁ hs
        obtain ⟨hc2, hl2⟩ := ih s₁ s₂ calls₂ hr
        refine ⟨?_, ?_⟩
        · rw [hc1, hc2, hl1]
          rfl
        · rw [hl2, hl1, listens_cons e rest, List.append_assoc]

theorem hubCalls_append (es fs : List Event) :
    ∀ ls : List Listener,
      hubCalls ls (es ++ fs) = hubCalls ls es ++ hubCalls (ls ++ listens es) fs := by
  induction es with
  | nil =>
    intro ls
    simp [hubCalls, listens]
  | cons e rest ih =>
    intro ls
    rw [listens_cons e rest, List.cons_append]
    show callsOf ls e ++ hubCalls (ls ++ listens [e]) (rest ++ fs)
      = callsOf ls e ++ hubCalls (ls ++ listens [e]) rest
          ++ hubCalls (ls ++ (listens [e] ++ listens rest)) fs
    rw [ih, List.append_assoc, List.append_assoc]

theorem mem_fireConnect (l : Listener) (c c' : Connection) (ls : List Listener) :
    Call.onConnect l c ∈ fireConnect c' ls ↔ c = c' ∧ l ∈ ls ∧ l.OnConnect.isSome = true := by
  rw [fireConnect_eq]
  simp only [List.mem_map, List.mem_filter, Call.onConnect.injEq]
  constructor
  · rintro ⟨a, ⟨ha, hs⟩, rfl, rfl⟩
    exact ⟨rfl, ha, hs⟩
  · rintro ⟨rfl, hl, hs⟩
    exact ⟨l, ⟨hl, hs⟩, rfl, rfl⟩

theorem mem_fireDisconnect (l : Listener) (c c' : Connection) (ls : List Listener) :
    Call.onDisconnect l c ∈ fireDisconnect c' ls
      ↔ c = c' ∧ l ∈ ls ∧ l.OnDisconnect.isSome = true := by
  rw [fireDisconnect_eq]
  simp only [List.mem_map, List.mem_filter, Call.onDisconnect.injEq]
  constructor
  · rintro ⟨a, ⟨ha, hs⟩, rfl, rfl⟩
    exact ⟨rfl, ha, hs⟩
  · rintro ⟨rfl, hl, hs⟩
    exact ⟨l, ⟨hl, hs⟩, rfl, rfl⟩

theorem mem_fireMessage (l : Listener) (m m' : Msg) (ls : List Listener) :
    Call.onMessage l m ∈ fireMessage m' ls ↔ m = m' ∧ l ∈ ls ∧ l.OnMessage.isSome = true := by
  rw [fireMessage_eq]
  simp only [List.mem_map, List.mem_filter, Call.onMessage.injEq]
  constructor
  · rintro ⟨a, ⟨ha, hs⟩, rfl, rfl⟩
    exact ⟨rfl, ha, hs⟩
  · rintro ⟨rfl, hl, hs⟩
    exact ⟨l, ⟨hl, hs⟩, rfl, rfl⟩

theorem onDisconnect_mem_callsOf (l : Listener) (c : Connection) (ls : List Listener)
    (e : Event) (h : Call.onDisconnect l c ∈ callsOf ls e) : e = Event.unregister c := by
  cases e with
  | listen l' => simp [callsOf] at h
  | register c' =>
    simp only [callsOf, fireConnect_eq, List.mem_map] at h
    obtain ⟨_, _, h⟩ := h
    cases h
  | unregister c' =>
    simp only [callsOf] at h
    rw [((mem_fireDisconnect l c c' ls).1 h).1]
  | inbound m =>
    cases m with
    | none => simp [callsOf] at h
    | some m =>
      simp only [callsOf, fireMessage_eq, List.mem_map] at h
      obtain ⟨_, _, h⟩ := h
      cases h
  | outbound m => simp [callsOf] at h

theorem onDisconnect_mem_hubCalls (l : Listener) (c : Connection) (evs : List Event) :
    ∀ ls : List Listener, Call.onDisconnect l c ∈ hubCalls ls evs →
      Event.unregister c ∈ evs := by
  induction evs with
  | nil =>
    intro ls h
    simp [hubCalls] at h
  | cons e rest ih =>
    intro ls h
    simp only [hubCalls, List.mem_append] at h
    rcases h with h | h
    · rw [onDisconnect_mem_callsOf l c ls e h]
      exact List.mem_cons_self _ _
    · exact List.mem_cons_of_mem _ (ih _ h)

/-! ## The lifecycle of `HasConnection` -/

/-- An entry of the connection map after a step was there before the step, or the step
registered it. -/
theorem step_map_entry (s s' : State) (e : Event) (calls : List Call)
    (h : step s e = .ok (s', calls)) (id : String) (c : Connection)
    (hc : s'.hub.connections id = some c) :
    s.hub.connections id = some c ∨ (e = Event.register c ∧ c.ID = id) := by
  have hupd : ∀ (k : String), Function.update s.hub.connections k none id = some c →
      s.hub.connections id = some c := by
    intro k hk
    by_cases hik : id = k
    · subst hik
      simp only [Function.update_same] at hk
      cases hk
    · simpa only [Function.update_noteq hik] using hk
  cases e with
  | listen l =>
    simp only [step, Except.ok.injEq, Prod.mk.injEq] at h
    obtain ⟨rfl, _⟩ := h
    exact Or.inl hc
  | register c' =>
    simp only [step, Except.ok.injEq, Prod.mk.injEq] at h
    obtain ⟨rfl, _⟩ := h
    by_cases hik : id = c'.ID
    · subst hik
      simp only [Function.update_same, Option.some.injEq] at hc
      subst hc
      exact Or.inr ⟨rfl, rfl⟩
    · simp only [Function.update_noteq hik] at hc
      exact Or.inl hc
  | unregister c' =>
    simp only [step] at h
    cases hm : s.hub.connections c'.ID with
    | none =>
      simp only [hm, Except.ok.injEq, Prod.mk.injEq] at h
      obtain ⟨rfl, _⟩ := h
      exact Or.inl hc
    | some c'' =>
      simp only [hm] at h
      cases hcl : (s.chans c'.send).close with
      | error p => simp [hcl] at h
      | ok ch =>
        simp only [hcl, Except.ok.injEq, Prod.mk.injEq] at h
        obtain ⟨rfl, _⟩ := h
        exact Or.inl (hupd _ hc)
  | inbound m =>
    cases m with
    | none =>
      simp only [step, Except.ok.injEq, Prod.mk.injEq] at h
      obtain ⟨rfl, _⟩ := h
      exact Or.inl hc
    | some m =>
      simp only [step, Except.ok.injEq, Prod.mk.injEq] at h
      obtain ⟨rfl, _⟩ := h
      exact Or.inl hc
  | outbound m =>
    simp only [step] at h
    cases hm : s.hub.connections m.ConnectionID with
    | none =>
      simp only [hm, Except.ok.injEq, Prod.mk.injEq] at h
      obtain ⟨rfl, _⟩ := h
      exact Or.inl hc
    | some c₀ =>
      simp only [hm] at h
      cases hts : (s.chans c₀.send).trySend m.Data with
      | error p => simp [hts] at h
      | ok r =>
        cases r with
        | some ch =>
          simp only [hts, Except.ok.injEq, Prod.mk.injEq] at h
          obtain ⟨rfl, _⟩ := h
          exact Or.inl hc
        | none =>
          simp only [hts] at h
          cases hcl : (s.chans c₀.send).close with
          | error p => simp [hcl] at h
          | ok ch =>
            simp only [hcl, Except.ok.injEq, Prod.mk.injEq] at h
            obtain ⟨rfl, _⟩ := h
            exact Or.inl (hupd _ hc)

/-- After an unregister of `c` no connection is in the map under the id of `c`. -/
theorem step_unregister_removes (s s' : State) (c : Connection) (calls : List Call)
    (h : step s (Event.unregister c) = .ok (s', calls)) :
    s'.hub.connections c.ID = none := by
  simp only [step] at h
  cases hm : s.hub.connections c.ID with
  | none =>
    simp only [hm, Except.ok.injEq, Prod.mk.injEq] at h
    obtain ⟨rfl, _⟩ := h
    exact hm
  | some c' =>
    simp only [hm] at h
    cases hcl : (s.chans c.send).close with
    | error p => simp [hcl] at h
    | ok ch =>
      simp only [hcl, Except.ok.injEq, Prod.mk.injEq] at h
      obtain ⟨rfl, _⟩ := h
      simp only [Function.update_same]

/-- An entry of the connection map that a step removes is removed by an unregister of that
id or by the default branch of the outbound case. -/
theorem step_map_removal (s s' : State) (e : Event) (calls : List Call)
    (h : step s e = .ok (s', calls)) (id : String) (c : Connection)
    (hc : s.hub.connections id = some c) (hgone : s'.hub.connections id = none) :
    (∃ c' : Connection, e = Event.unregister c' ∧ c'.ID = id)
    ∨ (∃ (m : Msg) (c₀ : Connection), e = Event.outbound m
        ∧ s.hub.connections m.ConnectionID = some c₀ ∧ c₀.ID = id
        ∧ (s.chans c₀.send).trySend m.Data = .ok none) := by
  have hupd : ∀ (k : String), Function.update s.hub.connections k none id = none → k = id := by
    intro k hk
    by_contra hne
    have hne' : id ≠ k := fun h => hne h.symm
    rw [Function.update_noteq hne', hc] at hk
    cases hk
  cases e with
  | listen l =>
    simp only [step, Except.ok.injEq, Prod.mk.injEq] at h
    obtain ⟨rfl, _⟩ := h
    rw [hc] at hgone
    cases hgone
  | register c' =>
    simp only [step, Except.ok.injEq, Prod.mk.injEq] at h
    obtain ⟨rfl, _⟩ := h
    by_cases hik : id = c'.ID
    · subst hik
      simp only [Function.update_same] at hgone
      cases hgone
    · simp only [Function.update_noteq hik] at hgone
      rw [hc] at hgone
      cases hgone
  | unregister c' =>
    simp only [step] at h
    cases hm : s.hub.connections c'.ID with
    | none =>
      simp only [hm, Except.ok.injEq, Prod.mk.injEq] at h
      obtain ⟨rfl, _⟩ := h
      rw [hc] at hgone
      cases hgone
    | some c'' =>
      simp only [hm] at h
      cases hcl : (s.chans c'.send).close with
      | error p => simp [hcl] at h
      | ok ch =>
        simp only [hcl, Except.ok.injEq, Prod.mk.injEq] at h
        obtain ⟨rfl, _⟩ := h
        exact Or.inl ⟨c', rfl, hupd _ hgone⟩
  | inbound m =>
    cases m with
    | none =>
      simp only [step, Except.ok.injEq, Prod.mk.injEq] at h
      obtain ⟨rfl, _⟩ := h
      rw [hc] at hgone
      cases hgone
    | some m =>
      simp only [step, Except.ok.injEq, Prod.mk.injEq] at h
      obtain ⟨rfl, _⟩ := h
      rw [hc] at hgone
      cases hgone
  | outbound m =>
    simp only [step] at h
    cases hm : s.hub.connections m.ConnectionID with
    | none =>
      simp only [hm, Except.ok.injEq, Prod.mk.injEq] at h
      obtain ⟨rfl, _⟩ := h
      rw [hc] at hgone
      cases hgone
    | some c₀ =>
      simp only [hm] at h
      cases hts : (s.chans c₀.send).trySend m.Data with
      | error p => simp [hts] at h
      | ok r =>
        cases r with
        | some ch =>
          simp only [hts, Except.ok.injEq, Prod.mk.injEq] at h
          obtain ⟨rfl, _⟩ := h
          rw [hc] at hgone
          cases hgone
        | none =>
          simp only [hts] at h
          cases hcl : (s.chans c₀.send).close with
          | error p => simp [hcl] at h
          | ok ch =>
            simp only [hcl, Except.ok.injEq, Prod.mk.injEq] at h
            obtain ⟨rfl, _⟩ := h
            exact Or.inr ⟨m, c₀, rfl, hm, hupd _ hgone, hts⟩

theorem HasConnection_true_iff (h : Hub) (id : String) :
    h.HasConnection id = true ↔ ∃ c, h.connections id = some c := by
  unfold Hub.HasConnection
  cases h.connections id with
  | none => simp
  | some c => simp

theorem HasConnection_false_iff (h : Hub) (id : String) :
    h.HasConnection id = false ↔ h.connections id = none := by
  unfold Hub.HasConnection
  cases h.connections id with
  | none => simp
  | some c => simp

/-- Under the invariant, `HasConnection` on the id of a connection of `cs` says that this
connection is in the map. -/
theorem HasConnection_iff_inMap (cs : List Connection) (evs : List Event) (s : State)
    (hid : ∀ c₁ ∈ cs, ∀ c₂ ∈ cs, c₁.ID = c₂.ID → c₁ = c₂)
    (hcs : ∀ c ∈ registered evs, c ∈ cs) (hinv : HubInv cs evs s)
    (c : Connection) (hc : c ∈ cs) :
    s.hub.HasConnection c.ID = true ↔ s.inMap c := by
  rw [HasConnection_true_iff]
  constructor
  · rintro ⟨c', hc'⟩
    obtain ⟨h1, h2⟩ := hinv.1 _ _ hc'
    have : c' = c := hid c' (hcs c' h2) c hc h1
    subst this
    exact hc'
  · intro h
    exact ⟨c, h⟩

/-! ## The values a connection sends to the hub -/

theorem readLoop_mem (c : Connection) (reads : List ReadResult) :
    ∀ e ∈ readLoop c reads,
      e = Event.unregister c ∨ ∃ d, e = Event.inbound (some ⟨c.ID, d⟩) := by
  induction reads with
  | nil =>
    intro e h
    simp [readLoop] at h
  | cons r rest ih =>
    intro e h
    cases r with
    | error =>
      simp only [readLoop, List.mem_singleton] at h
      exact Or.inl h
    | message p =>
      simp only [readLoop, List.mem_cons] at h
      rcases h with h | h
      · exact Or.inr ⟨_, h⟩
      · exact ih e h

theorem readLoop_unregister_last (c c' : Connection) (reads : List ReadResult) :
    ∀ A B : List Event, readLoop c reads = A ++ Event.unregister c' :: B → B = [] := by
  induction reads with
  | nil =>
    intro A B h
    simp [readLoop] at h
  | cons r rest ih =>
    intro A B h
    cases r with
    | error =>
      simp only [readLoop] at h
      cases A with
      | nil =>
        simp only [List.nil_append, List.cons.injEq] at h
        exact h.2.symm
      | cons a A' =>
        simp only [List.cons_append, List.cons.injEq] at h
        have := h.2
        simp at this
    | message p =>
      simp only [readLoop] at h
      cases A with
      | nil =>
        simp only [List.nil_append, List.cons.injEq] at h
        cases h.1
      | cons a A' =>
        simp only [List.cons_append, List.cons.injEq] at h
        exact ih A' B h.2

theorem readLoop_count_unregister (c c' : Connection) (reads : List ReadResult) :
    (readLoop c reads).count (Event.unregister c') ≤ 1 := by
  induction reads with
  | nil => simp [readLoop]
  | cons r rest ih =>
    cases r with
    | error =>
      simp only [readLoop]
      exact (List.count_le_length _ _).trans (by simp)
    | message p =>
      simp only [readLoop]
      rw [List.count_cons_of_ne (by intro he; cases he)]
      exact ih

/-- What a connection sends to the hub: first its register, then inbound messages with its
id, and its unregister only as the last value and at most once. -/
theorem connectionEvents_shape (c : Connection) (ok : Bool) (reads : List ReadResult) :
    (∃ tail : List Event, connectionEvents c ok reads = Event.register c :: tail
      ∧ (∀ e ∈ tail, e = Event.unregister c ∨ ∃ d, e = Event.inbound (some ⟨c.ID, d⟩)))
    ∧ (∀ (c' : Connection) (A B : List Event),
        connectionEvents c ok reads = A ++ Event.unregister c' :: B → B = [])
    ∧ (∀ c' : Connection, (connectionEvents c ok reads).count (Event.unregister c') ≤ 1)
    ∧ (∀ c' : Connection, (connectionEvents c ok reads).count (Event.register c') ≤ 1) := by
  have hmem : ∀ e ∈ readPump c ok reads,
      e = Event.unregister c ∨ ∃ d, e = Event.inbound (some ⟨c.ID, d⟩) := by
    intro e he
    cases ok with
    | true => exact readLoop_mem c reads e (by simpa [readPump] using he)
    | false =>
      simp only [readPump, Bool.false_eq_true, if_false, List.mem_singleton] at he
      exact Or.inl he
  have hlast : ∀ (c' : Connection) (A B : List Event),
      readPump c ok reads = A ++ Event.unregister c' :: B → B = [] := by
    intro c' A B h
    cases ok with
    | true => exact readLoop_unregister_last c c' reads A B (by simpa [readPump] using h)
    | false =>
      simp only [readPump, Bool.false_eq_true, if_false] at h
      cases A with
      | nil =>
        simp only [List.nil_append, List.cons.injEq] at h
        exact h.2.symm
      | cons a A' =>
        simp only [List.cons_append, List.cons.injEq] at h
        have := h.2
        simp at this
  have hcount : ∀ c' : Connection, (readPump c ok reads).count (Event.unregister c') ≤ 1 := by
    intro c'
    cases ok with
    | true => simpa [readPump] using readLoop_count_unregister c c' reads
    | false =>
      simp only [readPump, Bool.false_eq_true, if_false]
      exact (List.count_le_length _ _).trans (by simp)
  have hser : connectionEvents c ok reads = Event.register c :: readPump c ok reads := rfl
  refine ⟨⟨readPump c ok reads, hser, hmem⟩, ?_, ?_, ?_⟩
  · intro c' A B h
    rw [hser] at h
    cases A with
    | nil =>
      simp only [List.nil_append, List.cons.injEq] at h
      cases h.1
    | cons a A' =>
      simp only [List.cons_append, List.cons.injEq] at h
      exact hlast c' A' B h.2
  · intro c'
    rw [hser, List.count_cons_of_ne (by intro he; cases he)]
    exact hcount c'
  · intro c'
    rw [hser]
    have hnone : (readPump c ok reads).count (Event.register c') = 0 := by
      rw [List.count_eq_zero]
      intro hin
      rcases hmem _ hin with h | ⟨d, h⟩ <;> cases h
    rw [List.count_cons, hnone]
    split <;> simp

theorem count_registered (c : Connection) (evs : List Event) :
    (registered evs).count c = evs.count (Event.register c) := by
  induction evs with
  | nil => rfl
  | cons e rest ih =>
    have hcons : registered (e :: rest) = registered [e] ++ registered rest :=
      registered_append [e] rest
    rw [hcons, List.count_append, ih, List.count_cons]
    cases e with
    | register c' =>
      by_cases h : c' = c
      · subst h
        simp [registered]
        omega
      · have h' : ¬ c = c' := fun h'' => h h''.symm
        simp [registered, h, h']
    | listen l => simp [registered]
    | unregister c' => simp [registered]
    | inbound m => simp [registered]
    | outbound m => simp [registered]

/-- The values for the id of a connection of `cs`, in a trace produced for `cs`, begin with
the register of that connection, when there are any. -/
theorem ProducedBy_head (cs : List Connection) (evs : List Event) (h : ProducedBy cs evs)
    (c : Connection) (hc : c ∈ cs) (p q : List Event) (e : Event)
    (hsplit : evs = p ++ e :: q) (he : e.forConnection c.ID = true)
    (hne : e ≠ Event.register c) :
    Event.register c ∈ p
    ∧ (∀ c' : Connection, (∃ d, e = Event.inbound (some d)) → Event.unregister c' ∈ p →
        c'.ID ≠ c.ID) := by
  obtain ⟨ok, reads, hpre⟩ := h.1 c hc
  obtain ⟨⟨tail, hshape, _⟩, hlast, _, _⟩ := connectionEvents_shape c ok reads
  have hF : evs.filter (Event.forConnection c.ID)
      = p.filter (Event.forConnection c.ID) ++ e :: q.filter (Event.forConnection c.ID) := by
    rw [hsplit, List.filter_append, List.filter_cons, he]
    rfl
  rw [hF] at hpre
  obtain ⟨t, ht⟩ := hpre
  constructor
  · cases hp : p.filter (Event.forConnection c.ID) with
    | nil =>
      rw [hp, hshape] at ht
      simp only [List.nil_append, List.cons_append, List.cons.injEq] at ht
      exact absurd ht.1 hne
    | cons x r =>
      rw [hp, hshape] at ht
      simp only [List.cons_append, List.cons.injEq] at ht
      have hx : x ∈ p.filter (Event.forConnection c.ID) := by
        rw [hp]
        exact List.mem_cons_self _ _
      rw [ht.1] at hx
      exact (List.mem_filter.1 hx).1
  · rintro c' ⟨d, hd⟩ hun hidc
    have hun' : Event.unregister c' ∈ p.filter (Event.forConnection c.ID) := by
      refine List.mem_filter.2 ⟨hun, ?_⟩
      simp only [Event.forConnection, beq_iff_eq]
      exact hidc
    obtain ⟨A, B, hAB⟩ := List.append_of_mem hun'
    rw [hAB] at ht
    have : connectionEvents c ok reads
        = A ++ Event.unregister c' :: (B ++ e :: q.filter (Event.forConnection c.ID) ++ t) := by
      rw [← ht]
      simp only [List.append_assoc, List.cons_append]
    have hnil := hlast c' A _ this
    simp at hnil

/-- What a trace produced by `serveWS` and the reader pumps satisfies: only connections of `cs` are registered and unregistered, each is
registered at most once and unregistered at most once and only after its register, and an
inbound message comes after the register of its connection and before its unregister. -/
theorem ProducedBy_admissible (cs : List Connection) (evs : List Event)
    (h : ProducedBy cs evs) :
    (∀ c, Event.register c ∈ evs → c ∈ cs)
    ∧ (∀ c, Event.unregister c ∈ evs → c ∈ cs)
    ∧ (registered evs).Nodup
    ∧ (∀ p c q, evs = p ++ Event.unregister c :: q → Event.register c ∈ p)
    ∧ (∀ c, evs.count (Event.unregister c) ≤ 1)
    ∧ (∀ p m q, evs = p ++ Event.inbound (some m) :: q →
        ∃ c ∈ cs, c.ID = m.ConnectionID ∧ Event.register c ∈ p
          ∧ ∀ c' : Connection, Event.unregister c' ∈ p → c'.ID ≠ m.ConnectionID) := by
  have hin : ∀ (c : Connection) (e : Event), c ∈ cs → e ∈ evs →
      e.forConnection c.ID = true →
      e = Event.register c ∨ e = Event.unregister c
        ∨ ∃ d, e = Event.inbound (some ⟨c.ID, d⟩) := by
    intro c e hc he hfor
    obtain ⟨ok, reads, hpre⟩ := h.1 c hc
    obtain ⟨⟨tail, hshape, htail⟩, _⟩ := connectionEvents_shape c ok reads
    have hmem : e ∈ connectionEvents c ok reads :=
      hpre.subset (List.mem_filter.2 ⟨he, hfor⟩)
    rw [hshape, List.mem_cons] at hmem
    rcases hmem with hm | hm
    · exact Or.inl hm
    · exact Or.inr (htail e hm)
  have hreg : ∀ c, Event.register c ∈ evs → c ∈ cs := by
    intro c' hmem
    rcases h.2 _ hmem with ⟨l, hl⟩ | ⟨m, hm⟩ | ⟨c, hc, hfor⟩
    · cases hl
    · cases hm
    · rcases hin c _ hc hmem hfor with h1 | h1 | ⟨d, h1⟩
      · cases h1
        exact hc
      · cases h1
      · cases h1
  have hunreg : ∀ c, Event.unregister c ∈ evs → c ∈ cs := by
    intro c' hmem
    rcases h.2 _ hmem with ⟨l, hl⟩ | ⟨m, hm⟩ | ⟨c, hc, hfor⟩
    · cases hl
    · cases hm
    · rcases hin c _ hc hmem hfor with h1 | h1 | ⟨d, h1⟩
      · cases h1
      · cases h1
        exact hc
      · cases h1
  have hcount : ∀ (c : Connection) (e : Event), c ∈ cs → e.forConnection c.ID = true →
      (∀ ok reads, (connectionEvents c ok reads).count e ≤ 1) → evs.count e ≤ 1 := by
    intro c e hc hfor hle
    obtain ⟨ok, reads, hpre⟩ := h.1 c hc
    have h1 : (evs.filter (Event.forConnection c.ID)).count e = evs.count e :=
      List.count_filter hfor
    rw [← h1]
    exact (hpre.sublist.count_le e).trans (hle ok reads)
  refine ⟨hreg, hunreg, ?_, ?_, ?_, ?_⟩
  · rw [List.nodup_iff_count_le_one]
    intro c
    rw [count_registered]
    by_cases hmem : Event.register c ∈ evs
    · exact hcount c _ (hreg c hmem) (by simp [Event.forConnection])
        (fun ok reads => (connectionEvents_shape c ok reads).2.2.2 c)
    · rw [List.count_eq_zero.2 hmem]
      exact Nat.zero_le _
  · intro p c q hsplit
    have hc : c ∈ cs := hunreg c (by rw [hsplit]; simp)
    exact (ProducedBy_head cs evs h c hc p q _ hsplit (by simp [Event.forConnection])
      (by intro he; cases he)).1
  · intro c
    by_cases hmem : Event.unregister c ∈ evs
    · exact hcount c _ (hunreg c hmem) (by simp [Event.forConnection])
        (fun ok reads => (connectionEvents_shape c ok reads).2.2.1 c)
    · rw [List.count_eq_zero.2 hmem]
      exact Nat.zero_le _
  · intro p m q hsplit
    have hmem : Event.inbound (some m) ∈ evs := by rw [hsplit]; simp
    rcases h.2 _ hmem with ⟨l, hl⟩ | ⟨m', hm⟩ | ⟨c, hc, hfor⟩
    · cases hl
    · cases hm
    · have hidm : m.ConnectionID = c.ID := by
        simpa [Event.forConnection] using hfor
      obtain ⟨h1, h2⟩ := ProducedBy_head cs evs h c hc p q _ hsplit hfor
        (by intro he; cases he)
      refine ⟨c, hc, hidm.symm, h1, fun c' hun => ?_⟩
      rw [hidm]
      exact h2 c' ⟨m, rfl⟩ hun

/-! ## Counting the callbacks of a connection -/

theorem onConnect_mem_callsOf (l : Listener) (c : Connection) (ls : List Listener)
    (e : Event) (h : Call.onConnect l c ∈ callsOf ls e) : e = Event.register c := by
  cases e with
  | listen l' => simp [callsOf] at h
  | register c' =>
    simp only [callsOf] at h
    rw [((mem_fireConnect l c c' ls).1 h).1]
  | unregister c' =>
    simp only [callsOf, fireDisconnect_eq, List.mem_map] at h
    obtain ⟨_, _, h⟩ := h
    cases h
  | inbound m =>
    cases m with
    | none => simp [callsOf] at h
    | some m =>
      simp only [callsOf, fireMessage_eq, List.mem_map] at h
      obtain ⟨_, _, h⟩ := h
      cases h
  | outbound m => simp [callsOf] at h

theorem onConnect_mem_hubCalls (l : Listener) (c : Connection) (evs : List Event) :
    ∀ ls : List Listener, Call.onConnect l c ∈ hubCalls ls evs →
      Event.register c ∈ evs := by
  induction evs with
  | nil =>
    intro ls h
    simp [hubCalls] at h
  | cons e rest ih =>
    intro ls h
    simp only [hubCalls, List.mem_append] at h
    rcases h with h | h
    · rw [onConnect_mem_callsOf l c ls e h]
      exact List.mem_cons_self _ _
    · exact List.mem_cons_of_mem _ (ih _ h)

theorem count_fireConnect (l : Listener) (c : Connection) (ls : List Listener)
    (hon : l.OnConnect.isSome = true) :
    (fireConnect c ls).count (Call.onConnect l c) = ls.count l := by
  rw [fireConnect_eq]
  have hinj : Function.Injective (fun l : Listener => Call.onConnect l c) := by
    intro a b hab
    cases hab
    rfl
  rw [List.count_map_of_injective _ _ hinj]
  exact List.count_filter hon

theorem count_fireDisconnect (l : Listener) (c : Connection) (ls : List Listener)
    (hoff : l.OnDisconnect.isSome = true) :
    (fireDisconnect c ls).count (Call.onDisconnect l c) = ls.count l := by
  rw [fireDisconnect_eq]
  have hinj : Function.Injective (fun l : Listener => Call.onDisconnect l c) := by
    intro a b hab
    cases hab
    rfl
  rw [List.count_map_of_injective _ _ hinj]
  exact List.count_filter hoff

theorem hubCalls_split (ls : List Listener) (a r : List Event) (e : Event) :
    hubCalls ls (a ++ e :: r)
      = hubCalls ls a ++ (callsOf (ls ++ listens a) e
          ++ hubCalls (ls ++ listens a ++ listens [e]) r) := by
  rw [hubCalls_append]
  rfl

/-- The `OnConnect` calls of a listener for a connection that is registered once. -/
theorem count_onConnect_hubCalls (ls : List Listener) (a r : List Event) (l : Listener)
    (c : Connection) (hon : l.OnConnect.isSome = true)
    (ha : Event.register c ∉ a) (hr : Event.register c ∉ r) :
    (hubCalls ls (a ++ Event.register c :: r)).count (Call.onConnect l c)
      = (ls ++ listens a).count l := by
  rw [hubCalls_split, List.count_append, List.count_append]
  have h1 : (hubCalls ls a).count (Call.onConnect l c) = 0 :=
    List.count_eq_zero.2 (fun h => ha (onConnect_mem_hubCalls l c a ls h))
  have h2 : (hubCalls (ls ++ listens a ++ listens [Event.register c]) r).count
      (Call.onConnect l c) = 0 :=
    List.count_eq_zero.2 (fun h => hr (onConnect_mem_hubCalls l c r _ h))
  rw [h1, h2]
  simp only [callsOf, count_fireConnect l c _ hon, Nat.zero_add, Nat.add_zero]

/-- The `OnDisconnect` calls of a listener for a connection that is unregistered once. -/
theorem count_onDisconnect_hubCalls (ls : List Listener) (a r : List Event) (l : Listener)
    (c : Connection) (hoff : l.OnDisconnect.isSome = true)
    (ha : Event.unregister c ∉ a) (hr : Event.unregister c ∉ r) :
    (hubCalls ls (a ++ Event.unregister c :: r)).count (Call.onDisconnect l c)
      = (ls ++ listens a).count l := by
  rw [hubCalls_split, List.count_append, List.count_append]
  have h1 : (hubCalls ls a).count (Call.onDisconnect l c) = 0 :=
    List.count_eq_zero.2 (fun h => ha (onDisconnect_mem_hubCalls l c a ls h))
  have h2 : (hubCalls (ls ++ listens a ++ listens [Event.unregister c]) r).count
      (Call.onDisconnect l c) = 0 :=
    List.count_eq_zero.2 (fun h => hr (onDisconnect_mem_hubCalls l c r _ h))
  rw [h1, h2]
  simp only [callsOf, count_fireDisconnect l c _ hoff, Nat.zero_add, Nat.add_zero]

theorem filter_outbound (id id' : String) (xs : List Bytes) :
    (xs.map (fun x => Event.outbound ⟨id', x⟩)).filter (Event.forConnection id) = [] := by
  induction xs with
  | nil => rfl
  | cons x rest ih =>
    simp only [List.map_cons, List.filter_cons, Event.forConnection, Bool.false_eq_true,
      if_false]
    exact ih

theorem listens_outbound (id' : String) (xs : List Bytes) :
    listens (xs.map (fun x => Event.outbound ⟨id', x⟩)) = [] := by
  induction xs with
  | nil => rfl
  | cons x rest ih =>
    rw [List.map_cons, listens_cons, ih]
    rfl

theorem evictionTrace_produced : ProducedBy [conn₁] evictionTrace := by
  constructor
  · intro c hc
    simp only [List.mem_singleton] at hc
    subst hc
    refine ⟨true, [ReadResult.error], ?_⟩
    have hfilter : evictionTrace.filter (Event.forConnection conn₁.ID)
        = [Event.register conn₁, Event.unregister conn₁] := by
      simp only [evictionTrace, List.filter_cons, List.filter_append, filter_outbound,
        Event.forConnection, List.nil_append]
      rfl
    rw [hfilter]
    exact List.prefix_refl _
  · intro e he
    simp only [evictionTrace, List.mem_cons, List.mem_append, List.mem_map,
      List.mem_singleton] at he
    rcases he with rfl | rfl | ⟨x, _, rfl⟩ | rfl | h
    · exact Or.inl ⟨_, rfl⟩
    · exact Or.inr (Or.inr ⟨conn₁, by simp, rfl⟩)
    · exact Or.inr (Or.inl ⟨_, rfl⟩)
    · exact Or.inr (Or.inr ⟨conn₁, by simp, rfl⟩)
    · exact absurd h (List.not_mem_nil _)

/-! ## The order of the callbacks of a connection -/

theorem onMessage_mem_callsOf (l : Listener) (m : Msg) (ls : List Listener)
    (e : Event) (h : Call.onMessage l m ∈ callsOf ls e) : e = Event.inbound (some m) := by
  cases e with
  | listen l' => simp [callsOf] at h
  | register c' =>
    simp only [callsOf, fireConnect_eq, List.mem_map] at h
    obtain ⟨_, _, h⟩ := h
    cases h
  | unregister c' =>
    simp only [callsOf, fireDisconnect_eq, List.mem_map] at h
    obtain ⟨_, _, h⟩ := h
    cases h
  | inbound m' =>
    cases m' with
    | none => simp [callsOf] at h
    | some m' =>
      simp only [callsOf] at h
      rw [((mem_fireMessage l m m' ls).1 h).1]
  | outbound m' => simp [callsOf] at h

/-- An `OnMessage` call in the callbacks of a run is made at an inbound value with that
message; the callbacks before it are those of the values before that inbound value, and
then `OnMessage` calls with the same message. -/
theorem onMessage_hubCalls_split (l : Listener) (m : Msg) (evs : List Event) :
    ∀ (ls : List Listener) (a b : List Call),
      hubCalls ls evs = a ++ Call.onMessage l m :: b →
      ∃ (p q : List Event) (x : List Call),
        evs = p ++ Event.inbound (some m) :: q
        ∧ a = hubCalls ls p ++ x
        ∧ (∀ k ∈ x, ∃ l' : Listener, k = Call.onMessage l' m) := by
  induction evs with
  | nil =>
    intro ls a b h
    simp [hubCalls] at h
  | cons e rest ih =>
    intro ls a b h
    have hcons : hubCalls ls (e :: rest)
        = callsOf ls e ++ hubCalls (ls ++ listens [e]) rest := rfl
    rw [hcons] at h
    have hrec : ∀ a' : List Call, a = callsOf ls e ++ a' →
        hubCalls (ls ++ listens [e]) rest = a' ++ Call.onMessage l m :: b →
        ∃ (p q : List Event) (x : List Call),
          e :: rest = p ++ Event.inbound (some m) :: q
          ∧ a = hubCalls ls p ++ x
          ∧ (∀ k ∈ x, ∃ l' : Listener, k = Call.onMessage l' m) := by
      intro a' ha hrest
      obtain ⟨p, q, x, hpq, hax, hx⟩ := ih _ a' b hrest
      refine ⟨e :: p, q, x, by rw [hpq]; rfl, ?_, hx⟩
      rw [ha, hax]
      show _ = (callsOf ls e ++ hubCalls (ls ++ listens [e]) p) ++ x
      rw [List.append_assoc]
    rcases List.append_eq_append_iff.1 h with ⟨a', ha, hrest⟩ | ⟨c', hce, hrest⟩
    · exact hrec a' ha hrest
    · cases c' with
      | nil =>
        simp only [List.nil_append] at hrest
        simp only [List.append_nil] at hce
        exact hrec [] (by rw [List.append_nil, hce]) (by rw [List.nil_append, hrest])
      | cons k c'' =>
        simp only [List.cons_append, List.cons.injEq] at hrest
        obtain ⟨hk, _⟩ := hrest
        subst hk
        have hmem : Call.onMessage l m ∈ callsOf ls e := by
          rw [hce]
          simp
        have he := onMessage_mem_callsOf l m ls e hmem
        subst he
        refine ⟨[], rest, a, rfl, by simp [hubCalls], fun k hk => ?_⟩
        have hk' : k ∈ callsOf ls (Event.inbound (some m)) := by
          rw [hce]
          exact List.mem_append_left _ hk
        simp only [callsOf, fireMessage_eq, List.mem_map] at hk'
        obtain ⟨l', _, hl'⟩ := hk'
        exact ⟨l', hl'.symm⟩

theorem onConnect_mem_of_registered (ls : List Listener) (p₁ p₂ : List Event)
    (l : Listener) (c : Connection) (hon : l.OnConnect.isSome = true)
    (hl : l ∈ ls ++ listens p₁) :
    Call.onConnect l c ∈ hubCalls ls (p₁ ++ Event.register c :: p₂) := by
  rw [hubCalls_split]
  apply List.mem_append_right
  apply List.mem_append_left
  simp only [callsOf]
  exact (mem_fireConnect l c c _).2 ⟨rfl, hl, hon⟩

theorem messageOnlyTrace_produced : ProducedBy [conn₁] messageOnlyTrace := by
  constructor
  · intro c hc
    simp only [List.mem_singleton] at hc
    subst hc
    refine ⟨true, [ReadResult.message [104, 105]], ?_⟩
    have hfilter : messageOnlyTrace.filter (Event.forConnection conn₁.ID)
        = [Event.register conn₁, Event.inbound (some ⟨"c-1", [104, 105]⟩)] := by decide
    have hevents : connectionEvents conn₁ true [ReadResult.message [104, 105]]
        = [Event.register conn₁, Event.inbound (some ⟨"c-1", [104, 105]⟩)] := by decide
    rw [hfilter, hevents]
  · intro e he
    simp only [messageOnlyTrace, List.mem_cons, List.mem_singleton] at he
    rcases he with rfl | rfl | rfl | h
    · exact Or.inl ⟨_, rfl⟩
    · exact Or.inr (Or.inr ⟨conn₁, by simp, rfl⟩)
    · exact Or.inr (Or.inr ⟨conn₁, by simp, rfl⟩)
    · exact absurd h (List.not_mem_nil _)

theorem lifecycleTrace_produced : ProducedBy [conn₁] lifecycleTrace := by
  constructor
  · intro c hc
    simp only [List.mem_singleton] at hc
    subst hc
    refine ⟨true, [ReadResult.message [104, 105], ReadResult.error], ?_⟩
    have hfilter : lifecycleTrace.filter (Event.forConnection conn₁.ID)
        = [Event.register conn₁, Event.inbound (some ⟨"c-1", [104, 105]⟩),
            Event.unregister conn₁] := by decide
    have hevents : connectionEvents conn₁ true
          [ReadResult.message [104, 105], ReadResult.error]
        = [Event.register conn₁, Event.inbound (some ⟨"c-1", [104, 105]⟩),
            Event.unregister conn₁] := by decide
    rw [hfilter, hevents]
  · intro e he
    simp only [lifecycleTrace, List.mem_cons, List.mem_singleton] at he
    rcases he with rfl | rfl | rfl | rfl | rfl | h
    · exact Or.inl ⟨_, rfl⟩
    · exact Or.inl ⟨_, rfl⟩
    · exact Or.inr (Or.inr ⟨conn₁, by simp, rfl⟩)
    · exact Or.inr (Or.inr ⟨conn₁, by simp, rfl⟩)
    · exact Or.inr (Or.inr ⟨conn₁, by simp, rfl⟩)
    · exact absurd h (List.not_mem_nil _)

/-! ## The hub together with the writer pumps -/

theorem RunWithPumps_cons (s : State) (a : Action) (rest : List Action) :
    RunWithPumps s (a :: rest)
      = match act s a with
        | .error p => .error p
        | .ok (s', calls) =>
          match RunWithPumps s' rest with
          | .error p => .error p
          | .ok (s'', calls') => .ok (s'', calls ++ calls') := rfl

theorem RunWithPumps_append (s : State) (es fs : List Action) :
    RunWithPumps s (es ++ fs)
      = match RunWithPumps s es with
        | .error p => .error p
        | .ok (s', calls) =>
          match RunWithPumps s' fs with
          | .error p => .error p
          | .ok (s'', calls') => .ok (s'', calls ++ calls') := by
  induction es generalizing s with
  | nil =>
    rw [List.nil_append]
    show _ = match RunWithPumps s fs with
      | .error p => .error p
      | .ok (s'', calls') => .ok (s'', [] ++ calls')
    cases RunWithPumps s fs with
    | error p => rfl
    | ok r => rfl
  | cons e rest ih =>
    rw [List.cons_append, RunWithPumps_cons, RunWithPumps_cons]
    cases act s e with
    | error p => rfl
    | ok r =>
      obtain ⟨s', calls⟩ := r
      simp only []
      rw [ih]
      cases RunWithPumps s' rest with
      | error p => rfl
      | ok r' =>
        obtain ⟨s'', calls'⟩ := r'
        simp only []
        cases RunWithPumps s'' fs with
        | error p => rfl
        | ok r'' => simp only [List.append_assoc]

/-- A run of the hub alone is a run with writer pumps that receive nothing. -/
theorem RunWithPumps_hub (evs : List Event) :
    ∀ s : State, RunWithPumps s (evs.map Action.hub) = Run s evs := by
  induction evs with
  | nil => intro s; rfl
  | cons e rest ih =>
    intro s
    rw [List.map_cons, RunWithPumps_cons, Run_cons]
    show (match step s e with
      | Except.error p => Except.error p
      | Except.ok (s', calls) =>
        match RunWithPumps s' (rest.map Action.hub) with
        | Except.error p => Except.error p
        | Except.ok (s'', calls') => Except.ok (s'', calls ++ calls')) = _
    cases step s e with
    | error p => rfl
    | ok r =>
      obtain ⟨s', calls⟩ := r
      simp only [ih]

theorem hubEvents_append (es fs : List Action) :
    hubEvents (es ++ fs) = hubEvents es ++ hubEvents fs := by
  simp only [hubEvents, List.filterMap_append]

theorem hubEvents_hub (evs : List Event) : hubEvents (evs.map Action.hub) = evs := by
  induction evs with
  | nil => rfl
  | cons e rest ih =>
    rw [List.map_cons]
    show e :: hubEvents (rest.map Action.hub) = e :: rest
    rw [ih]

/-- A receive from a send queue leaves the hub and the closed flag of every queue as they
were, calls no callback and does not panic. -/
theorem act_recv (s : State) (send : Nat) :
    ∃ s' : State, act s (Action.recv send) = .ok (s', [])
      ∧ s'.hub = s.hub
      ∧ (∀ h : Nat, (s'.chans h).closed = (s.chans h).closed)
      ∧ (∀ h : Nat, h ≠ send → s'.chans h = s.chans h) := by
  simp only [act, Chan.recv]
  cases hbuf : (s.chans send).buf with
  | nil =>
    by_cases hcl : (s.chans send).closed = true
    · simp only [hcl, if_true]
      refine ⟨_, rfl, rfl, fun h => ?_, fun h hne => ?_⟩
      · by_cases hh : h = send
        · subst hh
          simp only [Function.update_same]
        · simp only [Function.update_noteq hh]
      · simp only [Function.update_noteq hne]
    · simp only [hcl, if_false]
      exact ⟨s, rfl, rfl, fun _ => rfl, fun _ _ => rfl⟩
  | cons v rest =>
    refine ⟨_, rfl, rfl, fun h => ?_, fun h hne => ?_⟩
    · by_cases hh : h = send
      · subst hh
        simp only [Function.update_same]
      · simp only [Function.update_noteq hh]
    · simp only [Function.update_noteq hne]

/-- One action from a state that satisfies the invariant: no panic, the invariant holds
again, and a queue is closed exactly when its connection is removed. -/
theorem act_HubInv (cs : List Connection) (pre : List Action) (s : State) (a : Action)
    (hid : ∀ c₁ ∈ cs, ∀ c₂ ∈ cs, c₁.ID = c₂.ID → c₁ = c₂)
    (hsend : ∀ c₁ ∈ cs, ∀ c₂ ∈ cs, c₁.send = c₂.send → c₁ = c₂)
    (hcs : ∀ c ∈ registered (hubEvents pre), c ∈ cs)
    (hinv : HubInv cs (hubEvents pre) s)
    (hreg : ∀ c, a = Action.hub (Event.register c) →
      c ∈ cs ∧ c ∉ registered (hubEvents pre))
    (hun : ∀ c, a = Action.hub (Event.unregister c) → c ∈ registered (hubEvents pre)) :
    ∃ (s' : State) (calls : List Call), act s a = .ok (s', calls)
      ∧ HubInv cs (hubEvents (pre ++ [a])) s'
      ∧ (∀ x ∈ cs, (s.inMap x ∧ ¬ s'.inMap x) ↔ (s.sendOpen x ∧ ¬ s'.sendOpen x)) := by
  cases a with
  | hub e =>
    have hev : hubEvents (pre ++ [Action.hub e]) = hubEvents pre ++ [e] := by
      rw [hubEvents_append]; rfl
    rw [hev]
    exact step_HubInv cs (hubEvents pre) s e hid hsend hcs hinv
      (fun c he => hreg c (by rw [he])) (fun c he => hun c (by rw [he]))
  | recv send =>
    have hev : hubEvents (pre ++ [Action.recv send]) = hubEvents pre := by
      rw [hubEvents_append]
      exact List.append_nil _
    obtain ⟨s', hact, hhub, hflag, _⟩ := act_recv s send
    rw [hev]
    exact ⟨s', [], hact, HubInv_same cs (hubEvents pre) (hubEvents pre) s s' hinv
      (by rw [hhub]) hflag rfl⟩

/-- The hypotheses on the values received by the hub, for the actions without the last. -/
theorem admissible_actions_initial (cs : List Connection) (pre : List Action) (a : Action)
    (hcs : ∀ c, Event.register c ∈ hubEvents (pre ++ [a]) → c ∈ cs)
    (honce : (registered (hubEvents (pre ++ [a]))).Nodup)
    (hbefore : ∀ p c q, hubEvents (pre ++ [a]) = p ++ Event.unregister c :: q →
      Event.register c ∈ p) :
    ((∀ c, Event.register c ∈ hubEvents pre → c ∈ cs)
      ∧ (registered (hubEvents pre)).Nodup
      ∧ (∀ p c q, hubEvents pre = p ++ Event.unregister c :: q → Event.register c ∈ p))
    ∧ (∀ c, a = Action.hub (Event.register c) → c ∈ cs ∧ c ∉ registered (hubEvents pre))
    ∧ (∀ c, a = Action.hub (Event.unregister c) → c ∈ registered (hubEvents pre)) := by
  cases a with
  | hub e =>
    have hev : hubEvents (pre ++ [Action.hub e]) = hubEvents pre ++ [e] := by
      rw [hubEvents_append]; rfl
    rw [hev] at hcs honce hbefore
    obtain ⟨hreg, hun⟩ := last_event_admissible cs (hubEvents pre) e hcs honce hbefore
    refine ⟨admissible_initial cs (hubEvents pre) e hcs honce hbefore, ?_, ?_⟩
    · intro c hc
      cases hc
      exact hreg c rfl
    · intro c hc
      cases hc
      exact hun c rfl
  | recv send =>
    have hev : hubEvents (pre ++ [Action.recv send]) = hubEvents pre := by
      rw [hubEvents_append]
      exact List.append_nil _
    rw [hev] at hcs honce hbefore
    refine ⟨⟨hcs, honce, hbefore⟩, ?_, ?_⟩
    · intro c hc
      cases hc
    · intro c hc
      cases hc

theorem act_map_entry (s s' : State) (a : Action) (calls : List Call)
    (h : act s a = .ok (s', calls)) (id : String) (c : Connection)
    (hc : s'.hub.connections id = some c) :
    s.hub.connections id = some c ∨ (a = Action.hub (Event.register c) ∧ c.ID = id) := by
  cases a with
  | hub e =>
    rcases step_map_entry s s' e calls h id c hc with h1 | ⟨h1, h2⟩
    · exact Or.inl h1
    · exact Or.inr ⟨by rw [h1], h2⟩
  | recv send =>
    obtain ⟨s₁, hact, hhub, _⟩ := act_recv s send
    rw [hact] at h
    simp only [Except.ok.injEq, Prod.mk.injEq] at h
    obtain ⟨rfl, _⟩ := h
    rw [hhub] at hc
    exact Or.inl hc

theorem act_map_removal (s s' : State) (a : Action) (calls : List Call)
    (h : act s a = .ok (s', calls)) (id : String) (c : Connection)
    (hc : s.hub.connections id = some c) (hgone : s'.hub.connections id = none) :
    (∃ c' : Connection, a = Action.hub (Event.unregister c') ∧ c'.ID = id)
    ∨ (∃ (m : Msg) (c₀ : Connection), a = Action.hub (Event.outbound m)
        ∧ s.hub.connections m.ConnectionID = some c₀ ∧ c₀.ID = id
        ∧ (s.chans c₀.send).trySend m.Data = .ok none) := by
  cases a with
  | hub e =>
    rcases step_map_removal s s' e calls h id c hc hgone with
      ⟨c', h1, h2⟩ | ⟨m, c₀, h1, h2, h3, h4⟩
    · exact Or.inl ⟨c', by rw [h1], h2⟩
    · exact Or.inr ⟨m, c₀, by rw [h1], h2, h3, h4⟩
  | recv send =>
    obtain ⟨s₁, hact, hhub, _⟩ := act_recv s send
    rw [hact] at h
    simp only [Except.ok.injEq, Prod.mk.injEq] at h
    obtain ⟨rfl, _⟩ := h
    rw [hhub, hc] at hgone
    cases hgone

/-- The callbacks of one action, and what it does to the listener list. -/
theorem act_calls (s s' : State) (a : Action) (calls : List Call)
    (h : act s a = .ok (s', calls)) :
    calls = hubCalls s.hub.listeners (hubEvents [a])
    ∧ s'.hub.listeners = s.hub.listeners ++ listens (hubEvents [a]) := by
  cases a with
  | hub e =>
    obtain ⟨h1, h2⟩ := step_calls s s' e calls h
    refine ⟨?_, h2⟩
    rw [h1]
    show _ = callsOf s.hub.listeners e ++ []
    rw [List.append_nil]
  | recv send =>
    obtain ⟨s₁, hact, hhub, _⟩ := act_recv s send
    rw [hact] at h
    simp only [Except.ok.injEq, Prod.mk.injEq] at h
    obtain ⟨rfl, rfl⟩ := h
    refine ⟨rfl, ?_⟩
    rw [hhub]
    show _ = s.hub.listeners ++ []
    rw [List.append_nil]

/-- The callbacks of a run with writer pumps are those of the values received by the hub:
the receives of the writer pumps do not change them. -/
theorem RunWithPumps_calls (acts : List Action) :
    ∀ (s s' : State) (calls : List Call), RunWithPumps s acts = .ok (s', calls) →
      calls = hubCalls s.hub.listeners (hubEvents acts)
      ∧ s'.hub.listeners = s.hub.listeners ++ listens (hubEvents acts) := by
  induction acts with
  | nil =>
    intro s s' calls h
    simp only [RunWithPumps, Except.ok.injEq, Prod.mk.injEq] at h
    obtain ⟨rfl, rfl⟩ := h
    exact ⟨rfl, by simp [hubEvents, listens]⟩
  | cons a rest ih =>
    intro s s' calls h
    rw [RunWithPumps_cons] at h
    cases hs : act s a with
    | error p => simp [hs] at h
    | ok r =>
      obtain ⟨s₁, calls₁⟩ := r
      simp only [hs] at h
      cases hr : RunWithPumps s₁ rest with
      | error p => simp [hr] at h
      | ok r' =>
        obtain ⟨s₂, calls₂⟩ := r'
        simp only [hr, Except.ok.injEq, Prod.mk.injEq] at h
        obtain ⟨rfl, rfl⟩ := h
        obtain ⟨hc1, hl1⟩ := act_calls s s₁ a calls₁ hs
        obtain ⟨hc2, hl2⟩ := ih s₁ s₂ calls₂ hr
        have hev : hubEvents (a :: rest) = hubEvents [a] ++ hubEvents rest :=
          hubEvents_append [a] rest
        refine ⟨?_, ?_⟩
        · rw [hc1, hc2, hl1, hev, hubCalls_append]
        · rw [hl2, hl1, hev, listens_append, List.append_assoc]

theorem RunWithPumps_snoc (s₀ s s' : State) (pre : List Action) (a : Action)
    (calls calls'' : List Call)
    (hpre : RunWithPumps s₀ pre = .ok (s, calls))
    (hall : RunWithPumps s₀ (pre ++ [a]) = .ok (s', calls'')) :
    ∃ calls' : List Call, act s a = .ok (s', calls') ∧ calls'' = calls ++ calls' := by
  rw [RunWithPumps_append, hpre] at hall
  simp only [RunWithPumps] at hall
  cases hs : act s a with
  | error p => simp [hs] at hall
  | ok r =>
    obtain ⟨s₁, calls₁⟩ := r
    simp only [hs, List.append_nil, Except.ok.injEq, Prod.mk.injEq] at hall
    obtain ⟨rfl, rfl⟩ := hall
    exact ⟨calls₁, rfl, rfl⟩

/-- The hub and the writer pumps handle admissible actions from the initial state without
panic; the state reached satisfies the invariant, and a connection that was unregistered is
not in the map. -/
theorem RunWithPumps_HubInv (cs : List Connection)
    (hid : ∀ c₁ ∈ cs, ∀ c₂ ∈ cs, c₁.ID = c₂.ID → c₁ = c₂)
    (hsend : ∀ c₁ ∈ cs, ∀ c₂ ∈ cs, c₁.send = c₂.send → c₁ = c₂)
    (acts : List Action) :
    (∀ c, Event.register c ∈ hubEvents acts → c ∈ cs) → (registered (hubEvents acts)).Nodup →
    (∀ p c q, hubEvents acts = p ++ Event.unregister c :: q → Event.register c ∈ p) →
    ∃ (s : State) (calls : List Call), RunWithPumps State.init acts = .ok (s, calls)
      ∧ HubInv cs (hubEvents acts) s
      ∧ (∀ c, Event.unregister c ∈ hubEvents acts → ¬ s.inMap c) := by
  induction acts using List.reverseRecOn with
  | nil =>
    intro _ _ _
    exact ⟨State.init, [], rfl, HubInv_init cs, fun c h => absurd h (List.not_mem_nil _)⟩
  | append_singleton pre a ih =>
    intro hcs honce hbefore
    obtain ⟨⟨hcs', honce', hbefore'⟩, hreg, hun⟩ :=
      admissible_actions_initial cs pre a hcs honce hbefore
    obtain ⟨s, calls, hrun, hinv, hgone⟩ := ih hcs' honce' hbefore'
    obtain ⟨s', calls', hstep, hinv', _⟩ := act_HubInv cs pre s a hid hsend
      (fun c hc => hcs' c ((mem_registered c _).1 hc)) hinv hreg hun
    refine ⟨s', calls ++ calls', ?_, hinv', fun c hc hin => ?_⟩
    · rw [RunWithPumps_append, hrun]
      simp only [RunWithPumps, hstep, List.append_nil]
    · rw [hubEvents_append, List.mem_append] at hc
      rcases hc with hpre | hlast
      · rcases act_map_entry s s' a calls' hstep c.ID c hin with hold | ⟨he, _⟩
        · exact hgone c hpre hold
        · obtain ⟨p, q, hpq⟩ := List.append_of_mem hpre
          have hr : Event.register c ∈ p := hbefore' p c q hpq
          have hr' : c ∈ registered (hubEvents pre) := by
            rw [mem_registered, hpq]
            exact List.mem_append_left _ hr
          exact (hreg c he).2 hr'
      · cases a with
        | hub e =>
          have he : e = Event.unregister c := by
            have : hubEvents [Action.hub e] = [e] := rfl
            rw [this, List.mem_singleton] at hlast
            exact hlast.symm
          subst he
          have := step_unregister_removes s s' c calls' hstep
          simp only [State.inMap, this] at hin
          cases hin
        | recv send =>
          have : hubEvents [Action.recv send] = [] := rfl
          rw [this] at hlast
          exact absurd hlast (List.not_mem_nil _)

/-- C6: let `cs` be connections with pairwise distinct ids, each with a send queue of its
own, and let `pre ++ [a]` be actions of the hub and of the writer pumps (values received by
`Hub.Run`, and receives of the writer pumps from the send queues, in any order) in which
the hub registers only connections of `cs`, each at most once, and unregisters a connection
only after its register.  Then the actions are handled from the initial state without panic
(so no step closes a queue that is closed already), and in the states `s` before and `s'`
after the last action the send queue of a connection of `cs` is open exactly when the
connection is in the map or not yet registered; the last action closes the queue of a
connection exactly when it removes the connection from the map. -/
theorem close_exactly_once (cs : List Connection) (pre : List Action) (a : Action)
    (hid : ∀ c₁ ∈ cs, ∀ c₂ ∈ cs, c₁.ID = c₂.ID → c₁ = c₂)
    (hsend : ∀ c₁ ∈ cs, ∀ c₂ ∈ cs, c₁.send = c₂.send → c₁ = c₂)
    (hcs : ∀ c, Event.register c ∈ hubEvents (pre ++ [a]) → c ∈ cs)
    (honce : (registered (hubEvents (pre ++ [a]))).Nodup)
    (hbefore : ∀ p c q, hubEvents (pre ++ [a]) = p ++ Event.unregister c :: q →
      Event.register c ∈ p) :
    ∃ (s : State) (calls : List Call) (s' : State) (calls' : List Call),
      RunWithPumps State.init pre = .ok (s, calls)
      ∧ act s a = .ok (s', calls')
      ∧ RunWithPumps State.init (pre ++ [a]) = .ok (s', calls ++ calls')
      ∧ (∀ c ∈ cs, s.sendOpen c ↔ (s.inMap c ∨ Event.register c ∉ hubEvents pre))
      ∧ (∀ c ∈ cs, s'.sendOpen c
          ↔ (s'.inMap c ∨ Event.register c ∉ hubEvents (pre ++ [a])))
      ∧ (∀ c ∈ cs, (s.inMap c ∧ ¬ s'.inMap c) ↔ (s.sendOpen c ∧ ¬ s'.sendOpen c)) := by
  obtain ⟨⟨hcs', honce', hbefore'⟩, hreg, hun⟩ :=
    admissible_actions_initial cs pre a hcs honce hbefore
  obtain ⟨s, calls, hrun, hinv, _⟩ :=
    RunWithPumps_HubInv cs hid hsend pre hcs' honce' hbefore'
  obtain ⟨s', calls', hstep, hinv', hclose⟩ := act_HubInv cs pre s a hid hsend
    (fun c hc => hcs' c ((mem_registered c _).1 hc)) hinv hreg hun
  refine ⟨s, calls, s', calls', hrun, hstep, ?_, fun c hc => ?_, fun c hc => ?_, hclose⟩
  · rw [RunWithPumps_append, hrun]
    simp only [RunWithPumps, hstep, List.append_nil]
  · rw [← mem_registered]
    exact hinv.2 c hc
  · rw [← mem_registered]
    exact hinv'.2 c hc

theorem drainedActions_admissible :
    (∀ c₁ ∈ [conn₁, conn₂], ∀ c₂ ∈ [conn₁, conn₂], c₁.ID = c₂.ID → c₁ = c₂)
    ∧ (∀ c₁ ∈ [conn₁, conn₂], ∀ c₂ ∈ [conn₁, conn₂], c₁.send = c₂.send → c₁ = c₂)
    ∧ (∀ c, Event.register c
          ∈ hubEvents (drainedActions ++ [Action.hub (Event.unregister conn₁)]) →
        c ∈ [conn₁, conn₂])
    ∧ (registered (hubEvents (drainedActions
          ++ [Action.hub (Event.unregister conn₁)]))).Nodup
    ∧ (∀ p c q, hubEvents (drainedActions ++ [Action.hub (Event.unregister conn₁)])
          = p ++ Event.unregister c :: q → Event.register c ∈ p) := by
  have hev : hubEvents (drainedActions ++ [Action.hub (Event.unregister conn₁)])
      = [Event.listen listenerAll, Event.register conn₁,
          Event.outbound ⟨"c-1", [104]⟩, Event.unregister conn₁] := rfl
  rw [hev]
  refine ⟨by simp [conn₁, conn₂], by simp [conn₁, conn₂], ?_, by simp [registered], ?_⟩
  · intro c h
    simp at h
    simp [h]
  · intro p c q h
    match p, h with
    | [], h => simp at h
    | [_], h => simp at h
    | [_, _], h => simp at h
    | [_, _, _], h =>
      simp at h
      obtain ⟨rfl, rfl, rfl, rfl, _⟩ := h
      simp
    | _ :: _ :: _ :: _ :: r, h =>
      simp at h

theorem close_exactly_once_witness :
    (∀ c₁ ∈ [conn₁, conn₂], ∀ c₂ ∈ [conn₁, conn₂], c₁.ID = c₂.ID → c₁ = c₂)
    ∧ (∀ c₁ ∈ [conn₁, conn₂], ∀ c₂ ∈ [conn₁, conn₂], c₁.send = c₂.send → c₁ = c₂)
    ∧ (∀ c, Event.register c
          ∈ hubEvents (drainedActions ++ [Action.hub (Event.unregister conn₁)]) →
        c ∈ [conn₁, conn₂])
    ∧ (registered (hubEvents (drainedActions
          ++ [Action.hub (Event.unregister conn₁)]))).Nodup
    ∧ (∀ p c q, hubEvents (drainedActions ++ [Action.hub (Event.unregister conn₁)])
          = p ++ Event.unregister c :: q → Event.register c ∈ p)
    ∧ ∃ (s : State) (calls : List Call) (s' : State) (calls' : List Call),
        RunWithPumps State.init drainedActions = .ok (s, calls)
        ∧ act s (Action.hub (Event.unregister conn₁)) = .ok (s', calls')
        ∧ (s.chans conn₁.send).buf = []
        ∧ (s.inMap conn₁ ∧ ¬ s'.inMap conn₁)
        ∧ (s.sendOpen conn₁ ∧ ¬ s'.sendOpen conn₁) := by
  obtain ⟨hid, hsend, hcs, honce, hbefore⟩ := drainedActions_admissible
  obtain ⟨s, calls, s', calls', hrun, hstep, _, hs, _, hclose⟩ :=
    close_exactly_once [conn₁, conn₂] drainedActions (Action.hub (Event.unregister conn₁))
      hid hsend hcs honce hbefore
  have hs_eq : s = ⟨⟨Function.update NewHub.connections "c-1" (some conn₁), [listenerAll]⟩,
      Function.update (Function.update State.init.chans 0 ⟨sendCapacity, [[104]], false⟩) 0
        ⟨sendCapacity, [], false⟩⟩ := by
    have hrun' : RunWithPumps State.init drainedActions
        = .ok (⟨⟨Function.update NewHub.connections "c-1" (some conn₁), [listenerAll]⟩,
          Function.update (Function.update State.init.chans 0
            ⟨sendCapacity, [[104]], false⟩) 0 ⟨sendCapacity, [], false⟩⟩,
          [Call.onConnect listenerAll conn₁]) := rfl
    rw [hrun'] at hrun
    simp only [Except.ok.injEq, Prod.mk.injEq] at hrun
    exact hrun.1.symm
  have hbuf : (s.chans conn₁.send).buf = [] := by
    rw [hs_eq]
    simp only [conn₁, Function.update_same]
  have hin : s.inMap conn₁ := by
    rw [hs_eq]
    simp only [State.inMap, conn₁, Function.update_same]
  have hout : ¬ s'.inMap conn₁ := by
    have hgone := step_unregister_removes s s' conn₁ calls' hstep
    simp only [State.inMap, hgone]
    exact fun h => nomatch h
  exact ⟨hid, hsend, hcs, honce, hbefore, s, calls, s', calls', hrun, hstep, hbuf,
    ⟨hin, hout⟩, (hclose conn₁ (by simp)).1 ⟨hin, hout⟩⟩

/-- C11, as stated, fails: after a listener, the register of `conn₁` and 257 outbound
messages for it, while the writer pump of `conn₁` takes nothing from its queue, the
register has been processed and the only callback called is the `OnConnect`, so no
on-disconnect has fired, yet `HasConnection` is false. -/
theorem hasConnection_false_without_disconnect :
    ∃ s : State,
      RunWithPumps State.init (([Event.listen listenerAll, Event.register conn₁]
          ++ (List.replicate 257 ([104] : Bytes)).map
              (fun x => Event.outbound ⟨"c-1", x⟩)).map Action.hub)
        = .ok (s, [Call.onConnect listenerAll conn₁])
      ∧ s.hub.HasConnection "c-1" = false := by
  rw [RunWithPumps_hub]
  have hfirst : Run State.init [Event.listen listenerAll, Event.register conn₁]
      = .ok (⟨⟨Function.update NewHub.connections "c-1" (some conn₁), [listenerAll]⟩,
              State.init.chans⟩, [Call.onConnect listenerAll conn₁]) := rfl
  have hroom := Run_outbound_room conn₁ (List.replicate 256 ([104] : Bytes))
    ⟨⟨Function.update NewHub.connections "c-1" (some conn₁), [listenerAll]⟩, State.init.chans⟩
    (by simp only [conn₁, Function.update_same]) rfl
    (by simp only [State.init, Chan.make, List.length_nil, List.length_replicate,
          sendCapacity]; omega)
  have hsplit : (List.replicate 257 ([104] : Bytes)).map
        (fun x => Event.outbound ⟨"c-1", x⟩)
      = (List.replicate 256 ([104] : Bytes)).map (fun x => Event.outbound ⟨conn₁.ID, x⟩)
        ++ [Event.outbound ⟨"c-1", [104]⟩] := by
    rw [show (257 : Nat) = 256 + 1 from rfl, List.replicate_succ', List.map_append]
    rfl
  refine ⟨⟨⟨Function.update (Function.update NewHub.connections "c-1" (some conn₁)) "c-1" none,
      [listenerAll]⟩,
    Function.update (Function.update State.init.chans conn₁.send
        ⟨sendCapacity, [] ++ List.replicate 256 ([104] : Bytes), false⟩) conn₁.send
      ⟨sendCapacity, [] ++ List.replicate 256 ([104] : Bytes), true⟩⟩, ?_, ?_⟩
  · rw [Run_append, hfirst]
    simp only []
    rw [hsplit, Run_append, hroom]
    simp only [Run, step, Function.update_same, Chan.trySend, Chan.close, State.init,
      Chan.make, List.nil_append, List.length_replicate, sendCapacity, Nat.lt_irrefl,
      Bool.false_eq_true, if_false, List.append_nil, conn₁]
  · simp only [Hub.HasConnection, Function.update_same]

/-- C11, amended: on actions of the hub and of the writer pumps as in C6 (connections `cs`
with distinct ids and queues, each registered at most once, unregistered only after its
register; the writer pumps receive from the queues at any time), with `s` the state before
the last action `a` and `s'` the state after it:
`HasConnection id` true means that a connection with that id was registered, that no
unregister of it was processed, and that no `OnDisconnect` was called for it;
`HasConnection` turns from false to true exactly at the register of the connection; it
turns from true to false exactly at the unregister of the connection or at an outbound
message for it that finds its queue full (the eviction, which calls no `OnDisconnect`);
and once false after the register it stays false. -/
theorem hasConnection_lifecycle (cs : List Connection) (pre : List Action) (a : Action)
    (hid : ∀ c₁ ∈ cs, ∀ c₂ ∈ cs, c₁.ID = c₂.ID → c₁ = c₂)
    (hsend : ∀ c₁ ∈ cs, ∀ c₂ ∈ cs, c₁.send = c₂.send → c₁ = c₂)
    (hcs : ∀ c, Event.register c ∈ hubEvents (pre ++ [a]) → c ∈ cs)
    (honce : (registered (hubEvents (pre ++ [a]))).Nodup)
    (hbefore : ∀ p c q, hubEvents (pre ++ [a]) = p ++ Event.unregister c :: q →
      Event.register c ∈ p) :
    ∃ (s : State) (calls : List Call) (s' : State) (calls' : List Call),
      RunWithPumps State.init pre = .ok (s, calls)
      ∧ act s a = .ok (s', calls')
      ∧ (∀ id : String, s'.hub.HasConnection id = true →
          ∃ c ∈ cs, c.ID = id ∧ Event.register c ∈ hubEvents (pre ++ [a])
            ∧ Event.unregister c ∉ hubEvents (pre ++ [a])
            ∧ ∀ l : Listener, Call.onDisconnect l c ∉ calls ++ calls')
      ∧ (∀ c ∈ cs,
          (s.hub.HasConnection c.ID = false ∧ s'.hub.HasConnection c.ID = true)
            ↔ a = Action.hub (Event.register c))
      ∧ (∀ c ∈ cs,
          (s.hub.HasConnection c.ID = true ∧ s'.hub.HasConnection c.ID = false)
            ↔ (s.hub.HasConnection c.ID = true
                ∧ (a = Action.hub (Event.unregister c)
                  ∨ ∃ m : Msg, a = Action.hub (Event.outbound m) ∧ m.ConnectionID = c.ID
                      ∧ (s.chans c.send).cap ≤ (s.chans c.send).len)))
      ∧ (∀ c ∈ cs, Event.register c ∈ hubEvents pre → s.hub.HasConnection c.ID = false →
          s'.hub.HasConnection c.ID = false) := by
  obtain ⟨⟨hcs', honce', hbefore'⟩, hreg, hun⟩ :=
    admissible_actions_initial cs pre a hcs honce hbefore
  obtain ⟨s, calls, hrun, hinv, _⟩ :=
    RunWithPumps_HubInv cs hid hsend pre hcs' honce' hbefore'
  obtain ⟨s', calls'', hrun', hinv', hgone'⟩ :=
    RunWithPumps_HubInv cs hid hsend (pre ++ [a]) hcs honce hbefore
  obtain ⟨calls', hstep, hcalls⟩ :=
    RunWithPumps_snoc State.init s s' pre a calls calls'' hrun hrun'
  have hregcs : ∀ c ∈ registered (hubEvents pre), c ∈ cs :=
    fun c hc => hcs' c ((mem_registered c _).1 hc)
  have hregcs' : ∀ c ∈ registered (hubEvents (pre ++ [a])), c ∈ cs :=
    fun c hc => hcs c ((mem_registered c _).1 hc)
  have hiff := HasConnection_iff_inMap cs (hubEvents pre) s hid hregcs hinv
  have hiff' := HasConnection_iff_inMap cs (hubEvents (pre ++ [a])) s' hid hregcs' hinv'
  have hfalse : ∀ (t : State) (c : Connection), t.hub.HasConnection c.ID = false
      ↔ ¬ t.hub.HasConnection c.ID = true := by
    intro t c
    cases t.hub.HasConnection c.ID <;> simp
  -- false to true exactly at the register
  have hup : ∀ c ∈ cs, (s.hub.HasConnection c.ID = false ∧ s'.hub.HasConnection c.ID = true)
      ↔ a = Action.hub (Event.register c) := by
    intro c hc
    constructor
    · rintro ⟨hf, ht⟩
      have hin' := (hiff' c hc).1 ht
      rcases act_map_entry s s' a calls' hstep c.ID c hin' with hold | ⟨he, _⟩
      · rw [hfalse] at hf
        exact absurd ((hiff c hc).2 hold) hf
      · exact he
    · intro he
      obtain ⟨_, hnew⟩ := hreg c he
      constructor
      · rw [hfalse]
        intro ht
        exact hnew (hinv.1 _ _ ((hiff c hc).1 ht)).2
      · subst he
        simp only [act, step, Except.ok.injEq, Prod.mk.injEq] at hstep
        obtain ⟨rfl, _⟩ := hstep
        simp only [Hub.HasConnection, Function.update_same]
  refine ⟨s, calls, s', calls', hrun, hstep, ?_, hup, ?_, ?_⟩
  · intro id ht
    obtain ⟨c, hc⟩ := (HasConnection_true_iff _ _).1 ht
    obtain ⟨hcid, hcreg⟩ := hinv'.1 _ _ hc
    have hin : s'.inMap c := by
      simp only [State.inMap, hcid]
      exact hc
    have hnot : Event.unregister c ∉ hubEvents (pre ++ [a]) := fun hu => hgone' c hu hin
    refine ⟨c, hregcs' c hcreg, hcid, (mem_registered c _).1 hcreg, hnot, fun l hl => ?_⟩
    rw [← hcalls, (RunWithPumps_calls _ _ _ _ hrun').1] at hl
    exact hnot (onDisconnect_mem_hubCalls l c _ _ hl)
  · intro c hc
    constructor
    · rintro ⟨ht, hf⟩
      refine ⟨ht, ?_⟩
      have hin := (hiff c hc).1 ht
      have hopen : s.sendOpen c := (hinv.2 c hc).2 (Or.inl hin)
      rw [HasConnection_false_iff] at hf
      rcases act_map_removal s s' a calls' hstep c.ID c hin hf with
        ⟨c', he, hc'⟩ | ⟨m, c₀, he, hm, hc₀, hts⟩
      · left
        have hc'cs : c' ∈ cs := hregcs c' (hun c' he)
        rw [he, hid c' hc'cs c hc hc']
      · right
        have h0 := hinv.1 _ _ hm
        have hc₀cs : c₀ ∈ cs := hregcs c₀ h0.2
        have heq : c₀ = c := hid c₀ hc₀cs c hc hc₀
        subst heq
        refine ⟨m, he, h0.1.symm, ?_⟩
        simp only [State.sendOpen] at hopen
        simp only [Chan.trySend, hopen, Bool.false_eq_true, if_false] at hts
        by_cases hlt : (s.chans c₀.send).buf.length < (s.chans c₀.send).cap
        · simp [hlt] at hts
        · simp only [Chan.len]
          omega
    · rintro ⟨ht, hcase⟩
      refine ⟨ht, ?_⟩
      have hin := (hiff c hc).1 ht
      have hopen : s.sendOpen c := (hinv.2 c hc).2 (Or.inl hin)
      rw [HasConnection_false_iff]
      rcases hcase with he | ⟨m, he, hm, hfull⟩
      · subst he
        exact step_unregister_removes s s' c calls' hstep
      · subst he
        simp only [State.inMap] at hin
        simp only [State.sendOpen] at hopen
        have hnot : ¬ (s.chans c.send).buf.length < (s.chans c.send).cap := by
          simp only [Chan.len] at hfull
          omega
        simp only [act, step, hm, hin, Chan.trySend, Chan.close, hopen, hnot,
          Bool.false_eq_true, if_false, Except.ok.injEq, Prod.mk.injEq] at hstep
        obtain ⟨rfl, _⟩ := hstep
        simp only [Function.update_same]
  · intro c hc hreg' hf
    rw [hfalse]
    intro ht
    have he := (hup c hc).1 ⟨hf, ht⟩
    exact (hreg c he).2 ((mem_registered c _).2 hreg')

theorem hasConnection_lifecycle_witness :
    (∀ c₁ ∈ [conn₁, conn₂], ∀ c₂ ∈ [conn₁, conn₂], c₁.ID = c₂.ID → c₁ = c₂)
    ∧ (∀ c₁ ∈ [conn₁, conn₂], ∀ c₂ ∈ [conn₁, conn₂], c₁.send = c₂.send → c₁ = c₂)
    ∧ (∀ c, Event.register c
          ∈ hubEvents (drainedActions ++ [Action.hub (Event.unregister conn₁)]) →
        c ∈ [conn₁, conn₂])
    ∧ (registered (hubEvents (drainedActions
          ++ [Action.hub (Event.unregister conn₁)]))).Nodup
    ∧ (∀ p c q, hubEvents (drainedActions ++ [Action.hub (Event.unregister conn₁)])
          = p ++ Event.unregister c :: q → Event.register c ∈ p)
    ∧ ∃ (s : State) (calls : List Call) (s' : State) (calls' : List Call),
        RunWithPumps State.init drainedActions = .ok (s, calls)
        ∧ act s (Action.hub (Event.unregister conn₁)) = .ok (s', calls')
        ∧ s.hub.HasConnection "c-1" = true
        ∧ s'.hub.HasConnection "c-1" = false := by
  obtain ⟨hid, hsend, hcs, honce, hbefore⟩ := drainedActions_admissible
  obtain ⟨s, calls, s', calls', hrun, hstep, _, _, hdown, _⟩ :=
    hasConnection_lifecycle [conn₁, conn₂] drainedActions
      (Action.hub (Event.unregister conn₁)) hid hsend hcs honce hbefore
  have ht : s.hub.HasConnection "c-1" = true := by
    have hrun' : RunWithPumps State.init drainedActions
        = .ok (⟨⟨Function.update NewHub.connections "c-1" (some conn₁), [listenerAll]⟩,
          Function.update (Function.update State.init.chans 0
            ⟨sendCapacity, [[104]], false⟩) 0 ⟨sendCapacity, [], false⟩⟩,
          [Call.onConnect listenerAll conn₁]) := rfl
    rw [hrun'] at hrun
    simp only [Except.ok.injEq, Prod.mk.injEq] at hrun
    rw [← hrun.1]
    simp only [Hub.HasConnection, Function.update_same]
  have hf := ((hdown conn₁ (by simp)).2 ⟨ht, Or.inl rfl⟩).2
  exact ⟨hid, hsend, hcs, honce, hbefore, s, calls, s', calls', hrun, hstep, ht, hf⟩

/-! ## The callbacks of a connection in a run with writer pumps -/

/-- The `OnConnect` calls for `c` in the callbacks of a run are those of the listeners with
`OnConnect` set that are in the listener list when `c` is registered. -/
theorem onConnect_mem_hubCalls_iff (l : Listener) (c : Connection) (evs : List Event) :
    ∀ ls : List Listener,
      Call.onConnect l c ∈ hubCalls ls evs
        ↔ (l.OnConnect.isSome = true
            ∧ ∃ p q, evs = p ++ Event.register c :: q ∧ l ∈ ls ++ listens p) := by
  induction evs with
  | nil =>
    intro ls
    constructor
    · intro h
      simp [hubCalls] at h
    · rintro ⟨_, p, q, h, _⟩
      simp at h
  | cons e rest ih =>
    intro ls
    constructor
    · intro h
      have hcons : hubCalls ls (e :: rest)
          = callsOf ls e ++ hubCalls (ls ++ listens [e]) rest := rfl
      rw [hcons, List.mem_append] at h
      rcases h with h | h
      · have he := onConnect_mem_callsOf l c ls e h
        subst he
        simp only [callsOf] at h
        obtain ⟨_, hl, hon⟩ := (mem_fireConnect l c c ls).1 h
        exact ⟨hon, [], rest, rfl, by simpa [listens] using hl⟩
      · obtain ⟨hon, p, q, hpq, hl⟩ := (ih _).1 h
        refine ⟨hon, e :: p, q, by rw [hpq]; rfl, ?_⟩
        rw [listens_cons e p, ← List.append_assoc]
        exact hl
    · rintro ⟨hon, p, q, hpq, hl⟩
      rw [hpq]
      exact onConnect_mem_of_registered ls p q l c hon hl

/-- C14, as stated, fails: with a listener that has only `OnMessage` set (as the listener
that `main` registers for the stream), the register of `conn₁` and one inbound message of
`conn₁`, the callbacks of the hub are one `OnMessage` for the id of `conn₁` and nothing
else: there is no earlier on-connect for that id. -/
theorem onMessage_without_onConnect :
    ProducedBy [conn₁] (hubEvents (messageOnlyTrace.map Action.hub))
    ∧ ∃ (s : State) (calls : List Call),
        RunWithPumps State.init (messageOnlyTrace.map Action.hub) = .ok (s, calls)
        ∧ calls = [Call.onMessage listenerMsg ⟨"c-1", [104, 105]⟩]
        ∧ ∀ (l : Listener) (c : Connection), Call.onConnect l c ∉ calls := by
  refine ⟨by rw [hubEvents_hub]; exact messageOnlyTrace_produced, _, [Call.onMessage listenerMsg ⟨"c-1", [104, 105]⟩],
    rfl, rfl, fun l c h => ?_⟩
  simp only [List.mem_singleton] at h
  cases h

/-- C14, amended: let the values received by the hub, among actions of the hub and of the
writer pumps, be produced by `serveWS` and the reader pumps for connections `cs` with
distinct ids and queues.  The actions are handled without panic, and for every `OnMessage`
call in the callbacks, with message `m`: the message was posted by a connection `c` of `cs`
with the id of `m`, the hub had handled the register of `c` before and no unregister of
`c`; no `OnDisconnect` for a connection with that id is among the callbacks before the
`OnMessage` call; every listener with `OnConnect` set that was registered before the
register of `c` got its `OnConnect` for `c` before the `OnMessage` call; the `OnConnect`
calls for `c` are exactly those of such listeners; and when no listener registered before
the register of `c` has `OnConnect` set, the callbacks contain no `OnConnect` for a
connection with that id. -/
theorem onMessage_ordering (cs : List Connection) (acts : List Action)
    (hid : ∀ c₁ ∈ cs, ∀ c₂ ∈ cs, c₁.ID = c₂.ID → c₁ = c₂)
    (hsend : ∀ c₁ ∈ cs, ∀ c₂ ∈ cs, c₁.send = c₂.send → c₁ = c₂)
    (hprod : ProducedBy cs (hubEvents acts)) :
    ∃ (s : State) (calls : List Call),
      RunWithPumps State.init acts = .ok (s, calls)
      ∧ ∀ (a b : List Call) (l : Listener) (m : Msg),
          calls = a ++ Call.onMessage l m :: b →
          ∃ c ∈ cs, c.ID = m.ConnectionID
            ∧ (∃ p q : List Event, hubEvents acts = p ++ Event.inbound (some m) :: q
                ∧ Event.register c ∈ p ∧ Event.unregister c ∉ p)
            ∧ (∀ (l' : Listener) (c' : Connection), Call.onDisconnect l' c' ∈ a →
                c'.ID ≠ m.ConnectionID)
            ∧ (∀ l' : Listener, l'.OnConnect.isSome = true →
                (∀ p₁ p₂, hubEvents acts = p₁ ++ Event.register c :: p₂ → l' ∈ listens p₁) →
                Call.onConnect l' c ∈ a)
            ∧ (∀ l' : Listener, Call.onConnect l' c ∈ calls
                ↔ (l'.OnConnect.isSome = true
                    ∧ ∃ p₁ p₂, hubEvents acts = p₁ ++ Event.register c :: p₂
                        ∧ l' ∈ listens p₁))
            ∧ ((∀ (l' : Listener) (p₁ p₂ : List Event),
                  hubEvents acts = p₁ ++ Event.register c :: p₂ → l' ∈ listens p₁ →
                  l'.OnConnect.isSome = false) →
                ∀ (l' : Listener) (c' : Connection), c'.ID = m.ConnectionID →
                  Call.onConnect l' c' ∉ calls) := by
  obtain ⟨hreg, _, honce, hbefore, _, hinb⟩ :=
    ProducedBy_admissible cs (hubEvents acts) hprod
  obtain ⟨s, calls, hrun, _⟩ := RunWithPumps_HubInv cs hid hsend acts hreg honce hbefore
  have hcalls : calls = hubCalls [] (hubEvents acts) := (RunWithPumps_calls acts _ _ _ hrun).1
  refine ⟨s, calls, hrun, fun a b l m hsplit => ?_⟩
  rw [hcalls] at hsplit
  obtain ⟨p, q, x, hpq, hax, hx⟩ :=
    onMessage_hubCalls_split l m (hubEvents acts) [] a b hsplit
  obtain ⟨c, hc, hcid, hrp, hnoun⟩ := hinb p m q hpq
  have hiff : ∀ l' : Listener, Call.onConnect l' c ∈ calls
      ↔ (l'.OnConnect.isSome = true
          ∧ ∃ p₁ p₂, hubEvents acts = p₁ ++ Event.register c :: p₂ ∧ l' ∈ listens p₁) := by
    intro l'
    rw [hcalls, onConnect_mem_hubCalls_iff]
    simp only [List.nil_append]
  refine ⟨c, hc, hcid, ⟨p, q, hpq, hrp, fun hun => hnoun c hun hcid⟩, ?_, ?_, hiff, ?_⟩
  · intro l' c' hmem
    rw [hax, List.mem_append] at hmem
    rcases hmem with hmem | hmem
    · exact hnoun c' (onDisconnect_mem_hubCalls l' c' p [] hmem)
    · obtain ⟨l'', hk⟩ := hx _ hmem
      cases hk
  · intro l' hon hl'
    obtain ⟨p₁, p₂, hp⟩ := List.append_of_mem hrp
    have hl : l' ∈ listens p₁ := by
      apply hl' p₁ (p₂ ++ Event.inbound (some m) :: q)
      rw [hpq, hp]
      simp only [List.append_assoc, List.cons_append]
    rw [hax, hp]
    apply List.mem_append_left
    exact onConnect_mem_of_registered [] p₁ p₂ l' c hon (by simpa using hl)
  · intro hnone l' c' hidc hmem
    have hc' : c' ∈ cs := by
      rw [hcalls] at hmem
      exact hreg c' (onConnect_mem_hubCalls l' c' _ [] hmem)
    have heq : c' = c := hid c' hc' c hc (by rw [hidc, hcid])
    subst heq
    obtain ⟨hon, p₁, p₂, hp, hl⟩ := (hiff l').1 hmem
    rw [hnone l' p₁ p₂ hp hl] at hon
    cases hon

theorem onMessage_ordering_witness :
    (∀ c₁ ∈ [conn₁], ∀ c₂ ∈ [conn₁], c₁.ID = c₂.ID → c₁ = c₂)
    ∧ (∀ c₁ ∈ [conn₁], ∀ c₂ ∈ [conn₁], c₁.send = c₂.send → c₁ = c₂)
    ∧ ProducedBy [conn₁] (hubEvents (lifecycleTrace.map Action.hub))
    ∧ (∃ s : State, RunWithPumps State.init (lifecycleTrace.map Action.hub)
        = .ok (s, [Call.onConnect listenerAll conn₁,
                   Call.onMessage listenerAll ⟨"c-1", [104, 105]⟩,
                   Call.onMessage listenerMsg ⟨"c-1", [104, 105]⟩,
                   Call.onDisconnect listenerAll conn₁]))
    ∧ ∃ (s : State) (calls : List Call),
        RunWithPumps State.init (lifecycleTrace.map Action.hub) = .ok (s, calls)
        ∧ ∀ (a b : List Call) (l : Listener) (m : Msg),
            calls = a ++ Call.onMessage l m :: b →
            ∃ c ∈ [conn₁], c.ID = m.ConnectionID
              ∧ (∃ p q : List Event,
                  hubEvents (lifecycleTrace.map Action.hub)
                    = p ++ Event.inbound (some m) :: q
                  ∧ Event.register c ∈ p ∧ Event.unregister c ∉ p)
              ∧ (∀ (l' : Listener) (c' : Connection), Call.onDisconnect l' c' ∈ a →
                  c'.ID ≠ m.ConnectionID)
              ∧ (∀ l' : Listener, l'.OnConnect.isSome = true →
                  (∀ p₁ p₂, hubEvents (lifecycleTrace.map Action.hub)
                      = p₁ ++ Event.register c :: p₂ → l' ∈ listens p₁) →
                  Call.onConnect l' c ∈ a)
              ∧ (∀ l' : Listener, Call.onConnect l' c ∈ calls
                  ↔ (l'.OnConnect.isSome = true
                      ∧ ∃ p₁ p₂, hubEvents (lifecycleTrace.map Action.hub)
                          = p₁ ++ Event.register c :: p₂
                          ∧ l' ∈ listens p₁))
              ∧ ((∀ (l' : Listener) (p₁ p₂ : List Event),
                    hubEvents (lifecycleTrace.map Action.hub)
                      = p₁ ++ Event.register c :: p₂ → l' ∈ listens p₁ →
                    l'.OnConnect.isSome = false) →
                  ∀ (l' : Listener) (c' : Connection), c'.ID = m.ConnectionID →
                    Call.onConnect l' c' ∉ calls) :=
  ⟨by simp, by simp, by rw [hubEvents_hub]; exact lifecycleTrace_produced, ⟨_, rfl⟩,
    onMessage_ordering [conn₁] (lifecycleTrace.map Action.hub) (by simp) (by simp)
      (by rw [hubEvents_hub]; exact lifecycleTrace_produced)⟩

/-! ## The balance of `OnConnect` and `OnDisconnect` -/

/-- A listen value after a produced trace leaves it produced. -/
theorem ProducedBy_append_listen (cs : List Connection) (evs : List Event) (l : Listener)
    (h : ProducedBy cs evs) : ProducedBy cs (evs ++ [Event.listen l]) := by
  constructor
  · intro c hc
    obtain ⟨ok, reads, hpre⟩ := h.1 c hc
    refine ⟨ok, reads, ?_⟩
    have hf : (evs ++ [Event.listen l]).filter (Event.forConnection c.ID)
        = evs.filter (Event.forConnection c.ID) := by
      rw [List.filter_append]
      simp [Event.forConnection]
    rw [hf]
    exact hpre
  · intro e he
    rw [List.mem_append, List.mem_singleton] at he
    rcases he with he | rfl
    · exact h.2 e he
    · exact Or.inl ⟨l, rfl⟩

theorem doubleListenTrace_produced : ProducedBy [conn₁] doubleListenTrace := by
  constructor
  · intro c hc
    simp only [List.mem_singleton] at hc
    subst hc
    exact ⟨true, [ReadResult.error], List.prefix_refl _⟩
  · intro e he
    simp only [doubleListenTrace, List.mem_cons] at he
    rcases he with rfl | rfl | rfl | rfl | h
    · exact Or.inl ⟨_, rfl⟩
    · exact Or.inl ⟨_, rfl⟩
    · exact Or.inr (Or.inr ⟨conn₁, by simp, rfl⟩)
    · exact Or.inr (Or.inr ⟨conn₁, by simp, rfl⟩)
    · exact absurd h (List.not_mem_nil _)

/-- C13, as stated, fails: a listener with `OnConnect` and `OnDisconnect` set that is
registered twice before `conn₁` is accepted gets two `OnConnect` and two `OnDisconnect`
calls for `conn₁`, in a trace produced by `serveWS` and the reader pump of `conn₁`. -/
theorem twice_registered_listener_called_twice :
    ProducedBy [conn₁] doubleListenTrace
    ∧ listenerAll.OnConnect.isSome = true
    ∧ listenerAll.OnDisconnect.isSome = true
    ∧ doubleListenTrace
        = [Event.listen listenerAll, Event.listen listenerAll]
            ++ Event.register conn₁ :: [Event.unregister conn₁]
    ∧ listenerAll ∈ listens [Event.listen listenerAll, Event.listen listenerAll]
    ∧ ∃ (s : State) (calls : List Call),
        RunWithPumps State.init (doubleListenTrace.map Action.hub) = .ok (s, calls)
        ∧ calls = [Call.onConnect listenerAll conn₁, Call.onConnect listenerAll conn₁,
                   Call.onDisconnect listenerAll conn₁, Call.onDisconnect listenerAll conn₁]
        ∧ calls.count (Call.onConnect listenerAll conn₁) = 2
        ∧ calls.count (Call.onDisconnect listenerAll conn₁) = 2 :=
  ⟨doubleListenTrace_produced, rfl, rfl, rfl, by simp [listens], _, _, rfl, rfl,
    by decide, by decide⟩

/-- C13, amended: let the values received by the hub, among actions of the hub and of the
writer pumps, be produced by `serveWS` and the reader pumps for connections `cs` with
distinct ids and queues (so each connection is registered once and its reader pump posts
it on unregister once, on exit), with any listen and outbound values in between, some of
which may evict the connection.  Let the unregister of `c` be among them (`c` has
terminated) and let `l` be a listener with `OnConnect` and `OnDisconnect` set.  Then the
actions are handled without panic; the values are some `p`, the register of `c`, some `b`,
the unregister of `c` and some `q`; `OnConnect` of `l` is called for `c` once for each
time `l` is registered in `p`, and `OnDisconnect` of `l` once for each time `l` is
registered in `p` or `b`; so both are called exactly once when `l` is registered exactly
once before the register of `c` and not between the register and the unregister of `c`,
whatever is registered after the unregister; and `l` is called for no other connection
with the id of `c`. -/
theorem connect_disconnect_balance (cs : List Connection) (acts : List Action)
    (c : Connection) (l : Listener)
    (hid : ∀ c₁ ∈ cs, ∀ c₂ ∈ cs, c₁.ID = c₂.ID → c₁ = c₂)
    (hsend : ∀ c₁ ∈ cs, ∀ c₂ ∈ cs, c₁.send = c₂.send → c₁ = c₂)
    (hprod : ProducedBy cs (hubEvents acts))
    (hterm : Event.unregister c ∈ hubEvents acts)
    (hon : l.OnConnect.isSome = true) (hoff : l.OnDisconnect.isSome = true) :
    ∃ (s : State) (calls : List Call),
      RunWithPumps State.init acts = .ok (s, calls)
      ∧ (∃ p b q : List Event,
          hubEvents acts = p ++ Event.register c :: (b ++ Event.unregister c :: q))
      ∧ (∀ p b q : List Event,
          hubEvents acts = p ++ Event.register c :: (b ++ Event.unregister c :: q) →
          calls.count (Call.onConnect l c) = (listens p).count l
          ∧ calls.count (Call.onDisconnect l c) = (listens p).count l + (listens b).count l
          ∧ ((listens p).count l = 1 → l ∉ listens b →
              calls.count (Call.onConnect l c) = 1
              ∧ calls.count (Call.onDisconnect l c) = 1))
      ∧ (∀ c' : Connection, c'.ID = c.ID →
          (Call.onConnect l c' ∈ calls ∨ Call.onDisconnect l c' ∈ calls) → c' = c) := by
  obtain ⟨hreg, hunreg, honce, hbefore, hcount, _⟩ :=
    ProducedBy_admissible cs (hubEvents acts) hprod
  obtain ⟨s, calls, hrun, _⟩ := RunWithPumps_HubInv cs hid hsend acts hreg honce hbefore
  have hcalls : calls = hubCalls [] (hubEvents acts) := (RunWithPumps_calls acts _ _ _ hrun).1
  refine ⟨s, calls, hrun, ?_, ?_, ?_⟩
  · obtain ⟨p', q', hsplit'⟩ := List.append_of_mem hterm
    have hrp : Event.register c ∈ p' := hbefore p' c q' hsplit'
    obtain ⟨a, b, hab⟩ := List.append_of_mem hrp
    refine ⟨a, b, q', ?_⟩
    rw [hsplit', hab]
    simp only [List.append_assoc, List.cons_append]
  · intro p b q hsplit
    have hsplit' : hubEvents acts = (p ++ Event.register c :: b) ++ Event.unregister c :: q := by
      rw [hsplit]
      simp only [List.append_assoc, List.cons_append]
    -- the register of `c` occurs once
    have hnodup := honce
    rw [hsplit, registered_append] at hnodup
    have hreg_a : Event.register c ∉ p := by
      intro h
      have h1 : c ∈ registered p := (mem_registered c p).2 h
      have h2 : c ∈ registered (Event.register c :: (b ++ Event.unregister c :: q)) :=
        (mem_registered c _).2 (List.mem_cons_self _ _)
      exact (List.nodup_append.1 hnodup).2.2 h1 h2
    have hreg_r : Event.register c ∉ b ++ Event.unregister c :: q := by
      intro h
      have h1 : c ∈ registered (b ++ Event.unregister c :: q) := (mem_registered c _).2 h
      have hcons : registered (Event.register c :: (b ++ Event.unregister c :: q))
          = c :: registered (b ++ Event.unregister c :: q) :=
        registered_append [Event.register c] _
      have h2 := (List.nodup_append.1 hnodup).2.1
      rw [hcons] at h2
      exact (List.nodup_cons.1 h2).1 h1
    -- the unregister of `c` occurs once
    have hc1 := hcount c
    rw [hsplit', List.count_append, List.count_cons_self] at hc1
    have hun_p : Event.unregister c ∉ p ++ Event.register c :: b := by
      intro h
      have := List.count_pos_iff.2 h
      omega
    have hun_q : Event.unregister c ∉ q := by
      intro h
      have := List.count_pos_iff.2 h
      omega
    have h1 : calls.count (Call.onConnect l c) = (listens p).count l := by
      rw [hcalls, hsplit, count_onConnect_hubCalls [] p _ l c hon hreg_a hreg_r,
        List.nil_append]
    have h2 : calls.count (Call.onDisconnect l c)
        = (listens p).count l + (listens b).count l := by
      rw [hcalls, hsplit', count_onDisconnect_hubCalls [] _ q l c hoff hun_p hun_q,
        List.nil_append, listens_append, listens_cons (Event.register c) b,
        List.count_append, List.count_append]
      simp [listens]
    refine ⟨h1, h2, fun hp hb => ?_⟩
    have hb0 : (listens b).count l = 0 := List.count_eq_zero.2 hb
    rw [h1, h2, hp, hb0]
    exact ⟨rfl, rfl⟩
  · intro c' hidc hcall
    have hc : c ∈ cs := hunreg c hterm
    have hc' : c' ∈ cs := by
      rcases hcall with h | h
      · rw [hcalls] at h
        exact hreg c' (onConnect_mem_hubCalls l c' _ [] h)
      · rw [hcalls] at h
        exact hunreg c' (onDisconnect_mem_hubCalls l c' _ [] h)
    exact hid c' hc' c hc hidc

theorem connect_disconnect_balance_witness :
    ProducedBy [conn₁]
      (hubEvents ((evictionTrace ++ [Event.listen listenerAll]).map Action.hub))
    ∧ Event.unregister conn₁
        ∈ hubEvents ((evictionTrace ++ [Event.listen listenerAll]).map Action.hub)
    ∧ listenerAll.OnConnect.isSome = true
    ∧ listenerAll.OnDisconnect.isSome = true
    ∧ ∃ (s : State) (calls : List Call),
        RunWithPumps State.init
            ((evictionTrace ++ [Event.listen listenerAll]).map Action.hub) = .ok (s, calls)
        ∧ s.hub.listeners = [listenerAll, listenerAll]
        ∧ calls.count (Call.onConnect listenerAll conn₁) = 1
        ∧ calls.count (Call.onDisconnect listenerAll conn₁) = 1 := by
  have hprod : ProducedBy [conn₁]
      (hubEvents ((evictionTrace ++ [Event.listen listenerAll]).map Action.hub)) := by
    rw [hubEvents_hub]
    exact ProducedBy_append_listen _ _ _ evictionTrace_produced
  have hterm : Event.unregister conn₁
      ∈ hubEvents ((evictionTrace ++ [Event.listen listenerAll]).map Action.hub) := by
    rw [hubEvents_hub]
    exact List.mem_append_left _ (List.mem_cons_of_mem _ (List.mem_cons_of_mem _
      (List.mem_append_right _ (List.mem_singleton.2 rfl))))
  obtain ⟨s, calls, hrun, _, hall, _⟩ :=
    connect_disconnect_balance [conn₁]
      ((evictionTrace ++ [Event.listen listenerAll]).map Action.hub) conn₁ listenerAll
      (by simp) (by simp) hprod hterm rfl rfl
  have hsplit : hubEvents ((evictionTrace ++ [Event.listen listenerAll]).map Action.hub)
      = [Event.listen listenerAll] ++ Event.register conn₁
          :: ((List.replicate 257 ([104] : Bytes)).map (fun x => Event.outbound ⟨"c-1", x⟩)
              ++ Event.unregister conn₁ :: [Event.listen listenerAll]) := by
    rw [hubEvents_hub]
    simp only [evictionTrace, List.cons_append, List.append_assoc, List.nil_append]
  obtain ⟨_, _, hone⟩ := hall _ _ _ hsplit
  obtain ⟨h1, h2⟩ := hone (by simp [listens]) (by rw [listens_outbound]; simp)
  have hls : s.hub.listeners = [listenerAll, listenerAll] := by
    rw [(RunWithPumps_calls _ _ _ _ hrun).2, hubEvents_hub, listens_append]
    unfold evictionTrace
    rw [listens_cons (Event.listen listenerAll), listens_cons (Event.register conn₁),
      listens_append, listens_outbound]
    rfl
  exact ⟨hprod, hterm, rfl, rfl, s, calls, hrun, hls, h1, h2⟩

end Websocket
